import Mathlib

/-!
The extraction engine, registries and helpers of coto.

A shallow embedding of the Go sources of `bhangun/coto` and theorems about it.

Conventions of the embedding

* A Go `string` is a Lean `String`; positions count characters.
* A Go `map[string]V` of a registry is a function `String → Option V` (a missing key
  is `none`); the pattern table of an extractor is the list of its entries.
* A Go function that can panic returns `Except Panic α`.
* A method with a pointer receiver that changes its receiver returns the new value.
* The Go standard library functions the code calls (`strings`, `regexp`) are embedded
  in the namespaces `Coto.strings` and `Coto.regexp`, following the library's
  documentation and sources.
-/

namespace Coto

/-! ## Data model (`pkg/extractor/types.go`) -/

/-- CodeBlock of `pkg/extractor/types.go`: one extracted code block. The Go field
`Type` is `BlockType` here (`Type` is a Lean keyword). -/
structure CodeBlock where
  Content : String
  BlockType : String
  Package : String := ""
  Filename : String
  Language : String
  Imports : List String := []
  Annotations : List String := []
  Modifiers : List String := []
  deriving DecidableEq, Repr

/-- A Go run-time panic. -/
inductive Panic where
  /-- A method call through a nil pointer (here: a pattern missing from `patterns`). -/
  | nilDereference
  /-- The panic of `regexp.MustCompile` on a pattern that does not compile. -/
  | mustCompile (pattern : String)
  deriving DecidableEq, Repr

/-! ## Go `strings` -/

namespace strings

/-- Go `unicode.IsSpace`: the Unicode White_Space property. -/
def isSpace (c : Char) : Bool :=
  let n := c.toNat
  (9 ≤ n && n ≤ 13) || n == 32 || n == 0x85 || n == 0xA0 || n == 0x1680 ||
  (0x2000 ≤ n && n ≤ 0x200A) || n == 0x2028 || n == 0x2029 || n == 0x202F ||
  n == 0x205F || n == 0x3000

/-- Go `strings.TrimSpace`: the string without its leading and trailing white space. -/
def TrimSpace (s : String) : String :=
  String.mk (((s.data.dropWhile isSpace).reverse.dropWhile isSpace).reverse)

/-- Go `strings.HasPrefix`. -/
def HasPrefix (s p : String) : Bool := p.data.isPrefixOf s.data

/-- Go `strings.HasSuffix`. -/
def HasSuffix (s p : String) : Bool := p.data.reverse.isPrefixOf s.data.reverse

/-- Whether `p` occurs in `s` as a run of consecutive characters. -/
def containsChars (p : List Char) : List Char → Bool
  | [] => p.isEmpty
  | c :: cs => p.isPrefixOf (c :: cs) || containsChars p cs

/-- Go `strings.Contains`. -/
def Contains (s sub : String) : Bool := containsChars sub.data s.data

/-- Lower-casing of the ASCII letters, every other character kept: what Go
`strings.ToLower` returns on a string whose upper-case letters are all ASCII. Go's
`ToLower` also maps the upper-case letters outside ASCII, so the definitions below
that call `strings.ToLower` on arbitrary text take the lowering function as the
parameter `ToLower`, and the theorems about them hold for every such function. -/
def lowerASCII (s : String) : String :=
  String.mk (s.data.map (fun c => if 'A' ≤ c && c ≤ 'Z' then Char.ofNat (c.toNat + 32) else c))

/-- Go `strings.TrimSuffix`. -/
def TrimSuffix (s p : String) : String :=
  if HasSuffix s p then String.mk (s.data.take (s.data.length - p.data.length)) else s

/-- The pieces of a text between the occurrences of the non-empty separator `sep`,
read left to right; `cur` is the piece in progress (reversed) and `skip` the number
of characters of a separator still to pass over. -/
def splitChars (sep : List Char) : List Char → List Char → Nat → List (List Char)
  | [], cur, _ => [cur.reverse]
  | _ :: cs, cur, skip + 1 => splitChars sep cs cur skip
  | c :: cs, cur, 0 =>
    if sep.isPrefixOf (c :: cs) then cur.reverse :: splitChars sep cs [] (sep.length - 1)
    else splitChars sep cs (c :: cur) 0

/-- Go `strings.Split`: with an empty separator the text is split into its
characters. -/
def Split (s sep : String) : List String :=
  if sep.data.isEmpty then s.data.map (fun c => String.mk [c])
  else (splitChars sep.data s.data [] 0).map String.mk

/-- Go `strings.Join`. -/
def Join (elems : List String) (sep : String) : String :=
  match elems with
  | [] => ""
  | e :: es => es.foldl (fun acc x => acc ++ sep ++ x) e

/-- Go `strings.Repeat`. -/
def Repeat (s : String) : Nat → String
  | 0 => ""
  | n + 1 => s ++ Repeat s n

/-- Go `strings.Trim`: the string without the leading and trailing characters that
occur in `cutset`. -/
def Trim (s cutset : String) : String :=
  String.mk (((s.data.dropWhile (fun c => cutset.data.contains c)).reverse.dropWhile
    (fun c => cutset.data.contains c)).reverse)

/-- Go `strings.ContainsAny`: whether a character of `chars` occurs in `s`. -/
def ContainsAny (s chars : String) : Bool :=
  s.data.any (fun c => chars.data.contains c)

end strings

/-! ## Go `path/filepath` (Unix) and `os` -/

namespace filepath

/-- Go `filepath.Base`: the last element of the path. -/
def Base (path : String) : String :=
  if path = "" then "."
  else
    let p := path.data.reverse.dropWhile (fun c => c = '/')
    if p.isEmpty then "/" else String.mk (p.takeWhile (fun c => c ≠ '/')).reverse

/-- Go `filepath.Ext`: the text from the last dot of the last element on. -/
def Ext (path : String) : String :=
  let last := path.data.reverse.takeWhile (fun c => c ≠ '/')
  if last.contains '.' then String.mk ('.' :: (last.takeWhile (fun c => c ≠ '.')).reverse)
  else ""

/-- The elements a cleaned path keeps: `.` and empty elements go, `..` removes the
element before it (at the root it goes, at the start of a relative path it stays).
`stack` holds the elements kept so far, most recent first. -/
def cleanElems (rooted : Bool) : List String → List String → List String
  | [], stack => stack.reverse
  | e :: es, stack =>
    if e = "" || e = "." then cleanElems rooted es stack
    else if e = ".." then
      match stack with
      | top :: below =>
        if top = ".." then cleanElems rooted es (e :: stack) else cleanElems rooted es below
      | [] => if rooted then cleanElems rooted es [] else cleanElems rooted es [e]
    else cleanElems rooted es (e :: stack)

/-- Go `filepath.Clean`. -/
def Clean (path : String) : String :=
  let rooted := strings.HasPrefix path "/"
  let body := strings.Join (cleanElems rooted (strings.Split path "/") []) "/"
  if rooted then "/" ++ body else if body = "" then "." else body

/-- Go `filepath.Join` of two elements. -/
def Join (a b : String) : String :=
  if a ≠ "" then Clean (a ++ "/" ++ b) else if b ≠ "" then Clean b else ""

/-- Go `filepath.Dir`: the cleaned path up to its last separator. -/
def Dir (path : String) : String :=
  Clean (String.mk (path.data.reverse.dropWhile (fun c => c ≠ '/')).reverse)

end filepath

namespace os

/-- The files of the file system (path to content) and the directories made. -/
structure FileSystem where
  files : String → Option String
  dirs : String → Bool

/-- The calls of the operating system that fail: `MkdirAll` on a directory and
`WriteFile` on a path. -/
structure Faults where
  mkdirAll : String → Bool
  writeFile : String → Bool

/-- Go `os.ReadFile`: the content of the file, or an error. -/
def ReadFile (fs : FileSystem) (path : String) : Except String String :=
  match fs.files path with
  | some content => .ok content
  | none => .error ("open " ++ path ++ ": no such file or directory")

/-- Go `os.MkdirAll`. -/
def MkdirAll (faults : Faults) (fs : FileSystem) (dir : String) : Except String FileSystem :=
  if faults.mkdirAll dir then .error ("mkdir " ++ dir ++ ": permission denied")
  else .ok { fs with dirs := fun d => if d = dir then true else fs.dirs d }

/-- Go `os.WriteFile`: the file is created or replaced. -/
def WriteFile (faults : Faults) (fs : FileSystem) (path content : String) :
    Except String FileSystem :=
  if faults.writeFile path then .error ("open " ++ path ++ ": permission denied")
  else .ok { fs with files := fun p => if p = path then some content else fs.files p }

end os

/-! ## Go `regexp`

The pattern language is the one of Go's `regexp/syntax` with the Perl flags that
`regexp.Compile` uses.  `Compile` parses a pattern string; the parser reports the
errors of the Go parser, and `Error.unsupported` for valid Go syntax that no pattern
of this repository uses and the embedding leaves out.  Matching is leftmost-first
(the choice a backtracking search makes), which is Go's default semantics. -/

namespace regexp

/-- Parsed regular expression. A character class is a list of code point ranges. -/
inductive Re where
  | empty
  | lit (c : Char)
  | cls (neg : Bool) (ranges : List (Nat × Nat))
  | anyChar
  | anyCharNotNL
  | beginText
  | endText
  | beginLine
  | endLine
  | wordBoundary
  | noWordBoundary
  | cap (i : Nat) (r : Re)
  | cat (a b : Re)
  | alt (a b : Re)
  | star (r : Re) (greedy : Bool)
  | plus (r : Re) (greedy : Bool)
  | quest (r : Re) (greedy : Bool)
  deriving DecidableEq, Repr

/-- Error codes of `regexp/syntax` (the `ErrorCode` constants), and `unsupported`. -/
inductive Error where
  | invalidPerlOp (expr : String)
  | missingParen
  | unexpectedParen
  | missingBracket
  | missingRepeatArgument
  | invalidRepeatOp
  | invalidRepeatSize
  | invalidEscape
  | trailingBackslash
  | invalidCharRange
  | unsupported (what : String)
  deriving DecidableEq, Repr

/-- The text of an error, as Go `(*Error).Error` prints it. -/
def Error.message : Error → String
  | .invalidPerlOp expr =>
    "error parsing regexp: invalid or unsupported Perl syntax: " ++ expr
  | .missingParen => "error parsing regexp: missing closing )"
  | .unexpectedParen => "error parsing regexp: unexpected )"
  | .missingBracket => "error parsing regexp: missing closing ]"
  | .missingRepeatArgument => "error parsing regexp: missing argument to repetition operator"
  | .invalidRepeatOp => "error parsing regexp: invalid nested repetition operator"
  | .invalidRepeatSize => "error parsing regexp: invalid repeat count"
  | .invalidEscape => "error parsing regexp: invalid escape sequence"
  | .trailingBackslash => "error parsing regexp: trailing backslash at end of expression"
  | .invalidCharRange => "error parsing regexp: invalid character class range"
  | .unsupported what => "outside the embedded pattern language: " ++ what

/-- The flags a pattern can switch with `(?flags)`: `m` and `s`. -/
structure Flags where
  multiLine : Bool := false
  dotNL : Bool := false
  deriving DecidableEq, Repr

/-- An open group of the parser: the alternatives finished so far, the items of the
current concatenation (both most recent first), the capture index of the group and
the flags to restore when it closes. -/
structure Frame where
  alts : List Re := []
  seq : List Re := []
  cap : Option Nat := none
  flags : Flags := {}
  deriving Repr

/-- Concatenation of the items of a frame (given most recent first). -/
def mkCat : List Re → Re
  | [] => Re.empty
  | r :: rs => rs.foldl (fun acc x => Re.cat x acc) r

/-- Alternation of the finished alternatives and the current concatenation. -/
def mkAlt (f : Frame) : Re :=
  f.alts.foldl (fun acc x => Re.alt x acc) (mkCat f.seq)

/-- Ranges of the Perl classes `\d`, `\s`, `\w`. -/
def perlClass (c : Char) : Option (List (Nat × Nat)) :=
  if c = 'd' then some [(48, 57)]
  else if c = 's' then some [(9, 10), (12, 13), (32, 32)]
  else if c = 'w' then some [(48, 57), (65, 90), (95, 95), (97, 122)]
  else if c = 'D' then some [(0, 47), (58, 0x10FFFF)]
  else if c = 'S' then some [(0, 8), (11, 11), (14, 31), (33, 0x10FFFF)]
  else if c = 'W' then some [(0, 47), (58, 64), (91, 94), (96, 96), (123, 0x10FFFF)]
  else none

/-- Whether `c` is an ASCII letter or digit. -/
def isalnum (c : Char) : Bool :=
  ('0' ≤ c && c ≤ '9') || ('A' ≤ c && c ≤ 'Z') || ('a' ≤ c && c ≤ 'z')

/-- Go `parseEscape` for the character after a backslash: the character it denotes. -/
def parseEscape (c : Char) : Except Error Char :=
  if c = 'a' then .ok (Char.ofNat 7)
  else if c = 'f' then .ok (Char.ofNat 12)
  else if c = 'n' then .ok '\n'
  else if c = 'r' then .ok '\r'
  else if c = 't' then .ok '\t'
  else if c = 'v' then .ok (Char.ofNat 11)
  else if c = 'x' || c = '0' then .error (.unsupported "numeric escape")
  else if c.toNat < 128 && !isalnum c then .ok c
  else .error .invalidEscape

/-- Go `parseClass` after the opening bracket and the optional `^`: the ranges of the
class and the rest of the pattern after the closing bracket. `first` holds while no
item has been read (`]` is then an ordinary character). -/
def parseClassItems : Nat → List Char → Bool → List (Nat × Nat) →
    Except Error (List (Nat × Nat) × List Char)
  | 0, _, _, _ => .error (.unsupported "fuel")
  | fuel + 1, t, first, acc =>
    match t with
    | [] => .error .missingBracket
    | ']' :: rest =>
      if first then
        match rest with
        | '-' :: hi :: rest2 =>
          if hi = ']' then parseClassItems fuel rest false (acc ++ [(93, 93)])
          else if hi = '\\' then .error (.unsupported "escape as range end")
          else if hi.toNat < 93 then .error .invalidCharRange
          else parseClassItems fuel rest2 false (acc ++ [(93, hi.toNat)])
        | _ => parseClassItems fuel rest false (acc ++ [(93, 93)])
      else .ok (acc, rest)
    | '[' :: ':' :: _ => .error (.unsupported "named class")
    | '\\' :: [] => .error .trailingBackslash
    | '\\' :: c :: rest =>
      if c = 'p' || c = 'P' then .error (.unsupported "unicode class")
      else
      match perlClass c with
      | some rs => parseClassItems fuel rest false (acc ++ rs)
      | none =>
        match parseEscape c with
        | .error e => .error e
        | .ok lo =>
          match rest with
          | '-' :: hi :: rest2 =>
            if hi = ']' then parseClassItems fuel rest false (acc ++ [(lo.toNat, lo.toNat)])
            else if hi = '\\' then .error (.unsupported "escape as range end")
            else if hi.toNat < lo.toNat then .error .invalidCharRange
            else parseClassItems fuel rest2 false (acc ++ [(lo.toNat, hi.toNat)])
          | _ => parseClassItems fuel rest false (acc ++ [(lo.toNat, lo.toNat)])
    | lo :: rest =>
      match rest with
      | '-' :: hi :: rest2 =>
        if hi = ']' then parseClassItems fuel rest false (acc ++ [(lo.toNat, lo.toNat)])
        else if hi = '\\' then .error (.unsupported "escape as range end")
        else if hi.toNat < lo.toNat then .error .invalidCharRange
        else parseClassItems fuel rest2 false (acc ++ [(lo.toNat, hi.toNat)])
      | _ => parseClassItems fuel rest false (acc ++ [(lo.toNat, lo.toNat)])

/-- Go `parseClass` on the text after the opening bracket. -/
def parseClass (t : List Char) : Except Error (Re × List Char) :=
  match t with
  | '^' :: rest =>
    match parseClassItems (rest.length + 1) rest true [] with
    | .ok (rs, rest2) => .ok (Re.cls true rs, rest2)
    | .error e => .error e
  | _ =>
    match parseClassItems (t.length + 1) t true [] with
    | .ok (rs, rest2) => .ok (Re.cls false rs, rest2)
    | .error e => .error e

/-- Go `parsePerlFlags` on the text after `(?`. `seen` is the text read so far, `neg`
holds after a `-`, `saw` once a flag letter followed it. The result is the new flags,
whether a group was opened (`(?flags:`) and the rest of the pattern. -/
def parsePerlFlags : List Char → List Char → Flags → Bool → Bool →
    Except Error (Flags × Bool × List Char)
  | [], seen, _, _, _ => .error (.invalidPerlOp (String.mk seen))
  | c :: t, seen, flags, neg, saw =>
    if c = 'm' then parsePerlFlags t (seen ++ [c]) { flags with multiLine := !neg } neg true
    else if c = 's' then parsePerlFlags t (seen ++ [c]) { flags with dotNL := !neg } neg true
    else if c = 'i' || c = 'U' then .error (.unsupported "flag i or U")
    else if c = 'P' || c = '<' then .error (.unsupported "named group")
    else if c = '-' then
      if neg then .error (.invalidPerlOp (String.mk (seen ++ [c])))
      else parsePerlFlags t (seen ++ [c]) flags true false
    else if c = ':' || c = ')' then
      if neg && !saw then .error (.invalidPerlOp (String.mk (seen ++ [c])))
      else .ok (flags, c = ':', t)
    else .error (.invalidPerlOp (String.mk (seen ++ [c])))

/-- The value of a run of decimal digits. -/
def digitsValue (ds : List Char) : Nat :=
  ds.foldl (fun n d => 10 * n + (d.toNat - 48)) 0

/-- Go `parseInt`: a decimal number without a leading zero, and the rest. -/
def parseInt (t : List Char) : Option (Nat × List Char) :=
  let ds := t.takeWhile Char.isDigit
  match ds with
  | [] => none
  | d :: more =>
    if d = '0' && !more.isEmpty then none
    else some (digitsValue ds, t.dropWhile Char.isDigit)

/-- Go `parseRepeat` on the text after an opening brace: the bounds of `n`, `n,` or
`n,m` followed by a closing brace (no upper bound is `none`), and the rest. -/
def parseRepeat (t : List Char) : Option (Nat × Option Nat × List Char) :=
  match parseInt t with
  | none => none
  | some (lo, t1) =>
    match t1 with
    | c :: t2 =>
      if c = Char.ofNat 125 then some (lo, some lo, t2)
      else if c = ',' then
        match t2 with
        | [] => none
        | d :: t3 =>
          if d = Char.ofNat 125 then some (lo, none, t3)
          else
            match parseInt t2 with
            | none => none
            | some (hi, t4) =>
              match t4 with
              | e :: t5 => if e = Char.ofNat 125 then some (lo, some hi, t5) else none
              | [] => none
      else none
    | [] => none

/-- The copies of `r` that a counted repetition stands for, then `tail`. -/
def repeatN (r : Re) : Nat → Re → Re
  | 0, tail => tail
  | n + 1, tail => Re.cat r (repeatN r n tail)

/-- The nested optional copies `(r(r(r)?)?)?` of a counted repetition, `k` deep. -/
def optNest (r : Re) (greedy : Bool) : Nat → Re
  | 0 => Re.empty
  | k + 1 => Re.quest (Re.cat r (optNest r greedy k)) greedy

/-- The expansion of `r` repeated `lo` to `hi` times (Go `simplify`). -/
def expandRepeat (r : Re) (lo : Nat) (hi : Option Nat) (greedy : Bool) : Re :=
  match hi with
  | none =>
    match lo with
    | 0 => Re.star r greedy
    | n + 1 => repeatN r n (Re.plus r greedy)
  | some h => repeatN r lo (optNest r greedy (h - lo))

/-- A repetition operator applied to the last item of the current concatenation. -/
def applyRepeat (f : Frame) (mk : Re → Re) : Except Error Frame :=
  match f.seq with
  | [] => .error .missingRepeatArgument
  | r :: rs => .ok { f with seq := mk r :: rs }

/-- The item `r` appended to the current concatenation. -/
def push (f : Frame) (r : Re) : Frame := { f with seq := r :: f.seq }

/-- Whether a repetition operator is followed by the lazy marker `?`, and the rest. -/
def lazyMark (t : List Char) : Bool × List Char :=
  match t with
  | '?' :: t2 => (true, t2)
  | _ => (false, t)

/-- The main loop of the Go parser (`regexp/syntax.parse`) over the pattern text `t`:
`cur` is the innermost open group, `stack` the groups around it, `ncap` the number of
capture groups opened so far and `lastRep` holds right after a repetition operator.
The result is the expression and its number of capture groups. -/
def parseLoop : Nat → List Char → Flags → Frame → List Frame → Nat → Bool →
    Except Error (Re × Nat)
  | 0, _, _, _, _, _, _ => .error (.unsupported "fuel")
  | fuel + 1, t, flags, cur, stack, ncap, lastRep =>
    match t with
    | [] =>
      match stack with
      | [] => .ok (mkAlt cur, ncap)
      | _ :: _ => .error .missingParen
    | '(' :: '?' :: rest =>
      match parsePerlFlags rest ['(', '?'] flags false false with
      | .error e => .error e
      | .ok (flags2, isGroup, rest2) =>
        if isGroup then
          parseLoop fuel rest2 flags2 { flags := flags } (cur :: stack) ncap false
        else parseLoop fuel rest2 flags2 cur stack ncap false
    | '(' :: rest =>
      parseLoop fuel rest flags { cap := some (ncap + 1), flags := flags } (cur :: stack)
        (ncap + 1) false
    | ')' :: rest =>
      match stack with
      | [] => .error .unexpectedParen
      | parent :: stack2 =>
        let body := mkAlt cur
        let item := match cur.cap with
          | some i => Re.cap i body
          | none => body
        parseLoop fuel rest cur.flags (push parent item) stack2 ncap false
    | '|' :: rest =>
      parseLoop fuel rest flags { cur with alts := mkCat cur.seq :: cur.alts, seq := [] }
        stack ncap false
    | '^' :: rest =>
      parseLoop fuel rest flags
        (push cur (if flags.multiLine then Re.beginLine else Re.beginText)) stack ncap false
    | '$' :: rest =>
      parseLoop fuel rest flags
        (push cur (if flags.multiLine then Re.endLine else Re.endText)) stack ncap false
    | '.' :: rest =>
      parseLoop fuel rest flags
        (push cur (if flags.dotNL then Re.anyChar else Re.anyCharNotNL)) stack ncap false
    | '[' :: rest =>
      match parseClass rest with
      | .error e => .error e
      | .ok (r, rest2) => parseLoop fuel rest2 flags (push cur r) stack ncap false
    | '*' :: rest =>
      if lastRep then .error .invalidRepeatOp
      else
        match applyRepeat cur (fun r => Re.star r (!(lazyMark rest).1)) with
        | .error e => .error e
        | .ok cur2 => parseLoop fuel (lazyMark rest).2 flags cur2 stack ncap true
    | '+' :: rest =>
      if lastRep then .error .invalidRepeatOp
      else
        match applyRepeat cur (fun r => Re.plus r (!(lazyMark rest).1)) with
        | .error e => .error e
        | .ok cur2 => parseLoop fuel (lazyMark rest).2 flags cur2 stack ncap true
    | '?' :: rest =>
      if lastRep then .error .invalidRepeatOp
      else
        match applyRepeat cur (fun r => Re.quest r (!(lazyMark rest).1)) with
        | .error e => .error e
        | .ok cur2 => parseLoop fuel (lazyMark rest).2 flags cur2 stack ncap true
    | '\\' :: [] => .error .trailingBackslash
    | '\\' :: c :: rest =>
      if c = 'A' then parseLoop fuel rest flags (push cur Re.beginText) stack ncap false
      else if c = 'z' then parseLoop fuel rest flags (push cur Re.endText) stack ncap false
      else if c = 'b' then parseLoop fuel rest flags (push cur Re.wordBoundary) stack ncap false
      else if c = 'B' then
        parseLoop fuel rest flags (push cur Re.noWordBoundary) stack ncap false
      else if c = 'C' then .error .invalidEscape
      else if c = 'Q' || c = 'p' || c = 'P' then .error (.unsupported "Q or unicode class")
      else if '1' ≤ c && c ≤ '7' then
        match rest with
        | d :: _ =>
          if '0' ≤ d && d ≤ '7' then .error (.unsupported "octal escape")
          else .error .invalidEscape
        | [] => .error .invalidEscape
      else
        match perlClass c with
        | some rs => parseLoop fuel rest flags (push cur (Re.cls false rs)) stack ncap false
        | none =>
          match parseEscape c with
          | .error e => .error e
          | .ok x => parseLoop fuel rest flags (push cur (Re.lit x)) stack ncap false
    | c :: rest =>
      if c = Char.ofNat 123 then
        match parseRepeat rest with
        | none => parseLoop fuel rest flags (push cur (Re.lit c)) stack ncap false
        | some (lo, hi, rest2) =>
          if lastRep then .error .invalidRepeatOp
          else if lo > 1000 || hi.any (fun h => h > 1000 || h < lo) then
            .error .invalidRepeatSize
          else
            match applyRepeat cur
                (fun r => expandRepeat r lo hi (!(lazyMark rest2).1)) with
            | .error e => .error e
            | .ok cur2 => parseLoop fuel (lazyMark rest2).2 flags cur2 stack ncap true
      else parseLoop fuel rest flags (push cur (Re.lit c)) stack ncap false

/-- A compiled regular expression: the expression and its number of capture groups. -/
structure Regexp where
  re : Re
  numSubexp : Nat
  deriving DecidableEq, Repr

/-- Go `regexp.Compile`. -/
def Compile (pattern : String) : Except Error Regexp :=
  match parseLoop (pattern.data.length + 1) pattern.data {} {} [] 0 false with
  | .ok (re, n) => .ok { re := re, numSubexp := n }
  | .error e => .error e

/-- Go `regexp.MustCompile`: `Compile`, with a panic where `Compile` fails. -/
def MustCompile (pattern : String) : Except Panic Regexp :=
  match Compile pattern with
  | .ok re => .ok re
  | .error _ => .error (Panic.mustCompile pattern)

/-- Whether `c` is one of the characters Go `regexp.QuoteMeta` escapes. -/
def special (c : Char) : Bool :=
  c = '\\' || c = '.' || c = '+' || c = '*' || c = '?' || c = '(' || c = ')' ||
  c = '|' || c = '[' || c = ']' || c = Char.ofNat 123 || c = Char.ofNat 125 ||
  c = '^' || c = '$'

/-- Go `regexp.QuoteMeta`: every special character gets a backslash before it. -/
def QuoteMeta (s : String) : String :=
  String.mk (s.data.flatMap (fun c => if special c then ['\\', c] else [c]))

/-- State of a match in progress: the position reached, the character before it, the
text still to read and the groups closed so far as (index, start, end), most recent
first. -/
structure MState where
  pos : Nat
  prev : Option Char
  rest : List Char
  caps : List (Nat × Nat × Nat) := []
  deriving DecidableEq, Repr

/-- The state after reading the character `c`, with `cs` left. -/
def MState.advance (st : MState) (c : Char) (cs : List Char) : MState :=
  { st with pos := st.pos + 1, prev := some c, rest := cs }

/-- Whether the code point `n` lies in one of the ranges. -/
def inRanges (n : Nat) (rs : List (Nat × Nat)) : Bool :=
  rs.any (fun r => r.1 ≤ n && n ≤ r.2)

/-- Whether `c` is a word character (`\w`), for `\b` and `\B`. -/
def isWordChar (c : Option Char) : Bool :=
  match c with
  | some x => inRanges x.toNat [(48, 57), (65, 90), (95, 95), (97, 122)]
  | none => false

/-- One character, accepted when `ok` holds of it. -/
def stepChar (ok : Char → Bool) (st : MState) (k : MState → Option MState) :
    Option MState :=
  match st.rest with
  | [] => none
  | c :: cs => if ok c then k (st.advance c cs) else none

/-- An empty-width assertion. -/
def assert (ok : Bool) (st : MState) (k : MState → Option MState) : Option MState :=
  if ok then k st else none

/-- The loop of a starred expression whose single iteration is `step`: a greedy loop
tries another iteration before leaving, a lazy one leaves first. An iteration that
reads nothing ends the loop. `n` bounds the iterations that read something, and
starts above the length of the text. -/
def starLoop (step : MState → (MState → Option MState) → Option MState) (greedy : Bool) :
    Nat → MState → (MState → Option MState) → Option MState
  | 0, st, k => k st
  | n + 1, st, k =>
    let again := fun (_ : Unit) =>
      step st (fun st2 => if st2.pos > st.pos then starLoop step greedy n st2 k else k st2)
    if greedy then (again ()).orElse (fun _ => k st)
    else (k st).orElse again

/-- Backtracking match of `r` from the state `st`, continuing with `k`: the first
success in the order of preference of the operators (leftmost-first). -/
def matchRe : Re → MState → (MState → Option MState) → Option MState
  | .empty, st, k => k st
  | .lit c, st, k => stepChar (fun x => x = c) st k
  | .cls neg rs, st, k => stepChar (fun x => inRanges x.toNat rs != neg) st k
  | .anyChar, st, k => stepChar (fun _ => true) st k
  | .anyCharNotNL, st, k => stepChar (fun x => x != '\n') st k
  | .beginText, st, k => assert (st.pos == 0) st k
  | .endText, st, k => assert st.rest.isEmpty st k
  | .beginLine, st, k => assert (st.pos == 0 || st.prev == some '\n') st k
  | .endLine, st, k => assert (st.rest.isEmpty || st.rest.head? == some '\n') st k
  | .wordBoundary, st, k => assert (isWordChar st.prev != isWordChar st.rest.head?) st k
  | .noWordBoundary, st, k => assert (isWordChar st.prev == isWordChar st.rest.head?) st k
  | .cap i r, st, k =>
    matchRe r st (fun st2 => k { st2 with caps := (i, st.pos, st2.pos) :: st2.caps })
  | .cat a b, st, k => matchRe a st (fun st2 => matchRe b st2 k)
  | .alt a b, st, k => (matchRe a st k).orElse (fun _ => matchRe b st k)
  | .star r greedy, st, k => starLoop (matchRe r) greedy (st.rest.length + 1) st k
  | .plus r greedy, st, k =>
    matchRe r st (fun st2 => starLoop (matchRe r) greedy (st2.rest.length + 1) st2 k)
  | .quest r greedy, st, k =>
    if greedy then (matchRe r st k).orElse (fun _ => k st)
    else (k st).orElse (fun _ => matchRe r st k)

/-- One match: where it starts, where it ends and the groups it closed. -/
structure Match where
  start : Nat
  stop : Nat
  caps : List (Nat × Nat × Nat)
  deriving DecidableEq, Repr

/-- The leftmost match of `re` that starts at `pos` or later; `rest` is the text from
`pos` on and `prev` the character before it (Go `doExecute`). -/
def search (re : Re) : List Char → Nat → Option Char → Option Match
  | rest, pos, prev =>
    match matchRe re { pos := pos, prev := prev, rest := rest } some with
    | some st => some { start := pos, stop := st.pos, caps := st.caps }
    | none =>
      match rest with
      | [] => none
      | c :: cs => search re cs (pos + 1) (some c)

/-- The text of one match as Go returns it: the whole match, then each group (the
empty string for a group that took no part). -/
def submatches (text : List Char) (n : Nat) (m : Match) : List String :=
  String.mk ((text.drop m.start).take (m.stop - m.start)) ::
  (List.range n).map (fun i =>
    match m.caps.find? (fun c => c.1 == i + 1) with
    | some c => String.mk ((text.drop c.2.1).take (c.2.2 - c.2.1))
    | none => "")

/-- The loop of Go `allMatches`: successive matches from `pos` on, none overlapping;
an empty match right after the previous match is dropped, and the search moves on by
one character after an empty match. `fuel` bounds the iterations; each one moves
`pos` forward, so the length of the text plus two is enough. -/
def allMatches (re : Re) (text : List Char) : Nat → Nat → Option Nat → List Match
  | 0, _, _ => []
  | fuel + 1, pos, prevEnd =>
    if pos > text.length then []
    else
      match search re (text.drop pos) pos (if pos = 0 then none else text.get? (pos - 1)) with
      | none => []
      | some m =>
        if m.stop = pos then
          if some m.start = prevEnd then allMatches re text fuel (pos + 1) (some m.stop)
          else m :: allMatches re text fuel (pos + 1) (some m.stop)
        else m :: allMatches re text fuel m.stop (some m.stop)

/-- Go `(*Regexp).FindAllStringSubmatch(s, -1)`. -/
def Regexp.FindAllStringSubmatch (re : Regexp) (s : String) : List (List String) :=
  (allMatches re.re s.data (s.data.length + 2) 0 none).map (submatches s.data re.numSubexp)

/-- Go `(*Regexp).FindStringSubmatch(s)`: the first match, or nil (`none`). -/
def Regexp.FindStringSubmatch (re : Regexp) (s : String) : Option (List String) :=
  (search re.re s.data 0 none).map (submatches s.data re.numSubexp)

/-- Go `(*Regexp).FindString(s)`: the text of the first match, or the empty string. -/
def Regexp.FindString (re : Regexp) (s : String) : String :=
  match search re.re s.data 0 none with
  | some m => String.mk ((s.data.drop m.start).take (m.stop - m.start))
  | none => ""

end regexp

/-! ## The plugin interface (`pkg/extractor/types.go`) -/

namespace extractor

/-- ExtractorPlugin of `pkg/extractor/types.go`, as the behaviour of one plugin value:
its name and extensions, the error `Initialize()` returns (`none` is nil), and what
`Extract` returns, or the panic it raises, between `Initialize` and `Cleanup`. -/
structure ExtractorPlugin where
  Name : String
  Extensions : List String
  Extract : String → Except Panic (List CodeBlock)
  ShouldProcess : String → Bool
  Initialize : Option String

end extractor

/-- A Go map with one more assignment `m[key] = value`. -/
def mapSet {α : Type} (m : String → Option α) (key : String) (value : α) : String → Option α :=
  fun k => if k = key then some value else m k

/-- A Go map after `delete(m, key)`. -/
def mapDelete {α : Type} (m : String → Option α) (key : String) : String → Option α :=
  fun k => if k = key then none else m k

/-- The table of compiled patterns after the loop of an `Initialize` method over the
pattern table: the patterns compiled so far, and the name and error of the pattern
that stopped the loop, if one did. -/
def compilePatterns : List (String × String) → List (String × regexp.Regexp) →
    List (String × regexp.Regexp) × Option (String × regexp.Error)
  | [], acc => (acc, none)
  | (name, pattern) :: rest, acc =>
    match regexp.Compile pattern with
    | .error e => (acc, some (name, e))
    | .ok re => compilePatterns rest (acc ++ [(name, re)])

/-- A lookup `e.patterns[name]` that is used at once as the receiver of a method: a
missing pattern is a nil pointer, and the call panics. -/
def patternOf (patterns : List (String × regexp.Regexp)) (name : String) :
    Except Panic regexp.Regexp :=
  match patterns.lookup name with
  | some re => .ok re
  | none => .error Panic.nilDereference

/-! ## `cmd/extract/extractors.go`: the generic extractor -/

namespace extract

open extractor

/-- GenericExtractor of `cmd/extract/extractors.go`: its table of compiled patterns
(empty for the nil map). -/
structure GenericExtractor where
  patterns : List (String × regexp.Regexp) := []
  deriving DecidableEq, Repr

/-- NewGenericExtractor. -/
def NewGenericExtractor : GenericExtractor := {}

/-- The pattern table of `GenericExtractor.Initialize`. -/
def GenericExtractor.patternTable : List (String × String) :=
  [("code_block", "```(\\w+)\\n([\\s\\S]*?)```"),
   ("markdown_header", "^#\x7b1,6\x7d\\s+(.+)$"),
   ("yaml_block", "(?:^|\\n)([\\w-]+:\\s*(?:[^\\n]+|(?:\\n(?:  |\\t)+[^\\n]+)+))"),
   ("json_block", "\\\x7b[\\s\\S]*?\\\x7d"),
   ("xml_block", "<[\\w]+[^>]*>[\\s\\S]*?</[\\w]+>"),
   ("ini_block", "(?:^|\\n)(\\[[^\\]]+\\]\\n(?:[^\\[\\n].*\\n)*)")]

/-- GenericExtractor.Initialize: the extractor afterwards and the error returned. -/
def GenericExtractor.Initialize (_e : GenericExtractor) :
    GenericExtractor × Option (String × regexp.Error) :=
  let r := compilePatterns GenericExtractor.patternTable []
  ({ patterns := r.1 }, r.2)

/-- GenericExtractor.determineFileType. -/
def GenericExtractor.determineFileType (content : String) : String × String :=
  if strings.HasPrefix (strings.TrimSpace content) "\x7b" &&
      strings.HasSuffix (strings.TrimSpace content) "\x7d" then ("data.json", "json")
  else if strings.Contains content "<?xml" then ("data.xml", "xml")
  else if strings.Contains content "---" &&
      (strings.Contains content ":" || strings.Contains content "- ") then
    ("data.yaml", "yaml")
  else if strings.Contains content "[" && strings.Contains content "]" &&
      strings.Contains content "=" then ("config.ini", "ini")
  else ("content.txt", "text")

/-- The block of one match of `code_block` (`len(match) > 2`). -/
def GenericExtractor.codeBlockOf (m : List String) : Option CodeBlock :=
  match m with
  | _ :: language :: code :: _ =>
    some { Content := code, BlockType := "code_block", Package := "",
           Filename := "code." ++ strings.lowerASCII language, Language := language }
  | _ => none

/-- The block of one match of `yaml_block` (`len(match) > 1`). -/
def GenericExtractor.yamlBlockOf (m : List String) : Option CodeBlock :=
  match m with
  | _ :: yamlContent :: _ =>
    some { Content := yamlContent, BlockType := "yaml", Package := "",
           Filename := "config.yaml", Language := "yaml" }
  | _ => none

/-- The block of one match of `json_block`, kept when it has both braces. -/
def GenericExtractor.jsonBlockOf (m : List String) : Option CodeBlock :=
  match m with
  | jsonContent :: _ =>
    if strings.Contains jsonContent "\x7b" && strings.Contains jsonContent "\x7d" then
      some { Content := jsonContent, BlockType := "json", Package := "",
             Filename := "config.json", Language := "json" }
    else none
  | [] => none

/-- The block of one match of `xml_block`. -/
def GenericExtractor.xmlBlockOf (m : List String) : Option CodeBlock :=
  match m with
  | xmlContent :: _ =>
    some { Content := xmlContent, BlockType := "xml", Package := "",
           Filename := "config.xml", Language := "xml" }
  | [] => none

/-- The block of one match of `ini_block` (`len(match) > 1`). -/
def GenericExtractor.iniBlockOf (m : List String) : Option CodeBlock :=
  match m with
  | _ :: iniContent :: _ =>
    some { Content := iniContent, BlockType := "ini", Package := "",
           Filename := "config.ini", Language := "ini" }
  | _ => none

/-- GenericExtractor.Extract. The file name of a fenced block lower-cases the first
group of `code_block`, which holds ASCII word characters only. -/
def GenericExtractor.Extract (e : GenericExtractor) (content : String) :
    Except Panic (List CodeBlock) := do
  let codeRe ← patternOf e.patterns "code_block"
  let blocks1 := (codeRe.FindAllStringSubmatch content).filterMap GenericExtractor.codeBlockOf
  let yamlRe ← patternOf e.patterns "yaml_block"
  let blocks2 :=
    blocks1 ++ (yamlRe.FindAllStringSubmatch content).filterMap GenericExtractor.yamlBlockOf
  let jsonRe ← patternOf e.patterns "json_block"
  let blocks3 :=
    blocks2 ++ (jsonRe.FindAllStringSubmatch content).filterMap GenericExtractor.jsonBlockOf
  let xmlRe ← patternOf e.patterns "xml_block"
  let blocks4 :=
    blocks3 ++ (xmlRe.FindAllStringSubmatch content).filterMap GenericExtractor.xmlBlockOf
  let iniRe ← patternOf e.patterns "ini_block"
  let blocks5 :=
    blocks4 ++ (iniRe.FindAllStringSubmatch content).filterMap GenericExtractor.iniBlockOf
  if blocks5.length = 0 ∧ strings.TrimSpace content ≠ "" then
    let ft := GenericExtractor.determineFileType content
    pure (blocks5 ++ [{ Content := content, BlockType := "text", Package := "",
                        Filename := ft.1, Language := ft.2 }])
  else pure blocks5

/-- The generic extractor as a plugin value: `Extract` runs on the extractor that
`Initialize` leaves. -/
def GenericExtractor.plugin : ExtractorPlugin where
  Name := "generic"
  Extensions := [".txt", ".md", ".rst", ".yml", ".yaml", ".xml", ".json", ".ini", ".cfg",
    ".conf"]
  Extract := fun content => (NewGenericExtractor.Initialize.1).Extract content
  ShouldProcess := fun _ => true
  Initialize := (NewGenericExtractor.Initialize.2).map
    (fun e => "failed to compile pattern " ++ e.1 ++ ": " ++ e.2.message)

/-! ## `cmd/extract/registry.go` -/

section Registry

variable (ToLower : String → String)

/-- PluginRegistry of `cmd/extract/registry.go`: the three tables. -/
structure PluginRegistry where
  plugins : String → Option ExtractorPlugin
  extensionMap : String → Option ExtractorPlugin
  languageMap : String → Option ExtractorPlugin

/-- NewPluginRegistry: three empty tables. -/
def NewPluginRegistry : PluginRegistry where
  plugins := fun _ => none
  extensionMap := fun _ => none
  languageMap := fun _ => none

/-- The loop of `Register` over the extensions of the plugin. -/
def registerExtensions (plugin : ExtractorPlugin) :
    List String → (String → Option ExtractorPlugin) → (String → Option ExtractorPlugin)
  | [], m => m
  | ext :: rest, m => registerExtensions plugin rest (mapSet m (ToLower ext) plugin)

/-- PluginRegistry.Register of `cmd/extract/registry.go`: the registry afterwards and
the error returned (`none` is nil). -/
def PluginRegistry.Register (r : PluginRegistry) (plugin : ExtractorPlugin) :
    PluginRegistry × Option String :=
  let name := plugin.Name
  ({ plugins := mapSet r.plugins name plugin,
     extensionMap := registerExtensions ToLower plugin plugin.Extensions r.extensionMap,
     languageMap := mapSet r.languageMap (ToLower name) plugin }, none)

/-- PluginRegistry.GetExtractorByName. -/
def PluginRegistry.GetExtractorByName (r : PluginRegistry) (name : String) :
    Option ExtractorPlugin :=
  r.plugins (ToLower name)

/-- PluginRegistry.GetExtractorByExtension. -/
def PluginRegistry.GetExtractorByExtension (r : PluginRegistry) (ext : String) :
    Option ExtractorPlugin :=
  r.extensionMap (ToLower ext)

/-- PluginRegistry.GetExtractorByLanguage. -/
def PluginRegistry.GetExtractorByLanguage (r : PluginRegistry) (lang : String) :
    Option ExtractorPlugin :=
  r.languageMap (ToLower lang)

/-- The registry after `Register` on each plugin of the list in turn, as
`registerBuiltInPlugins` does with the built-in plugins (the returned errors are
dropped there). -/
def registerAll (r : PluginRegistry) : List ExtractorPlugin → PluginRegistry
  | [] => r
  | p :: ps => registerAll (r.Register ToLower p).1 ps

/-! ## `cmd/extract/extract.go` -/

/-- The flags of ExtractCommand. -/
structure ExtractCommand where
  inputFiles : String := ""
  outputDir : String := "extracted"
  language : String := ""
  parallel : Nat := 1
  verbose : Bool := false
  quiet : Bool := false
  dryRun : Bool := false
  report : Bool := false
  listPlugins : Bool := false
  pluginDir : String := ""
  configFile : String := ""

/-- ExtractionResult of `cmd/extract/extract.go`. -/
structure ExtractionResult where
  SourceFile : String
  ExtractorName : String
  CodeBlocks : List CodeBlock
  WrittenFiles : List String
  deriving DecidableEq, Repr

/-- The errors `processSingleFile` returns. -/
inductive ProcessError where
  | readFile (err : String)
  | noExtractor (path : String)
  | initFailed (err : String)
  deriving DecidableEq, Repr

/-- The message of an error of `processSingleFile`. -/
def ProcessError.message : ProcessError → String
  | .readFile err => "failed to read file: " ++ err
  | .noExtractor path => "no suitable extractor found for file: " ++ path
  | .initFailed err => "failed to initialize extractor: " ++ err

/-- getExtensionForLanguage. -/
def getExtensionForLanguage (lang : String) : String :=
  let l := ToLower lang
  if l = "go" ∨ l = "golang" then ".go"
  else if l = "java" then ".java"
  else if l = "python" then ".py"
  else if l = "javascript" ∨ l = "js" then ".js"
  else if l = "typescript" ∨ l = "ts" then ".ts"
  else if l = "rust" then ".rs"
  else if l = "dart" then ".dart"
  else if l = "json" then ".json"
  else if l = "xml" then ".xml"
  else if l = "yaml" ∨ l = "yml" then ".yaml"
  else if l = "markdown" ∨ l = "md" then ".md"
  else if l = "text" ∨ l = "txt" then ".txt"
  else ".txt"

/-- The loop of `writeExtractedBlocks` from the block of index `i` on: the paths
written and the file system afterwards. A block whose directory or file cannot be
written is skipped. -/
def writeBlocksFrom (c : ExtractCommand) (faults : os.Faults) (sourceFile : String) :
    Nat → List CodeBlock → os.FileSystem → List String × os.FileSystem
  | _, [], fs => ([], fs)
  | i, block :: rest, fs =>
    let baseName := strings.TrimSuffix (filepath.Base sourceFile) (filepath.Ext sourceFile)
    let fileName :=
      if block.Filename ≠ "" then block.Filename
      else baseName ++ "_" ++ block.BlockType ++ "_" ++ toString i ++
        getExtensionForLanguage ToLower block.Language
    let outputPath := filepath.Join c.outputDir fileName
    let dir := filepath.Dir outputPath
    match os.MkdirAll faults fs dir with
    | .error _ => writeBlocksFrom c faults sourceFile (i + 1) rest fs
    | .ok fs1 =>
      match os.WriteFile faults fs1 outputPath block.Content with
      | .error _ => writeBlocksFrom c faults sourceFile (i + 1) rest fs1
      | .ok fs2 =>
        let r := writeBlocksFrom c faults sourceFile (i + 1) rest fs2
        (outputPath :: r.1, r.2)

/-- ExtractCommand.writeExtractedBlocks. -/
def ExtractCommand.writeExtractedBlocks (c : ExtractCommand) (faults : os.Faults)
    (blocks : List CodeBlock) (sourceFile : String) (fs : os.FileSystem) :
    List String × os.FileSystem :=
  writeBlocksFrom ToLower c faults sourceFile 0 blocks fs

/-- ExtractCommand.processSingleFile: the result or the error returned, and the file
system afterwards; a panic of the extractor ends the call. What the function prints
is left out. -/
def ExtractCommand.processSingleFile (c : ExtractCommand) (faults : os.Faults)
    (fs : os.FileSystem) (path : String) (registry : PluginRegistry) :
    Except Panic (Except ProcessError ExtractionResult × os.FileSystem) :=
  match os.ReadFile fs path with
  | .error err => .ok (.error (.readFile err), fs)
  | .ok content =>
    let found :=
      if c.language ≠ "" then registry.GetExtractorByLanguage ToLower c.language
      else registry.GetExtractorByExtension ToLower (ToLower (filepath.Ext path))
    let found2 :=
      match found with
      | some e => some e
      | none => registry.GetExtractorByLanguage ToLower "generic"
    match found2 with
    | none => .ok (.error (.noExtractor path), fs)
    | some extractor =>
      match extractor.Initialize with
      | some err => .ok (.error (.initFailed err), fs)
      | none =>
        match extractor.Extract content with
        | .error p => .error p
        | .ok blocks =>
          let written :=
            if !c.dryRun then c.writeExtractedBlocks ToLower faults blocks path fs
            else ([], fs)
          .ok (.ok { SourceFile := path, ExtractorName := extractor.Name,
                     CodeBlocks := blocks, WrittenFiles := written.1 }, written.2)

/-- The loop of `processFilesSequential` over the input paths: the results of the
files whose processing returned no error, in order, and the file system afterwards.
A file whose processing returns an error adds no result and the loop goes on; a panic
ends the call. -/
def processFilesFrom (c : ExtractCommand) (faults : os.Faults) (registry : PluginRegistry) :
    List String → os.FileSystem → Except Panic (List ExtractionResult × os.FileSystem)
  | [], fs => .ok ([], fs)
  | path :: rest, fs =>
    match c.processSingleFile ToLower faults fs path registry with
    | .error p => .error p
    | .ok (.error _, fs1) => processFilesFrom c faults registry rest fs1
    | .ok (.ok result, fs1) =>
      match processFilesFrom c faults registry rest fs1 with
      | .error p => .error p
      | .ok (results, fs2) => .ok (result :: results, fs2)

/-- ExtractCommand.processFilesSequential. -/
def ExtractCommand.processFilesSequential (c : ExtractCommand) (faults : os.Faults)
    (fs : os.FileSystem) (inputPaths : List String) (registry : PluginRegistry) :
    Except Panic (List ExtractionResult × os.FileSystem) :=
  processFilesFrom ToLower c faults registry inputPaths fs

end Registry

end extract

/-! ## `pkg/plugins/python.go` -/

namespace plugins

/-- PythonExtractor of `pkg/plugins/python.go`: its table of compiled patterns (empty
for the nil map). -/
structure PythonExtractor where
  patterns : List (String × regexp.Regexp) := []
  deriving DecidableEq, Repr

/-- NewPythonExtractor. -/
def NewPythonExtractor : PythonExtractor := {}

/-- The pattern table of `PythonExtractor.Initialize`. -/
def PythonExtractor.patternTable : List (String × String) :=
  [("import", "^(?:from\\s+([\\w.]+)\\s+import\\s+([\\w*, ]+)|import\\s+([\\w., ]+))"),
   ("import_as", "import\\s+([\\w.]+)\\s+as\\s+(\\w+)"),
   ("from_import", "from\\s+([\\w.]+)\\s+import\\s+\\(([^)]+)\\)"),
   ("class", "^class\\s+(\\w+)(?:\\(([^)]*)\\))?\\s*:"),
   ("dataclass", "^@dataclass\\s*\\nclass\\s+(\\w+)"),
   ("pydantic_model", "^class\\s+(\\w+)\\((?:BaseModel|pydantic\\.BaseModel)\\)"),
   ("function", "^def\\s+(\\w+)\\(([^)]*)\\)(?:\\s*->\\s*([^:]+))?\\s*:"),
   ("async_function", "^async\\s+def\\s+(\\w+)\\(([^)]*)\\)(?:\\s*->\\s*([^:]+))?\\s*:"),
   ("lambda", "lambda\\s+([^:]+):"),
   ("method", "^\\s+def\\s+(\\w+)\\(([^)]*)\\)(?:\\s*->\\s*([^:]+))?\\s*:"),
   ("classmethod", "^\\s+@classmethod\\s*\\n\\s+def\\s+(\\w+)\\(cls[^)]*\\)"),
   ("staticmethod", "^\\s+@staticmethod\\s*\\n\\s+def\\s+(\\w+)\\([^)]*\\)"),
   ("property_decorator", "^\\s+@property\\s*\\n\\s+def\\s+(\\w+)\\(self[^)]*\\)"),
   ("init_method", "^\\s+def\\s+__init__\\(([^)]*)\\)\\s*:"),
   ("str_method", "^\\s+def\\s+__str__\\(([^)]*)\\)\\s*:"),
   ("repr_method", "^\\s+def\\s+__repr__\\(([^)]*)\\)\\s*:"),
   ("decorator", "^@(\\w+)(?:\\(([^)]*)\\))?"),
   ("multiple_decorators", "^(?:@[\\w.]+(?:\\([^)]*\\))?\\s*\\n)+"),
   ("type_hint", ":\\s*([\\w\\[\\], \\.]+)(?:\\s*=\\s*[^,\\n]+)?"),
   ("return_hint", "->\\s*([\\w\\[\\], \\.]+)"),
   ("requirements", "^([\\w\\-\\[\\]]+)(?:[<>=!~]+[\\d.,*]+)?(?:\\s*#.*)?$"),
   ("setup_py", "setup\\s*\\("),
   ("pyproject_toml", "\\[tool\\.(?:poetry|flit|setuptools)\\]"),
   ("setup_cfg", "^\\[([\\w:]+)\\]"),
   ("django_model", "class\\s+(\\w+)\\(models\\.Model\\)"),
   ("django_view", "def\\s+(\\w+)\\(request[^)]*\\)"),
   ("flask_route", "@app\\.route\\(['\"]([^'\"]+)['\"]\\)"),
   ("fastapi_route", "@(?:app|router)\\.(?:get|post|put|delete|patch|options|head)\\(['\"]([^'\"]+)['\"]\\)"),
   ("test_class", "class\\s+(Test\\w+)\\([^)]*\\)"),
   ("test_function", "def\\s+(test_\\w+)\\([^)]*\\)"),
   ("pytest_fixture", "@pytest\\.fixture"),
   ("docstring_triple_single", "'''([^']*?)'''"),
   ("docstring_triple_double", "\"\"\"([^\"]*?)\"\"\""),
   ("shebang", "^#!.*python"),
   ("encoding", "^#.*coding[:=]\\s*([-\\w.]+)"),
   ("async_for", "async\\s+for\\s+(\\w+)\\s+in"),
   ("async_with", "async\\s+with\\s+"),
   ("await_expr", "await\\s+(\\w+)")]

/-- PythonExtractor.Initialize: the extractor afterwards and the error returned. -/
def PythonExtractor.Initialize (_e : PythonExtractor) :
    PythonExtractor × Option (String × regexp.Error) :=
  let r := compilePatterns PythonExtractor.patternTable []
  ({ patterns := r.1 }, r.2)

/-- The trimmed, non-empty items of a comma-separated list, each after `pre`. -/
def PythonExtractor.items (pre : String) (list : String) : List String :=
  ((strings.Split list ",").map strings.TrimSpace).filterMap
    (fun item => if item ≠ "" then some (pre ++ item) else none)

/-- The imports of one match of `import` (first loop of `extractImports`). -/
def PythonExtractor.importsOf (m : List String) : List String :=
  match m with
  | _ :: m1 :: m2 :: m3 :: _ =>
    if m1 ≠ "" then PythonExtractor.items (m1 ++ ".") m2
    else if m3 ≠ "" then PythonExtractor.items "" m3
    else []
  | _ => []

/-- The import of one match of `import_as` (second loop of `extractImports`). -/
def PythonExtractor.importAsOf (m : List String) : List String :=
  match m with
  | _ :: m1 :: m2 :: _ => [m1 ++ " as " ++ m2]
  | _ => []

/-- The imports of one match of `from_import` (third loop of `extractImports`). -/
def PythonExtractor.fromImportsOf (m : List String) : List String :=
  match m with
  | _ :: m1 :: m2 :: _ =>
    ((strings.Split m2 "\n").map strings.TrimSpace).filterMap
      (fun item =>
        if item ≠ "" ∧ ¬ strings.HasPrefix item "#" then some (m1 ++ "." ++ item) else none)
  | _ => []

/-- PythonExtractor.extractImports. -/
def PythonExtractor.extractImports (e : PythonExtractor) (content : String) :
    Except Panic (List String) := do
  let importRe ← patternOf e.patterns "import"
  let imports1 := (importRe.FindAllStringSubmatch content).flatMap PythonExtractor.importsOf
  let importAsRe ← patternOf e.patterns "import_as"
  let imports2 :=
    imports1 ++ (importAsRe.FindAllStringSubmatch content).flatMap PythonExtractor.importAsOf
  let fromImportRe ← patternOf e.patterns "from_import"
  pure (imports2 ++
    (fromImportRe.FindAllStringSubmatch content).flatMap PythonExtractor.fromImportsOf)

/-- The pattern `extractClassBody` builds for a class name. -/
def PythonExtractor.classBodyPattern (className : String) : String :=
  "(?s)^class\\s+" ++ regexp.QuoteMeta className ++
    "(?:\\([^)]*\\))?\\s*:\\s*\\n(.*?)(?=^\\S|\\z)"

/-- PythonExtractor.extractClassBody. -/
def PythonExtractor.extractClassBody (content className inheritance : String) :
    Except Panic String := do
  let classPattern ← regexp.MustCompile (PythonExtractor.classBodyPattern className)
  match classPattern.FindStringSubmatch content with
  | some (_ :: body :: _) => pure ("class " ++ className ++ "(" ++ inheritance ++ "):\n" ++ body)
  | _ => pure ("class " ++ className ++ "(" ++ inheritance ++ "):\n    pass")

/-- The methods of PythonExtractor that the embedding takes as given: in `Extract`
and `extractClasses` each of them runs only after a call of `extractClassBody` has
returned. -/
structure PythonExtractor.Methods where
  extractClassDecorators : String → String → Except Panic (List String)
  extractModuleName : String → Except Panic String
  classToFilename : String → Except Panic String
  extractFunctions : String → List String → Except Panic (List CodeBlock)
  extractMethods : String → List String → Except Panic (List CodeBlock)
  extractDecoratedFunctions : String → List String → Except Panic (List CodeBlock)
  extractAsyncFunctions : String → List String → Except Panic (List CodeBlock)
  extractTestCases : String → List String → Except Panic (List CodeBlock)
  extractRequirements : String → Except Panic (List CodeBlock)
  extractSetupPy : String → Except Panic (List CodeBlock)
  extractPyprojectToml : String → Except Panic (List CodeBlock)
  extractConfigFiles : String → Except Panic (List CodeBlock)
  extractWebFrameworkCode : String → List String → Except Panic (List CodeBlock)
  extractModule : String → List String → Except Panic (List CodeBlock)

/-- The body of the first loop of `extractClasses` for one match of `class`. -/
def PythonExtractor.classBlockOf (ms : PythonExtractor.Methods) (content : String)
    (imports : List String) (m : List String) : Except Panic (List CodeBlock) :=
  match m with
  | _ :: className :: more => do
    let inheritance := match more with
      | m2 :: _ => if m2 ≠ "" then m2 else ""
      | [] => ""
    let classContent ← PythonExtractor.extractClassBody content className inheritance
    let decorators ← ms.extractClassDecorators content className
    let package ← ms.extractModuleName content
    let filename ← ms.classToFilename className
    pure [{ Content := classContent, BlockType := "class", Package := package,
            Filename := filename, Language := "python", Imports := imports,
            Annotations := decorators }]
  | _ => pure []

/-- The body of the loops of `extractClasses` over `dataclass`, `pydantic_model` and
`django_model`: the class body is extracted with the inheritance `inheritance`, and
the block gets the type `kind`, one more import and the tag as its annotation. -/
def PythonExtractor.modelBlockOf (ms : PythonExtractor.Methods) (content : String)
    (imports : List String) (inheritance kind extraImport tag : String)
    (m : List String) : Except Panic (List CodeBlock) :=
  match m with
  | _ :: className :: _ => do
    let classContent ← PythonExtractor.extractClassBody content className inheritance
    let package ← ms.extractModuleName content
    let filename ← ms.classToFilename className
    pure [{ Content := classContent, BlockType := kind, Package := package,
            Filename := filename, Language := "python",
            Imports := imports ++ [extraImport], Annotations := [tag] }]
  | _ => pure []

/-- A Go loop `for _, match := range matches` whose body appends blocks: the bodies
run in order, and the first panic ends the loop. -/
def collectBlocks (body : List String → Except Panic (List CodeBlock)) :
    List (List String) → Except Panic (List CodeBlock)
  | [] => pure []
  | m :: rest => do
    let blocks ← body m
    let more ← collectBlocks body rest
    pure (blocks ++ more)

/-- PythonExtractor.extractClasses. -/
def PythonExtractor.extractClasses (e : PythonExtractor) (ms : PythonExtractor.Methods)
    (content : String) (imports : List String) : Except Panic (List CodeBlock) := do
  let classRe ← patternOf e.patterns "class"
  let blocks1 ← collectBlocks (PythonExtractor.classBlockOf ms content imports)
    (classRe.FindAllStringSubmatch content)
  let dataclassRe ← patternOf e.patterns "dataclass"
  let blocks2 ← collectBlocks
    (PythonExtractor.modelBlockOf ms content imports "" "dataclass" "dataclasses" "dataclass")
    (dataclassRe.FindAllStringSubmatch content)
  let pydanticRe ← patternOf e.patterns "pydantic_model"
  let blocks3 ← collectBlocks
    (PythonExtractor.modelBlockOf ms content imports "BaseModel" "pydantic_model" "pydantic"
      "BaseModel")
    (pydanticRe.FindAllStringSubmatch content)
  let djangoRe ← patternOf e.patterns "django_model"
  let blocks4 ← collectBlocks
    (PythonExtractor.modelBlockOf ms content imports "models.Model" "django_model"
      "django.db.models" "Model")
    (djangoRe.FindAllStringSubmatch content)
  pure (blocks1 ++ blocks2 ++ blocks3 ++ blocks4)

/-- PythonExtractor.Extract. -/
def PythonExtractor.Extract (e : PythonExtractor) (ms : PythonExtractor.Methods)
    (content : String) : Except Panic (List CodeBlock) := do
  let imports ← e.extractImports content
  let b1 ← e.extractClasses ms content imports
  let b2 ← ms.extractFunctions content imports
  let b3 ← ms.extractMethods content imports
  let b4 ← ms.extractDecoratedFunctions content imports
  let b5 ← ms.extractAsyncFunctions content imports
  let b6 ← ms.extractTestCases content imports
  let b7 ← ms.extractRequirements content
  let b8 ← ms.extractSetupPy content
  let b9 ← ms.extractPyprojectToml content
  let b10 ← ms.extractConfigFiles content
  let b11 ← ms.extractWebFrameworkCode content imports
  let blocks := b1 ++ b2 ++ b3 ++ b4 ++ b5 ++ b6 ++ b7 ++ b8 ++ b9 ++ b10 ++ b11
  if blocks.length = 0 ∧ strings.TrimSpace content ≠ "" then do
    let b12 ← ms.extractModule content imports
    pure (blocks ++ b12)
  else pure blocks

end plugins

/-! ## `cmd/main/plugin.go` -/

namespace main

open extractor

section Registry

variable (ToLower : String → String)

/-- PluginRegistry of `cmd/main/plugin.go` (the mutex is left out: the methods are
embedded as the atomic steps it makes them). -/
structure PluginRegistry where
  plugins : String → Option ExtractorPlugin
  extToPlugin : String → Option String
  initialized : Bool

/-- NewPluginRegistry. -/
def NewPluginRegistry : PluginRegistry where
  plugins := fun _ => none
  extToPlugin := fun _ => none
  initialized := false

/-- What a call of `Register` does: the registry afterwards, the error returned
(`none` is nil) and the plugins whose `Initialize` method it called. -/
structure RegisterResult where
  registry : PluginRegistry
  err : Option String
  initCalls : List ExtractorPlugin

/-- The loop of `Register` over the extensions of the plugin. -/
def mapExtensions (name : String) :
    List String → (String → Option String) → (String → Option String)
  | [], m => m
  | ext :: rest, m => mapExtensions name rest (mapSet m (ToLower ext) name)

/-- PluginRegistry.Register of `cmd/main/plugin.go`. -/
def PluginRegistry.Register (r : PluginRegistry) (plugin : ExtractorPlugin) :
    RegisterResult :=
  let name := plugin.Name
  if (r.plugins name).isSome then
    { registry := r, err := some ("plugin '" ++ name ++ "' already registered"),
      initCalls := [] }
  else
    match plugin.Initialize with
    | some err =>
      { registry := r,
        err := some ("failed to initialize plugin '" ++ name ++ "': " ++ err),
        initCalls := [plugin] }
    | none =>
      { registry :=
          { plugins := mapSet r.plugins name plugin,
            extToPlugin := mapExtensions ToLower name plugin.Extensions r.extToPlugin,
            initialized := true },
        err := none, initCalls := [plugin] }

/-- PluginRegistry.GetPlugin. -/
def PluginRegistry.GetPlugin (r : PluginRegistry) (name : String) : Option ExtractorPlugin :=
  r.plugins name

/-- PluginRegistry.GetPluginByExtension. -/
def PluginRegistry.GetPluginByExtension (r : PluginRegistry) (ext : String) :
    Option ExtractorPlugin :=
  match r.extToPlugin (ToLower ext) with
  | none => none
  | some pluginName => r.GetPlugin pluginName

/-- The loop of `Unregister` over the extensions of the plugin. -/
def unmapExtensions : List String → (String → Option String) → (String → Option String)
  | [], m => m
  | ext :: rest, m => unmapExtensions rest (mapDelete m (ToLower ext))

/-- PluginRegistry.Unregister: the registry afterwards and the value returned (the
call of `Cleanup` on the plugin does not touch the registry). -/
def PluginRegistry.Unregister (r : PluginRegistry) (name : String) : PluginRegistry × Bool :=
  match r.plugins name with
  | none => (r, false)
  | some plugin =>
    ({ r with extToPlugin := unmapExtensions ToLower plugin.Extensions r.extToPlugin,
              plugins := mapDelete r.plugins name }, true)

/-- PluginRegistry.Cleanup: both tables are emptied. -/
def PluginRegistry.Cleanup (r : PluginRegistry) : PluginRegistry :=
  { r with plugins := fun _ => none, extToPlugin := fun _ => none }

/-- The registry states that calls of `Register`, `Unregister` and `Cleanup` produce
from a new registry. -/
inductive Reachable : PluginRegistry → Prop where
  | new : Reachable NewPluginRegistry
  | register (r : PluginRegistry) (p : ExtractorPlugin) :
      Reachable r → Reachable (r.Register ToLower p).registry
  | unregister (r : PluginRegistry) (name : String) :
      Reachable r → Reachable (r.Unregister ToLower name).1
  | cleanup (r : PluginRegistry) : Reachable r → Reachable r.Cleanup

end Registry

end main

/-! ## `cmd/extract/extractors.go`: the Go extractor -/

namespace extract

/-- GoExtractor of `cmd/extract/extractors.go`: its table of compiled patterns (empty
for the nil map). -/
structure GoExtractor where
  patterns : List (String × regexp.Regexp) := []
  deriving DecidableEq, Repr

/-- NewGoExtractor. -/
def NewGoExtractor : GoExtractor := {}

/-- The pattern table of `GoExtractor.Initialize`. -/
def GoExtractor.patternTable : List (String × String) :=
  [("package", "package\\s+(\\w+)"),
   ("import", "import\\s+(?:\\(([^)]+)\\)|\"([^\"]+)\")"),
   ("func", "func\\s+(?:\\([^)]+\\)\\s+)?(\\w+)\\s*\\([^)]*\\)(?:\\s+\\([^)]*\\))?\\s*(?:\\\x7b[^\x7d]*\\\x7d)?"),
   ("struct", "type\\s+(\\w+)\\s+struct\\s*\\\x7b[^\x7d]*\\\x7d"),
   ("interface", "type\\s+(\\w+)\\s+interface\\s*\\\x7b[^\x7d]*\\\x7d"),
   ("const", "const\\s*\\(([^)]+)\\)"),
   ("var", "var\\s*\\(([^)]+)\\)")]

/-- GoExtractor.Initialize: the extractor afterwards and the error returned. -/
def GoExtractor.Initialize (_e : GoExtractor) :
    GoExtractor × Option (String × regexp.Error) :=
  let r := compilePatterns GoExtractor.patternTable []
  ({ patterns := r.1 }, r.2)

/-- The text a pattern built by `regexp.MustCompile` finds in the content, or the
fallback text when it finds none. -/
def GoExtractor.findOr (pattern content fallback : String) : Except Panic String := do
  let re ← regexp.MustCompile pattern
  let found := re.FindString content
  if found ≠ "" then pure found else pure fallback

/-- GoExtractor.extractFunction. -/
def GoExtractor.extractFunction (content funcName : String) : Except Panic String :=
  GoExtractor.findOr
    ("func\\s+(?:\\([^)]+\\)\\s+)?" ++ regexp.QuoteMeta funcName ++
      "\\s*\\([^)]*\\)(?:\\s+\\([^)]*\\))?\\s*\\\x7b[^\x7d]*\\\x7d")
    content ("func " ++ funcName ++ "() \x7b\n    // Function body\n\x7d")

/-- GoExtractor.extractStruct. -/
def GoExtractor.extractStruct (content structName : String) : Except Panic String :=
  GoExtractor.findOr
    ("type\\s+" ++ regexp.QuoteMeta structName ++ "\\s+struct\\s*\\\x7b[^\x7d]*\\\x7d")
    content ("type " ++ structName ++ " struct \x7b\n    // Fields\n\x7d")

/-- GoExtractor.extractInterface. -/
def GoExtractor.extractInterface (content interfaceName : String) : Except Panic String :=
  GoExtractor.findOr
    ("type\\s+" ++ regexp.QuoteMeta interfaceName ++ "\\s+interface\\s*\\\x7b[^\x7d]*\\\x7d")
    content ("type " ++ interfaceName ++ " interface \x7b\n    // Methods\n\x7d")

/-- GoExtractor.extractConstant. -/
def GoExtractor.extractConstant (content constName : String) : Except Panic String :=
  GoExtractor.findOr
    ("const\\s+" ++ regexp.QuoteMeta constName ++ "\\s+=\\s+[^;\\n]+")
    content ("const " ++ constName ++ " = /* value */")

/-- The imports `GoExtractor.Extract` reads from the match of `import`, if any. -/
def GoExtractor.importsOf (m : Option (List String)) : List String :=
  match m with
  | none => []
  | some groups =>
    if groups.getD 1 "" ≠ "" then
      ((strings.Split (groups.getD 1 "") "\n").map strings.TrimSpace).filterMap
        (fun line =>
          if strings.HasPrefix line "\"" && strings.HasSuffix line "\"" then
            some (strings.Trim line "\"")
          else none)
    else if groups.getD 2 "" ≠ "" then [strings.Trim (groups.getD 2 "") "\""]
    else []

/-- The body of the loops of `GoExtractor.Extract` over the matches of `func`,
`struct` and `interface`: one block of the type `kind` for the name in the first
group, with the content that `extract` returns for it. -/
def GoExtractor.namedBlockOf (extract : String → String → Except Panic String)
    (kind content packageName : String) (imports : List String) (m : List String) :
    Except Panic (List CodeBlock) :=
  match m with
  | _ :: name :: _ => do
    let text ← extract content name
    pure [{ Content := text, BlockType := kind, Package := packageName,
            Filename := name ++ ".go", Language := "go", Imports := imports }]
  | _ => pure []

/-- GoExtractor.Extract. -/
def GoExtractor.Extract (e : GoExtractor) (content : String) :
    Except Panic (List CodeBlock) := do
  let packageRe ← patternOf e.patterns "package"
  let packageName :=
    match packageRe.FindStringSubmatch content with
    | some m => m.getD 1 ""
    | none => ""
  let importRe ← patternOf e.patterns "import"
  let imports := GoExtractor.importsOf (importRe.FindStringSubmatch content)
  let funcRe ← patternOf e.patterns "func"
  let blocks1 ← plugins.collectBlocks
    (GoExtractor.namedBlockOf GoExtractor.extractFunction "function" content packageName
      imports)
    (funcRe.FindAllStringSubmatch content)
  let structRe ← patternOf e.patterns "struct"
  let blocks2 ← plugins.collectBlocks
    (GoExtractor.namedBlockOf GoExtractor.extractStruct "struct" content packageName imports)
    (structRe.FindAllStringSubmatch content)
  let interfaceRe ← patternOf e.patterns "interface"
  let blocks3 ← plugins.collectBlocks
    (GoExtractor.namedBlockOf GoExtractor.extractInterface "interface" content packageName
      imports)
    (interfaceRe.FindAllStringSubmatch content)
  let constRe ← patternOf e.patterns "const"
  match constRe.FindStringSubmatch content with
  | some m => do
    let text ← GoExtractor.extractConstant content (m.getD 1 "")
    pure (blocks1 ++ blocks2 ++ blocks3 ++
      [{ Content := text, BlockType := "constant", Package := packageName,
         Filename := m.getD 1 "" ++ ".go", Language := "go", Imports := imports }])
  | none => pure (blocks1 ++ blocks2 ++ blocks3)

end extract

/-! ## `cmd/main/utils.go` -/

namespace main

/-- The loop of `mergeSlices` over one slice: `seen` holds the keys of the map `seen`
and `result` the slice built so far. -/
def appendUnseen : List String → List String × List String → List String × List String
  | [], st => st
  | item :: rest, (seen, result) =>
    if item ∈ seen then appendUnseen rest (seen, result)
    else appendUnseen rest (item :: seen, result ++ [item])

/-- The function mergeSlices of `cmd/main/utils.go`. -/
def mergeSlices (slice1 slice2 : List String) : List String :=
  (appendUnseen slice2 (appendUnseen slice1 ([], []))).2

/-- The map `groups` of `MergeBlocks`: the keys it holds, in the order of their first
insertion, and the group of each key (the nil slice for a key it does not hold). -/
structure Groups where
  keys : List String
  get : String → List CodeBlock

/-- The statement `groups[key] = append(groups[key], block)`. -/
def Groups.add (gs : Groups) (key : String) (block : CodeBlock) : Groups where
  keys := if key ∈ gs.keys then gs.keys else gs.keys ++ [key]
  get := fun k => if k = key then gs.get k ++ [block] else gs.get k

/-- The first loop of `MergeBlocks`: the map `groups` once every block is filed under
its key. -/
def groupBlocks (blocks : List CodeBlock) : Groups :=
  blocks.foldl (fun gs block => gs.add (block.Filename ++ "|" ++ block.Language) block)
    { keys := [], get := fun _ => [] }

/-- The order in which a `range` over a Go map visits the keys. The language leaves
the order open and it may change from one run to the next: `visit` takes the keys
of the map and returns them in the order of one iteration. -/
structure MapOrder where
  visit : List String → List String
  perm : ∀ keys, (visit keys).Perm keys

/-- The iteration that visits the keys in the order of their insertion. -/
def MapOrder.insertion : MapOrder where
  visit := id
  perm := fun _ => List.Perm.refl _

/-- The iteration that visits the keys in the reverse order of their insertion. -/
def MapOrder.reversed : MapOrder where
  visit := List.reverse
  perm := fun keys => List.reverse_perm keys

/-- One step of the inner loop of `MergeBlocks`: the block `b` merged into
`mergedBlock`. -/
def mergeInto (mergedBlock b : CodeBlock) : CodeBlock :=
  { mergedBlock with
    Content := mergedBlock.Content ++ ("\n\n" ++ strings.Repeat "-" 80 ++ "\n\n" ++ b.Content)
    Imports := mergeSlices mergedBlock.Imports b.Imports
    Annotations := mergeSlices mergedBlock.Annotations b.Annotations
    Modifiers := mergeSlices mergedBlock.Modifiers b.Modifiers }

/-- The body of the second loop of `MergeBlocks` for one group: a group of one block
gives that block, a longer group its first block with the others merged into it in
order (no group of the map is empty). -/
def mergeGroup : List CodeBlock → List CodeBlock
  | [] => []
  | [b] => [b]
  | b :: rest => [rest.foldl mergeInto b]

/-- The function MergeBlocks of `cmd/main/utils.go`, for the order in which the run
iterates over the map `groups`. -/
def MergeBlocks (order : MapOrder) (blocks : List CodeBlock) : List CodeBlock :=
  if blocks.length = 0 then blocks
  else (order.visit (groupBlocks blocks).keys).flatMap
    (fun key => mergeGroup ((groupBlocks blocks).get key))

end main

/-! ## Go `strings` and `regexp`: replacing -/

namespace strings

/-- Go `strings.TrimPrefix`. -/
def TrimPrefix (s p : String) : String :=
  if HasPrefix s p then String.mk (s.data.drop p.data.length) else s

/-- The loop of Go `strings.Replace` for a non-empty `old`, read left to right: each
occurrence of `old` found is replaced by `new` and the reading goes on after it;
`skip` is the number of characters of the occurrence still to pass over. -/
def replaceChars (old new : List Char) : List Char → Nat → List Char
  | [], _ => []
  | _ :: cs, skip + 1 => replaceChars old new cs skip
  | c :: cs, 0 =>
    if old.isPrefixOf (c :: cs) then new ++ replaceChars old new cs (old.length - 1)
    else c :: replaceChars old new cs 0

/-- Go `strings.ReplaceAll`: with an empty `old`, `new` is put before every character
and at the end. -/
def ReplaceAll (s old new : String) : String :=
  if old = new then s
  else if old.data.isEmpty then String.mk (new.data ++ s.data.flatMap (fun c => c :: new.data))
  else String.mk (replaceChars old.data new.data s.data 0)

end strings

namespace regexp

section Replace

/-! The parameter `IsLetterOrDigit` is Go `unicode.IsLetter(r) || unicode.IsDigit(r)`,
the Unicode letters and decimal digits, which decide where a name in a replacement
template ends. -/

variable (IsLetterOrDigit : Char → Bool)

/-- The number a template name stands for in Go `extract`: its decimal value when it
is made of ASCII digits only, has no leading zero and stays under the bound of the
loop; `none` is Go's -1. -/
def templateNumber (name : List Char) : Option Nat :=
  let num := name.foldl (fun (acc : Option Nat) c =>
    match acc with
    | none => none
    | some n => if c < '0' || '9' < c || n ≥ 100000000 then none
                else some (n * 10 + (c.toNat - 48))) (some 0)
  if name.head? = some '0' && name.length > 1 then none else num

/-- Go `extract` of package regexp: the name at the start of the text after a `$`,
written as the bare name or as the name in braces; the name, its number and the text after it, or `none` where
Go returns `ok = false`. -/
def extractName (str : List Char) : Option (List Char × Option Nat × List Char) :=
  match str with
  | [] => none
  | c :: cs =>
    let brace := c = Char.ofNat 123
    let body := if brace then cs else c :: cs
    let name := body.takeWhile (fun r => IsLetterOrDigit r || r = '_')
    let after := body.drop name.length
    if name.isEmpty then none
    else if brace then
      match after with
      | d :: rest => if d = Char.ofNat 125 then some (name, templateNumber name, rest) else none
      | [] => none
    else some (name, templateNumber name, after)

/-- Go `(*Regexp).expand` on a template: `$$` is a dollar sign, `$n` (also with `n` in
braces) the text of group `n` of the match (nothing for a group that is out of range or took no
part), a `$` that no name follows is kept. The expressions of this development have
no named groups, so a name that is not a number stands for nothing. Each step reads
at least one character of the template, which `fuel` bounds. -/
def expand (text : List Char) (numSubexp : Nat) (m : Match) :
    Nat → List Char → List Char
  | 0, template => template
  | fuel + 1, template =>
    let before := template.takeWhile (fun c => c ≠ '$')
    match template.drop before.length with
    | [] => template
    | _ :: after =>
      match after with
      | '$' :: rest => before ++ '$' :: expand text numSubexp m fuel rest
      | _ =>
        match extractName IsLetterOrDigit after with
        | none => before ++ '$' :: expand text numSubexp m fuel after
        | some (_, num, rest) =>
          let group :=
            match num with
            | some 0 => (text.drop m.start).take (m.stop - m.start)
            | some n =>
              if n ≤ numSubexp then
                match m.caps.find? (fun c => c.1 == n) with
                | some c => (text.drop c.2.1).take (c.2.2 - c.2.1)
                | none => []
              else []
            | none => []
          before ++ group ++ expand text numSubexp m fuel rest

/-- The loop of Go `(*Regexp).replaceAll`: the text from `lastMatchEnd` on with every
match found from `searchPos` on replaced by the expanded template; an empty match
right after another match is not replaced, and the search moves on by at least one
character. -/
def replaceLoop (re : Regexp) (text : List Char) (repl : List Char) :
    Nat → Nat → Nat → List Char
  | 0, _, lastMatchEnd => text.drop lastMatchEnd
  | fuel + 1, searchPos, lastMatchEnd =>
    if searchPos > text.length then text.drop lastMatchEnd
    else
      match search re.re (text.drop searchPos) searchPos
          (if searchPos = 0 then none else text.get? (searchPos - 1)) with
      | none => text.drop lastMatchEnd
      | some m =>
        let unmatched := (text.drop lastMatchEnd).take (m.start - lastMatchEnd)
        let replaced :=
          if m.stop > lastMatchEnd || m.start = 0 then
            expand IsLetterOrDigit text re.numSubexp m (repl.length + 1) repl
          else []
        let width := if searchPos < text.length then 1 else 0
        let next :=
          if searchPos + width > m.stop then searchPos + width
          else if searchPos + 1 > m.stop then searchPos + 1
          else m.stop
        unmatched ++ replaced ++ replaceLoop re text repl fuel next m.stop

/-- Go `(*Regexp).ReplaceAllString`. -/
def Regexp.ReplaceAllString (re : Regexp) (src repl : String) : String :=
  String.mk (replaceLoop IsLetterOrDigit re src.data repl.data (src.data.length + 2) 0 0)

end Replace

end regexp


/-! ## A file tree for `cmd/rename` -/

namespace os

/-- What a path names: a regular file with its content, or a directory. -/
inductive Node where
  | file (content : String)
  | dir
  deriving DecidableEq, Repr

/-- A file tree: the nodes by their cleaned path, each path once. The tree has no
symbolic links, so `Lstat` is `Stat`. -/
structure FileTree where
  nodes : List (String × Node)
  deriving DecidableEq, Repr

/-- The node a path names. -/
def FileTree.find (t : FileTree) (path : String) : Option Node :=
  t.nodes.lookup (filepath.Clean path)

/-- Go `os.Stat`. -/
def Stat (t : FileTree) (name : String) : Except String Node :=
  match t.find name with
  | some n => .ok n
  | none => .error ("stat " ++ name ++ ": no such file or directory")

/-- Go `os.DirEntry`: what `processDirectory` reads of it. -/
structure DirEntry where
  Name : String
  IsDir : Bool
  deriving DecidableEq, Repr

/-- Whether the first text comes before the second in the order of Go strings
(lexicographic by code point, which is the order of their UTF-8 bytes). -/
def lessChars : List Char → List Char → Bool
  | [], [] => false
  | [], _ :: _ => true
  | _ :: _, [] => false
  | a :: as, b :: bs => a.toNat < b.toNat || (a == b && lessChars as bs)

/-- The nodes right below the directory `dir`: those whose path is `dir` joined with
their last element. -/
def FileTree.children (t : FileTree) (dir : String) : List (String × Node) :=
  t.nodes.filter (fun e =>
    e.1 ≠ filepath.Clean dir && filepath.Join dir (filepath.Base e.1) == e.1)

/-- The entries of a directory sorted by name, as `os.ReadDir` and `filepath.Walk`
list them. -/
def FileTree.entries (t : FileTree) (dir : String) : List DirEntry :=
  ((t.children dir).map (fun e => DirEntry.mk (filepath.Base e.1) (e.2 == Node.dir))).insertionSort
    (fun a b => lessChars b.Name.data a.Name.data = false)

/-- Go `os.ReadDir`. -/
def ReadDir (t : FileTree) (name : String) : Except String (List DirEntry) :=
  match t.find name with
  | some Node.dir => .ok (t.entries name)
  | some (Node.file _) => .error ("readdirent " ++ name ++ ": not a directory")
  | none => .error ("open " ++ name ++ ": no such file or directory")

/-- The path of a node after the directory at `o` has moved to `n`: the directory and
what lies below it move. -/
def rekey (o n p : String) : String :=
  if p = o then n
  else if strings.HasPrefix p (o ++ "/") then n ++ String.mk (p.data.drop o.data.length)
  else p

/-- Go `os.Rename` (Unix `rename`): the node at `oldpath` moves to `newpath`, whose
directory must exist; a file replaces a file that is there, a directory replaces an
empty directory, and no other node at `newpath` is replaced. -/
def Rename (t : FileTree) (oldpath newpath : String) : Except String FileTree :=
  let o := filepath.Clean oldpath
  let n := filepath.Clean newpath
  let kept := t.nodes.filter (fun e => e.1 ≠ n)
  let fail := fun (msg : String) =>
    (Except.error ("rename " ++ oldpath ++ " " ++ newpath ++ ": " ++ msg) : Except String FileTree)
  match t.find oldpath with
  | none => fail "no such file or directory"
  | some src =>
    if t.find (filepath.Dir n) ≠ some Node.dir then fail "no such file or directory"
    else if o = n then .ok t
    else
      match src, t.find newpath with
      | Node.file _, some Node.dir => fail "file exists"
      | Node.file _, _ => .ok { nodes := kept.map (fun e => (if e.1 = o then n else e.1, e.2)) }
      | Node.dir, some (Node.file _) => fail "not a directory"
      | Node.dir, some Node.dir =>
        if (t.children n).isEmpty then .ok { nodes := kept.map (fun e => (rekey o n e.1, e.2)) }
        else fail "directory not empty"
      | Node.dir, none =>
        if strings.HasPrefix n (o ++ "/") then fail "invalid argument"
        else .ok { nodes := kept.map (fun e => (rekey o n e.1, e.2)) }

end os

namespace filepath

/-- The loop of Go `filepath.Walk` from the path `path` on: `Lstat` on the path, then
the walk function on it, then, for a directory, the same on each of its entries in
the order of their names. The state `s` is what the walk function works on (it never
returns an error here); the walk stops at the first path `Lstat` does not find, with
that error. `fuel` bounds the depth of the walk. -/
def walk {σ : Type} (tree : σ → os.FileTree) (walkFn : String → os.Node → σ → σ) :
    Nat → String → σ → σ × Option String
  | 0, _, s => (s, none)
  | fuel + 1, path, s =>
    match (tree s).find path with
    | none => (s, some ("lstat " ++ path ++ ": no such file or directory"))
    | some (os.Node.file content) => (walkFn path (os.Node.file content) s, none)
    | some os.Node.dir =>
      ((tree s).entries path).foldl (fun (r : σ × Option String) entry =>
        match r.2 with
        | some err => (r.1, some err)
        | none => walk tree walkFn fuel (Join path entry.Name) r.1)
        (walkFn path os.Node.dir s, none)

/-- Go `filepath.Walk` on a state that holds a file tree; the number of nodes of the
tree bounds the depth of the walk. -/
def Walk (walkFn : String → os.Node → Nat × os.FileTree → Nat × os.FileTree)
    (root : String) (s : Nat × os.FileTree) : (Nat × os.FileTree) × Option String :=
  walk (fun s => s.2) walkFn (s.2.nodes.length + 1) root s

end filepath

/-! ## `cmd/rename/rename.go` -/

namespace rename

/-- The flags of RenameCommand. The Go field `prefix` is `prefix_` here (`prefix` is
a Lean keyword). -/
structure RenameCommand where
  directory : String := ""
  pattern : String := ""
  prefix_ : String := ""
  suffix : String := ""
  regex : String := ""
  replacement : String := ""
  verbose : Bool := false
  quiet : Bool := false
  dryRun : Bool := false
  force : Bool := false
  recursive : Bool := false

section Rename

variable (IsLetterOrDigit : Char → Bool)

/-- RenameCommand.renameFile: the renaming rules on one file name; `regex` is the
compiled expression, `none` for a nil pointer. -/
def RenameCommand.renameFile (c : RenameCommand) (filename : String)
    (regex : Option regexp.Regexp) : String :=
  let result := filename
  let result :=
    if c.regex ≠ "" then
      match regex with
      | some re =>
        if c.replacement ≠ "" then re.ReplaceAllString IsLetterOrDigit result c.replacement
        else re.ReplaceAllString IsLetterOrDigit result ""
      | none => result
    else result
  let result := if c.pattern ≠ "" then strings.ReplaceAll result c.pattern "" else result
  let result :=
    if c.prefix_ ≠ "" ∧ strings.HasPrefix result c.prefix_ then
      strings.TrimPrefix result c.prefix_
    else result
  let result :=
    if c.suffix ≠ "" ∧ strings.HasSuffix result c.suffix then
      strings.TrimSuffix result c.suffix
    else result
  result


/-- The body of the loop of `processDirectory` over the entries of the directory (the
same steps as the function it passes to `filepath.Walk`): the count and the file tree
after the entry called `name` in the directory `dir`, a regular file. What the
function prints is left out. -/
def RenameCommand.renameEntry (c : RenameCommand) (regex : Option regexp.Regexp)
    (dir name : String) (oldPath : String) (s : Nat × os.FileTree) : Nat × os.FileTree :=
  let newName := c.renameFile IsLetterOrDigit name regex
  if newName = name then s
  else
    let newPath := filepath.Join dir newName
    if !c.force && (os.Stat s.2 newPath).toBool then s
    else if !c.dryRun then
      match os.Rename s.2 oldPath newPath with
      | .error _ => s
      | .ok t => (s.1 + 1, t)
    else (s.1 + 1, s.2)

/-- The function `processDirectory` passes to `filepath.Walk`, on a path that `Lstat`
found: a directory is skipped. -/
def RenameCommand.walkFn (c : RenameCommand) (regex : Option regexp.Regexp)
    (path : String) (info : os.Node) (s : Nat × os.FileTree) : Nat × os.FileTree :=
  match info with
  | .dir => s
  | .file _ =>
    c.renameEntry IsLetterOrDigit regex (filepath.Dir path) (filepath.Base path) path s

/-- The loop of `processDirectory` in non-recursive mode over the entries read. -/
def RenameCommand.processEntries (c : RenameCommand) (regex : Option regexp.Regexp)
    (entries : List os.DirEntry) (s : Nat × os.FileTree) : Nat × os.FileTree :=
  entries.foldl (fun s entry =>
    if entry.IsDir then s
    else c.renameEntry IsLetterOrDigit regex c.directory entry.Name
      (filepath.Join c.directory entry.Name) s) s

/-- What a call of `processDirectory` returns and leaves: the count, the error (`none`
is nil) and the file tree afterwards. -/
structure Outcome where
  count : Nat
  err : Option String
  tree : os.FileTree
  deriving DecidableEq, Repr

/-- RenameCommand.processDirectory. -/
def RenameCommand.processDirectory (c : RenameCommand) (regex : Option regexp.Regexp)
    (t : os.FileTree) : Outcome :=
  if c.recursive then
    match filepath.Walk (c.walkFn IsLetterOrDigit regex) c.directory (0, t) with
    | (s, some err) =>
      { count := s.1, err := some ("error walking directory tree: " ++ err), tree := s.2 }
    | (s, none) => { count := s.1, err := none, tree := s.2 }
  else
    match os.ReadDir t c.directory with
    | .error err => { count := 0, err := some ("failed to read directory: " ++ err), tree := t }
    | .ok entries =>
      let s := c.processEntries IsLetterOrDigit regex entries (0, t)
      { count := s.1, err := none, tree := s.2 }

end Rename

end rename

/-! ## `cmd/main/utils.go`: `ValidateBlock` -/

namespace main

/-- ValidateBlock of `cmd/main/utils.go`: the error returned (`none` is nil). The Go
`len` of a string is its number of bytes. -/
def ValidateBlock (block : CodeBlock) : Option String :=
  if block.Filename = "" then some "block has empty filename"
  else if block.Content = "" then some "block has empty content"
  else if block.Content.utf8ByteSize > 10 * 1024 * 1024 then
    some ("block content too large: " ++ toString block.Content.utf8ByteSize ++ " bytes")
  else if strings.ContainsAny block.Filename "<>:\"/\\|?*" then
    some ("invalid characters in filename: " ++ block.Filename)
  else none

end main

/-! ## `cmd/extract/extract.go`: the worker pool -/

namespace extract

open extractor

/-- GenericExtractor.Cleanup: `e.patterns = nil`. -/
def GenericExtractor.Cleanup (_e : GenericExtractor) : GenericExtractor := { patterns := [] }

/-- An extractor object of `extractors.go` as the workers of the pool share it: the
methods of its type on its state, the field `patterns`. The plugin values of the
registry are pointers to such objects. -/
structure PluginObject where
  Name : String
  Initialize : List (String × regexp.Regexp) → List (String × regexp.Regexp) × Option String
  Extract : List (String × regexp.Regexp) → String → Except Panic (List CodeBlock)
  Cleanup : List (String × regexp.Regexp) → List (String × regexp.Regexp)

/-- The generic extractor as an object. -/
def GenericExtractor.object : PluginObject where
  Name := "generic"
  Initialize := fun patterns =>
    (((GenericExtractor.mk patterns).Initialize).1.patterns,
     ((GenericExtractor.mk patterns).Initialize).2.map
       (fun e => "failed to compile pattern " ++ e.1 ++ ": " ++ e.2.message))
  Extract := fun patterns content => (GenericExtractor.mk patterns).Extract content
  Cleanup := fun patterns => ((GenericExtractor.mk patterns).Cleanup).patterns

/-- The calls of a worker on a plugin. -/
inductive PoolOp where
  | Initialize
  | InitializeFailed
  | Extract
  | Cleanup
  deriving DecidableEq, Repr

/-- One call of a worker on a plugin, for the record of a run. -/
structure PoolEvent where
  worker : Nat
  op : PoolOp
  plugin : String
  deriving DecidableEq, Repr

/-- Where a worker of `processFilesParallel` stands: waiting on `fileChan`, or inside
`processSingleFile` after the extractor is selected, after `Initialize`, after
`Extract`, after the blocks are written, or done (`fileChan` is closed and empty). -/
inductive Worker where
  | waiting
  | selected (path content : String) (e : ExtractorPlugin)
  | initialized (path content : String) (e : ExtractorPlugin)
  | extracted (path : String) (e : ExtractorPlugin) (blocks : List CodeBlock)
  | written (path : String) (e : ExtractorPlugin) (blocks : List CodeBlock)
      (writtenFiles : List String)
  | done

/-- Whether the worker is done. -/
def Worker.isDone : Worker → Bool
  | .done => true
  | _ => false

/-- The state of a run of `processFilesParallel`: the paths still in `fileChan`, the
workers, the state of each extractor object by the name of its plugin, the file
system, what `resultChan` and `errorChan` have received, and the record of the calls
on plugins so far. -/
structure Pool where
  fileChan : List String
  workers : List Worker
  heap : String → List (String × regexp.Regexp)
  fs : os.FileSystem
  resultChan : List ExtractionResult := []
  errorChan : List String := []
  trace : List PoolEvent := []

section Pool

variable (ToLower : String → String)

/-- One step of the worker `w`, taken as a whole: the next stretch of its loop body up
to and including its next call on the extractor or on the file system. A panic of
`Extract` ends the program. `objects` gives the object behind a plugin value, by
name; a plugin value without an object has no state of its own. -/
def Pool.step (c : ExtractCommand) (faults : os.Faults) (registry : PluginRegistry)
    (objects : String → Option PluginObject) (w : Nat) (p : Pool) : Except Panic Pool :=
  match p.workers.get? w with
  | none => .ok p
  | some Worker.done => .ok p
  | some Worker.waiting =>
    match p.fileChan with
    | [] => .ok { p with workers := p.workers.set w Worker.done }
    | path :: rest =>
      match os.ReadFile p.fs path with
      | .error err =>
        .ok { p with fileChan := rest,
                     errorChan := p.errorChan ++
                       [path ++ ": " ++ (ProcessError.readFile err).message] }
      | .ok content =>
        let found :=
          if c.language ≠ "" then registry.GetExtractorByLanguage ToLower c.language
          else registry.GetExtractorByExtension ToLower (ToLower (filepath.Ext path))
        let found2 :=
          match found with
          | some e => some e
          | none => registry.GetExtractorByLanguage ToLower "generic"
        match found2 with
        | none =>
          .ok { p with fileChan := rest,
                       errorChan := p.errorChan ++
                         [path ++ ": " ++ (ProcessError.noExtractor path).message] }
        | some e =>
          .ok { p with fileChan := rest,
                       workers := p.workers.set w (Worker.selected path content e) }
  | some (Worker.selected path content e) =>
    let r :=
      match objects e.Name with
      | some obj => obj.Initialize (p.heap e.Name)
      | none => (p.heap e.Name, e.Initialize)
    match r.2 with
    | some err =>
      .ok { p with heap := fun name => if name = e.Name then r.1 else p.heap name,
                   workers := p.workers.set w Worker.waiting,
                   errorChan := p.errorChan ++
                     [path ++ ": " ++ (ProcessError.initFailed err).message],
                   trace := p.trace ++ [⟨w, PoolOp.InitializeFailed, e.Name⟩] }
    | none =>
      .ok { p with heap := fun name => if name = e.Name then r.1 else p.heap name,
                   workers := p.workers.set w (Worker.initialized path content e),
                   trace := p.trace ++ [⟨w, PoolOp.Initialize, e.Name⟩] }
  | some (Worker.initialized path content e) =>
    match (match objects e.Name with
           | some obj => obj.Extract (p.heap e.Name) content
           | none => e.Extract content) with
    | .error panic => .error panic
    | .ok blocks =>
      .ok { p with workers := p.workers.set w (Worker.extracted path e blocks),
                   trace := p.trace ++ [⟨w, PoolOp.Extract, e.Name⟩] }
  | some (Worker.extracted path e blocks) =>
    let written :=
      if !c.dryRun then c.writeExtractedBlocks ToLower faults blocks path p.fs
      else ([], p.fs)
    .ok { p with workers := p.workers.set w (Worker.written path e blocks written.1),
                 fs := written.2 }
  | some (Worker.written path e blocks writtenFiles) =>
    .ok { p with heap := fun name =>
                   if name = e.Name then
                     match objects e.Name with
                     | some obj => obj.Cleanup (p.heap e.Name)
                     | none => p.heap e.Name
                   else p.heap name,
                 workers := p.workers.set w Worker.waiting,
                 resultChan := p.resultChan ++
                   [{ SourceFile := path, ExtractorName := e.Name, CodeBlocks := blocks,
                      WrittenFiles := writtenFiles }],
                 trace := p.trace ++ [⟨w, PoolOp.Cleanup, e.Name⟩] }

/-- The pool after the steps of a schedule, the list of the workers that step in
turn. -/
def Pool.run (c : ExtractCommand) (faults : os.Faults) (registry : PluginRegistry)
    (objects : String → Option PluginObject) : List Nat → Pool → Except Panic Pool
  | [], p => .ok p
  | w :: rest, p =>
    match p.step ToLower c faults registry objects w with
    | .error panic => .error panic
    | .ok p1 => Pool.run c faults registry objects rest p1

/-- The pool `processFilesParallel` starts: every path in `fileChan`, which is closed,
`min(parallel, NumCPU)` workers waiting, and every extractor object as its
constructor leaves it, with `patterns` nil. -/
def ExtractCommand.startPool (c : ExtractCommand) (numCPU : Nat) (fs : os.FileSystem)
    (inputPaths : List String) : Pool where
  fileChan := inputPaths
  workers := List.replicate (if c.parallel > numCPU then numCPU else c.parallel) Worker.waiting
  heap := fun _ => []
  fs := fs

/-- ExtractCommand.processFilesParallel under a schedule of its workers: the results
in the order `resultChan` received them and the file system afterwards, once every
worker is done (`none` while a worker is not, when the schedule is too short); a
panic of a worker ends the program. -/
def ExtractCommand.processFilesParallel (c : ExtractCommand) (faults : os.Faults)
    (numCPU : Nat) (objects : String → Option PluginObject) (schedule : List Nat)
    (fs : os.FileSystem) (inputPaths : List String) (registry : PluginRegistry) :
    Except Panic (Option (List ExtractionResult × os.FileSystem)) :=
  match Pool.run ToLower c faults registry objects schedule
      (c.startPool numCPU fs inputPaths) with
  | .error panic => .error panic
  | .ok p => .ok (if p.workers.all Worker.isDone then some (p.resultChan, p.fs) else none)

/-- The record of the calls on plugins of a run of `processFilesParallel`. -/
def ExtractCommand.poolTrace (c : ExtractCommand) (faults : os.Faults)
    (numCPU : Nat) (objects : String → Option PluginObject) (schedule : List Nat)
    (fs : os.FileSystem) (inputPaths : List String) (registry : PluginRegistry) :
    Except Panic (List PoolEvent) :=
  match Pool.run ToLower c faults registry objects schedule
      (c.startPool numCPU fs inputPaths) with
  | .error panic => .error panic
  | .ok p => .ok p.trace

end Pool

end extract

namespace strings

/-- The number of characters before the first occurrence of `sub` in the text. -/
def indexChars (sub : List Char) : List Char → Option Nat
  | [] => if sub.isEmpty then some 0 else none
  | c :: cs =>
    if sub.isPrefixOf (c :: cs) then some 0 else (indexChars sub cs).map (fun i => i + 1)

/-- Go `strings.Index`: the byte offset of the first occurrence of `substr` in `s`, or
-1. -/
def Index (s substr : String) : Int :=
  match indexChars substr.data s.data with
  | some i => ((String.mk (s.data.take i)).utf8ByteSize : Nat)
  | none => -1

end strings

namespace regexp

/-- Go `(*Regexp).MatchString`. -/
def Regexp.MatchString (re : Regexp) (s : String) : Bool :=
  (search re.re s.data 0 none).isSome

end regexp

/-! ## `pkg/plugins/golang.go` -/

namespace plugins

/-- GoExtractor of `pkg/plugins/golang.go`: its table of compiled patterns (empty for
the nil map). -/
structure GoExtractor where
  patterns : List (String × regexp.Regexp) := []
  deriving DecidableEq, Repr

/-- NewGoExtractor. -/
def NewGoExtractor : GoExtractor := {}

/-- The pattern table of `GoExtractor.Initialize`. -/
def GoExtractor.patternTable : List (String × String) :=
  [("package", "^package\\s+(\\w+)"),
   ("import_single", "^import\\s+\"([^\"]+)\""),
   ("import_multiple", "^import\\s*\\(([^)]+)\\)"),
   ("import_group", "import\\s*\\(\\s*(?:[^)]+\\n)+\\s*\\)"),
   ("import_alias", "import\\s+(\\w+)\\s+\"([^\"]+)\""),
   ("struct", "type\\s+(\\w+)\\s+struct\\s*\\\x7b"),
   ("interface", "type\\s+(\\w+)\\s+interface\\s*\\\x7b"),
   ("type_alias", "type\\s+(\\w+)\\s+(\\w+)"),
   ("type_func", "type\\s+(\\w+)\\s+func\\([^)]*\\)"),
   ("function", "func\\s+(\\w+)\\s*\\([^)]*\\)(?:\\s+\\([^)]*\\))?\\s*\\\x7b"),
   ("method", "func\\s+\\([^)]+\\)\\s+(\\w+)\\s*\\([^)]*\\)(?:\\s+\\([^)]*\\))?\\s*\\\x7b"),
   ("constructor", "func\\s+New(\\w+)\\s*\\([^)]*\\)"),
   ("pointer_receiver", "func\\s+\\(\\s*\\*\\s*(\\w+)\\s*\\)"),
   ("value_receiver", "func\\s+\\(\\s*(\\w+)\\s*\\)"),
   ("var_single", "var\\s+(\\w+)\\s+(\\w+)"),
   ("var_multiple", "var\\s*\\(\\s*(?:[^)]+\\n)+\\s*\\)"),
   ("const_single", "const\\s+(\\w+)\\s*="),
   ("const_multiple", "const\\s*\\(\\s*(?:[^)]+\\n)+\\s*\\)"),
   ("error_return", "error\\)"),
   ("error_check", "if\\s+err\\s*!="),
   ("error_wrap", "fmt\\.Errorf|errors\\.Wrap"),
   ("goroutine", "go\\s+(\\w+)\\s*\\("),
   ("channel", "chan\\s+(?:\\*?\\s*\\w+|struct\\s*\\\x7b\\\x7d)"),
   ("make_chan", "make\\s*\\(\\s*chan"),
   ("select", "select\\s*\\\x7b"),
   ("interface_impl", "type\\s+(\\w+)\\s+interface\\s*\\\x7b[^\x7d]*(\\w+)\\s*\\([^)]*\\)"),
   ("test_function", "func\\s+(Test\\w+)\\s*\\(\\s*\\*\\s*testing\\.T\\s*\\)"),
   ("benchmark_function", "func\\s+(Benchmark\\w+)\\s*\\(\\s*\\*\\s*testing\\.B\\s*\\)"),
   ("example_function", "func\\s+(Example\\w+)\\s*\\(\\s*\\)"),
   ("http_handler", "func\\s+(\\w+)\\s*\\(\\s*http\\.ResponseWriter,\\s*\\*http\\.Request\\s*\\)"),
   ("http_route", "\\.(?:Handle|HandleFunc|Get|Post|Put|Delete|Patch)\\s*\\(\\s*\"([^\"]+)\""),
   ("middleware", "func\\s+(\\w+)\\s*\\(\\s*http\\.Handler\\s*\\)\\s*http\\.Handler"),
   ("sql_query", "\\.(?:Query|QueryRow|Exec)\\s*\\("),
   ("gorm_model", "type\\s+(\\w+)\\s+struct\\s*\\\x7b[^\x7d]*gorm\\.Model"),
   ("go_mod", "module\\s+([^\\s]+)"),
   ("go_mod_require", "require\\s+([^\\s]+)\\s+([^\\s]+)"),
   ("go_mod_replace", "replace\\s+([^\\s]+)\\s+=>"),
   ("go_work", "go\\s+([\\d.]+)"),
   ("go_doc", "^//\\s+(\\w+)\\s"),
   ("godoc_package", "^//\\s+Package\\s+(\\w+)"),
   ("godoc_function", "^//\\s+(\\w+)\\s"),
   ("multiline_comment", "/\\*[^*]*\\*+(?:[^/*][^*]*\\*+)*/"),
   ("build_constraint", "^//\\s*\\+build\\s+"),
   ("go_build", "^//go:build\\s+"),
   ("defer", "defer\\s+"),
   ("panic", "panic\\s*\\("),
   ("recover", "recover\\s*\\("),
   ("sync_mutex", "sync\\.(?:Mutex|RWMutex)"),
   ("sync_waitgroup", "sync\\.WaitGroup"),
   ("sync_once", "sync\\.Once"),
   ("atomic_operation", "atomic\\."),
   ("context_param", "context\\.Context"),
   ("with_cancel", "context\\.WithCancel"),
   ("with_timeout", "context\\.WithTimeout"),
   ("with_deadline", "context\\.WithDeadline"),
   ("reflect_type", "reflect\\.TypeOf"),
   ("reflect_value", "reflect\\.ValueOf"),
   ("io_reader", "io\\.Reader"),
   ("io_writer", "io\\.Writer"),
   ("bufio_scanner", "bufio\\.Scanner"),
   ("json_marshal", "json\\.Marshal"),
   ("json_unmarshal", "json\\.Unmarshal"),
   ("json_tag", "json:\"([^\"]+)\""),
   ("yaml_tag", "yaml:\"([^\"]+)\""),
   ("xml_tag", "xml:\"([^\"]+)\""),
   ("embed", "//go:embed\\s+"),
   ("generic_type", "\\[[A-Z]\\s+(?:\\w+\\s*,\\s*)*\\w+\\]"),
   ("generic_func", "func\\s+\\w+\\["),
   ("any_type", "any\\b"),
   ("comparable", "comparable\\b"),
   ("wire_inject", "wire\\.Build"),
   ("wire_provider", "func\\s+Provide"),
   ("cobra_command", "cobra\\.Command"),
   ("cobra_run", "Run:\\s*func"),
   ("gin_route", "\\.(?:GET|POST|PUT|DELETE)\\s*\\(\\s*\"([^\"]+)\""),
   ("gin_context", "\\*gin\\.Context"),
   ("echo_route", "\\.(?:GET|POST|PUT|DELETE)\\s*\\(\\s*\"([^\"]+)\""),
   ("echo_context", "echo\\.Context"),
   ("grpc_service", "service\\s+(\\w+)\\s*\\\x7b"),
   ("grpc_rpc", "rpc\\s+(\\w+)\\s*\\("),
   ("protobuf_message", "message\\s+(\\w+)\\s*\\\x7b")]

/-- GoExtractor.Initialize: the extractor afterwards and the error returned. -/
def GoExtractor.Initialize (_e : GoExtractor) :
    GoExtractor × Option (String × regexp.Error) :=
  let r := compilePatterns GoExtractor.patternTable []
  ({ patterns := r.1 }, r.2)

/-- GoExtractor.getLineWithPattern. -/
def GoExtractor.getLineWithPattern (content pattern : String) : Except Panic String := do
  let re ← regexp.MustCompile pattern
  let m := re.FindString content
  if m ≠ "" then pure m else pure ""

/-- GoExtractor.extractFunctionBody. -/
def GoExtractor.extractFunctionBody (content funcName : String) : Except Panic String := do
  let pattern ← regexp.MustCompile
    ("func\\s+" ++ regexp.QuoteMeta funcName ++
      "\\s*\\([^)]*\\)(?:\\s+\\([^)]*\\))?\\s*\\\x7b[^\x7d]*\\\x7d")
  let m := pattern.FindString content
  if m ≠ "" then pure m
  else pure ("func " ++ funcName ++ "() \x7b\n\t// function body\n\x7d")

/-- GoExtractor.extractConstructorBody. -/
def GoExtractor.extractConstructorBody (content typeName : String) : Except Panic String := do
  let pattern ← regexp.MustCompile
    ("func\\s+New" ++ regexp.QuoteMeta typeName ++
      "\\s*\\([^)]*\\)(?:\\s+\\*?" ++ regexp.QuoteMeta typeName ++ ")?\\s*\\\x7b[^\x7d]*\\\x7d")
  let m := pattern.FindString content
  if m ≠ "" then pure m
  else pure ("func New" ++ typeName ++ "() *" ++ typeName ++ " \x7b\n\treturn &" ++ typeName ++
    "\x7b\x7d\n\x7d")

/-- GoExtractor.extractHttpHandlerBody. -/
def GoExtractor.extractHttpHandlerBody (content handlerName : String) :
    Except Panic String := do
  let pattern ← regexp.MustCompile
    ("func\\s+" ++ regexp.QuoteMeta handlerName ++
      "\\s*\\(\\s*w\\s+http\\.ResponseWriter,\\s*r\\s+\\*http\\.Request\\s*\\)\\s*\\\x7b[^\x7d]*\\\x7d")
  let m := pattern.FindString content
  if m ≠ "" then pure m
  else pure ("func " ++ handlerName ++
    "(w http.ResponseWriter, r *http.Request) \x7b\n\tw.WriteHeader(http.StatusOK)\n\tw.Write([]byte(\"OK\"))\n\x7d")

/-- GoExtractor.extractMiddlewareBody. -/
def GoExtractor.extractMiddlewareBody (content middlewareName : String) :
    Except Panic String := do
  let pattern ← regexp.MustCompile
    ("func\\s+" ++ regexp.QuoteMeta middlewareName ++
      "\\s*\\(\\s*next\\s+http\\.Handler\\s*\\)\\s*http\\.Handler\\s*\\\x7b[^\x7d]*\\\x7d")
  let m := pattern.FindString content
  if m ≠ "" then pure m
  else pure ("func " ++ middlewareName ++
    "(next http.Handler) http.Handler \x7b\n\treturn http.HandlerFunc(func(w http.ResponseWriter, r *http.Request) \x7b\n\t\t// middleware logic\n\t\tnext.ServeHTTP(w, r)\n\t\x7d)\n\x7d")

section GoFunctions

variable (ToLower : String → String)

/-- The loop of `functionToFilename`: an underscore goes before every upper-case ASCII
letter but the first character. -/
def GoExtractor.snakeChars : List Char → Bool → List Char
  | [], _ => []
  | r :: rs, first =>
    (if !first && 'A' ≤ r && r ≤ 'Z' then ['_', r] else [r]) ++ GoExtractor.snakeChars rs false

/-- GoExtractor.functionToFilename. -/
def GoExtractor.functionToFilename (funcName : String) : String :=
  ToLower (String.mk (GoExtractor.snakeChars funcName.data true)) ++ ".go"

/-- The body of the first loop of `extractFunctions`, over the matches of `function`:
no block for a match taken for a method, else one block of type `function`. -/
def GoExtractor.functionBlockOf (e : GoExtractor) (content packageName : String)
    (imports : List String) (m : List String) : Except Panic (List CodeBlock) :=
  match m with
  | _ :: funcName :: _ => do
    let funcLine ← GoExtractor.getLineWithPattern content
      ("func\\s+" ++ regexp.QuoteMeta funcName)
    if strings.Contains funcLine "(" && strings.Contains funcLine ")" &&
        strings.Contains funcLine "func" &&
        strings.Index funcLine "(" < strings.Index funcLine "func" then
      pure []
    else do
      let funcContent ← GoExtractor.extractFunctionBody content funcName
      let errorRe ← patternOf e.patterns "error_return"
      let returnsError := errorRe.MatchString funcContent
      pure [{ Content := funcContent, BlockType := "function", Package := packageName,
              Filename := GoExtractor.functionToFilename ToLower funcName, Language := "go",
              Imports := imports,
              Modifiers := if returnsError then ["error"] else [] }]
  | _ => pure []

/-- The body of the loop over the matches of `constructor`. -/
def GoExtractor.constructorBlockOf (content packageName : String)
    (imports : List String) (m : List String) : Except Panic (List CodeBlock) :=
  match m with
  | _ :: typeName :: _ => do
    let constructorContent ← GoExtractor.extractConstructorBody content typeName
    pure [{ Content := constructorContent, BlockType := "constructor", Package := packageName,
            Filename := GoExtractor.functionToFilename ToLower ("New" ++ typeName),
            Language := "go", Imports := imports }]
  | _ => pure []

/-- The body of the loop over the matches of `http_handler`. -/
def GoExtractor.handlerBlockOf (content packageName : String)
    (imports : List String) (m : List String) : Except Panic (List CodeBlock) :=
  match m with
  | _ :: handlerName :: _ => do
    let handlerContent ← GoExtractor.extractHttpHandlerBody content handlerName
    pure [{ Content := handlerContent, BlockType := "http_handler", Package := packageName,
            Filename := GoExtractor.functionToFilename ToLower handlerName,
            Language := "go", Imports := imports ++ ["net/http"] }]
  | _ => pure []

/-- The body of the loop over the matches of `middleware`. -/
def GoExtractor.middlewareBlockOf (content packageName : String)
    (imports : List String) (m : List String) : Except Panic (List CodeBlock) :=
  match m with
  | _ :: middlewareName :: _ => do
    let middlewareContent ← GoExtractor.extractMiddlewareBody content middlewareName
    pure [{ Content := middlewareContent, BlockType := "middleware", Package := packageName,
            Filename := GoExtractor.functionToFilename ToLower middlewareName,
            Language := "go", Imports := imports ++ ["net/http"] }]
  | _ => pure []

/-- GoExtractor.extractFunctions. -/
def GoExtractor.extractFunctions (e : GoExtractor) (content packageName : String)
    (imports : List String) : Except Panic (List CodeBlock) := do
  let functionRe ← patternOf e.patterns "function"
  let blocks1 ← collectBlocks (e.functionBlockOf ToLower content packageName imports)
    (functionRe.FindAllStringSubmatch content)
  let constructorRe ← patternOf e.patterns "constructor"
  let blocks2 ← collectBlocks
    (GoExtractor.constructorBlockOf ToLower content packageName imports)
    (constructorRe.FindAllStringSubmatch content)
  let handlerRe ← patternOf e.patterns "http_handler"
  let blocks3 ← collectBlocks (GoExtractor.handlerBlockOf ToLower content packageName imports)
    (handlerRe.FindAllStringSubmatch content)
  let middlewareRe ← patternOf e.patterns "middleware"
  let blocks4 ← collectBlocks
    (GoExtractor.middlewareBlockOf ToLower content packageName imports)
    (middlewareRe.FindAllStringSubmatch content)
  pure (blocks1 ++ blocks2 ++ blocks3 ++ blocks4)

end GoFunctions

/-- The Go extractor of `pkg/plugins` after `Initialize`. -/
def GoExtractor.initialized : GoExtractor := NewGoExtractor.Initialize.1

end plugins

/-! ## Values and predicates used to state the theorems -/

namespace extract

/-- The generic extractor after `Initialize`. -/
def GenericExtractor.initialized : GenericExtractor := NewGenericExtractor.Initialize.1

/-- The patterns whose matches `GenericExtractor.Extract` turns into blocks. -/
def GenericExtractor.blockPatterns : List String :=
  ["code_block", "yaml_block", "json_block", "xml_block", "ini_block"]

/-- Whether none of the block patterns of the extractor finds a match in `content`. -/
def GenericExtractor.noMatch (e : GenericExtractor) (content : String) : Bool :=
  GenericExtractor.blockPatterns.all (fun name =>
    match patternOf e.patterns name with
    | .ok re => (re.FindAllStringSubmatch content).isEmpty
    | .error _ => false)

end extract

namespace plugins

/-- The Python extractor after `Initialize`. -/
def PythonExtractor.initialized : PythonExtractor := NewPythonExtractor.Initialize.1

end plugins

namespace main

/-- The key under which `MergeBlocks` files a block. -/
def mergeKey (b : CodeBlock) : String := b.Filename ++ "|" ++ b.Language

/-- The separator `MergeBlocks` puts between the contents of a group: two line
breaks, 80 dashes and two line breaks. -/
def separator : String := "\n\n" ++ strings.Repeat "-" 80 ++ "\n\n"

/-- A list with every repeated element dropped after its first occurrence. -/
def dropRepeats : List String → List String
  | [] => []
  | x :: xs => x :: (dropRepeats xs).filter (fun y => y ≠ x)

end main

/-- A block for the examples. -/
def exampleBlock (filename language content : String) (imports : List String) : CodeBlock where
  Content := content
  BlockType := "text"
  Filename := filename
  Language := language
  Imports := imports

namespace extract

open extractor

/-- The Go extractor after `Initialize`. -/
def GoExtractor.initialized : GoExtractor := NewGoExtractor.Initialize.1

section Writer

variable (ToLower : String → String)

/-- The file name of the block at index `i` of a file's block list, in the words of
the claim: the Filename of the block when it has one, and otherwise the stem of the
source file, the type of the block, the index in decimal and the extension of the
language, with `_` between the first three. -/
def fileNameFor (sourceFile : String) (i : Nat) (block : CodeBlock) : String :=
  if block.Filename ≠ "" then block.Filename
  else
    strings.TrimSuffix (filepath.Base sourceFile) (filepath.Ext sourceFile) ++ "_" ++
      block.BlockType ++ "_" ++ toString i ++ getExtensionForLanguage ToLower block.Language

/-- The path the block at index `i` resolves to: its file name joined to the output
directory. -/
def outputPathFor (c : ExtractCommand) (sourceFile : String) (i : Nat) (block : CodeBlock) :
    String :=
  filepath.Join c.outputDir (fileNameFor ToLower sourceFile i block)

/-- The last block of the list, indexed from `i`, that resolves to the path `p`. -/
def lastResolving (c : ExtractCommand) (sourceFile p : String) (i : Nat)
    (blocks : List CodeBlock) : Option CodeBlock :=
  ((blocks.enumFrom i).reverse.find?
    (fun ib => outputPathFor ToLower c sourceFile ib.1 ib.2 = p)).map (fun ib => ib.2)

/-- The extractor `processSingleFile` selects for a file: the one found by the
language override when it is set and otherwise by the lower-cased extension, and the
one registered under the language `generic` when that lookup finds none. -/
def selectedExtractor (c : ExtractCommand) (path : String) (registry : PluginRegistry) :
    Option ExtractorPlugin :=
  match (if c.language ≠ "" then registry.GetExtractorByLanguage ToLower c.language
    else registry.GetExtractorByExtension ToLower (ToLower (filepath.Ext path))) with
  | some e => some e
  | none => registry.GetExtractorByLanguage ToLower "generic"

/-- Whether the processing of one file returns a result (no error and no panic). -/
def fileSucceeds (c : ExtractCommand) (faults : os.Faults) (registry : PluginRegistry)
    (fs : os.FileSystem) (path : String) : Bool :=
  match c.processSingleFile ToLower faults fs path registry with
  | .ok (.ok _, _) => true
  | _ => false

/-- The file system after the processing of one file. -/
def fsAfterFile (c : ExtractCommand) (faults : os.Faults) (registry : PluginRegistry)
    (fs : os.FileSystem) (path : String) : os.FileSystem :=
  match c.processSingleFile ToLower faults fs path registry with
  | .ok (_, fs1) => fs1
  | .error _ => fs

/-- The paths of the list whose processing returns a result, each processed in the
file system that the files before it leave. -/
def succeededPaths (c : ExtractCommand) (faults : os.Faults) (registry : PluginRegistry) :
    List String → os.FileSystem → List String
  | [], _ => []
  | path :: rest, fs =>
    (if fileSucceeds ToLower c faults registry fs path then [path] else []) ++
      succeededPaths c faults registry rest (fsAfterFile ToLower c faults registry fs path)

end Writer

end extract

/-- A plugin value for the examples: it has the given name, extensions and
`Initialize` result, and extracts the whole content as one block. -/
def examplePlugin (name : String) (exts : List String) (init : Option String) :
    extractor.ExtractorPlugin where
  Name := name
  Extensions := exts
  Extract := fun content =>
    .ok [{ Content := content, BlockType := "text", Filename := name ++ ".txt",
           Language := name }]
  ShouldProcess := fun _ => false
  Initialize := init

/-- A file system for the examples: the one file `path` with the given content. -/
def exampleFS (path content : String) : os.FileSystem where
  files := fun p => if p = path then some content else none
  dirs := fun _ => false

/-- No call of the operating system fails. -/
def noFaults : os.Faults where
  mkdirAll := fun _ => false
  writeFile := fun _ => false

/-- The ASCII letters and digits. -/
def asciiLetterOrDigit (c : Char) : Bool :=
  ('0' ≤ c && c ≤ '9') || ('A' ≤ c && c ≤ 'Z') || ('a' ≤ c && c ≤ 'z')

/-- A file tree for the examples: the directory `dir` and in it the regular files of
the given names, each with its name as content. -/
def exampleTree (dir : String) (names : List String) : os.FileTree where
  nodes := (dir, os.Node.dir) :: names.map (fun n => (filepath.Join dir n, os.Node.file n))

namespace rename

/-- Every occurrence of `p` removed from `s`: the pieces of `s` between the
occurrences of `p`, put together. -/
def removeAll (s p : String) : String := strings.Join (strings.Split s p) ""

/-- The text `s` without one leading `p`, where it starts with `p`. -/
def stripPrefix (s p : String) : String :=
  match p.data.isPrefixOf? s.data with
  | some rest => String.mk rest
  | none => s

/-- The text `s` without one trailing `p`, where it ends with `p`. -/
def stripSuffix (s p : String) : String :=
  match p.data.isSuffixOf? s.data with
  | some start => String.mk start
  | none => s

end rename

namespace os

/-- The number of regular files of a file tree. -/
def FileTree.fileCount (t : FileTree) : Nat :=
  (t.nodes.filter (fun e => e.2 ≠ Node.dir)).length

end os

namespace os

/-- A file tree as the structure means it: each path once, each path cleaned. -/
def FileTree.WellFormed (t : FileTree) : Prop :=
  (t.nodes.map Prod.fst).Nodup ∧ ∀ e ∈ t.nodes, filepath.Clean e.1 = e.1

instance (t : FileTree) : Decidable t.WellFormed :=
  inferInstanceAs (Decidable (_ ∧ _))

/-- The names of the regular files right below the directory `dir`. -/
def FileTree.fileNames (t : FileTree) (dir : String) : List String :=
  ((t.children dir).filter (fun e => e.2 ≠ Node.dir)).map (fun e => filepath.Base e.1)

end os

namespace rename

section Spec

variable (IsLetterOrDigit : Char → Bool)

/-- The path `processDirectory` renames the file called `f` to, cleaned. -/
def RenameCommand.newPath (c : RenameCommand) (regex : Option regexp.Regexp) (f : String) :
    String :=
  filepath.Clean (filepath.Join c.directory (c.renameFile IsLetterOrDigit f regex))

/-- The files of the directory whose name changes. -/
def RenameCommand.changed (c : RenameCommand) (regex : Option regexp.Regexp)
    (t : os.FileTree) : List String :=
  (t.fileNames c.directory).filter (fun f => c.renameFile IsLetterOrDigit f regex ≠ f)

end Spec

end rename

namespace extract

/-- Whether, in a record of calls, no worker calls a plugin while another worker is
between its `Initialize` and its `Cleanup` on that plugin; `held` lists the plugins
in use with the worker that uses each. -/
def exclusive : List PoolEvent → List (String × Nat) → Bool
  | [], _ => true
  | ev :: rest, held =>
    match held.lookup ev.plugin with
    | some w =>
      if w ≠ ev.worker then false
      else if ev.op = PoolOp.Cleanup then
        exclusive rest (held.filter (fun h => h.1 ≠ ev.plugin))
      else exclusive rest held
    | none =>
      if ev.op = PoolOp.Initialize then exclusive rest ((ev.plugin, ev.worker) :: held)
      else exclusive rest held

/-- The objects behind the plugin values of the examples. -/
def builtInObjects (name : String) : Option PluginObject :=
  if name = "generic" then some GenericExtractor.object else none

/-- A file system for the examples: the two files given. -/
def twoFiles (path1 content1 path2 content2 : String) : os.FileSystem where
  files := fun p => if p = path1 then some content1 else if p = path2 then some content2 else none
  dirs := fun _ => false

end extract

/-- The registry of the examples of the pool: the generic extractor registered on a
new registry. -/
def genericRegistry : extract.PluginRegistry :=
  (extract.NewPluginRegistry.Register strings.lowerASCII extract.GenericExtractor.plugin).1

/-! ## Helper definitions for the lemmas on `regexp` -/

namespace regexp

/-- The items of a concatenation, in order. -/
def spine : Re → List Re
  | .cat a b => a :: spine b
  | r => [r]

/-- The items a pattern without alternation at the top stands for, last first. -/
def itemsRev (p : String) : List Re :=
  match Compile p with
  | .ok re => (spine re.re).reverse
  | .error _ => []

/-- The characters of `QuoteMeta` of a text. -/
def quoteChars (s : List Char) : List Char :=
  s.flatMap (fun c => if special c then ['\\', c] else [c])

/-- Backtracking match of a sequence of items, one after the other. -/
def matchSeq : List Re → MState → (MState → Option MState) → Option MState
  | [], st, k => k st
  | r :: rs, st, k => matchRe r st (fun st2 => matchSeq rs st2 k)

/-- A state of a match over the text `text`: what is left to read is the text from
the position of the state on. -/
def MState.On (text : List Char) (st : MState) : Prop :=
  st.rest = text.drop st.pos ∧ st.pos ≤ text.length

/-- The white space class `\s`. -/
def spaceClass : Re := Re.cls false [(9, 10), (12, 13), (32, 32)]

/-- What follows the name in the pattern of `extractFunctionBody`. -/
def bodyTail : String := "\\s*\\([^)]*\\)(?:\\s+\\([^)]*\\))?\\s*\\\x7b[^\x7d]*\\\x7d"

end regexp

/-! # Theorems -/

open extractor extract plugins rename

/-! ## C1 -/

/-- C1, at the failing input. `Initialize` succeeds on a new Python extractor, and on
the content `class Foo:` followed by an indented `pass`, `Extract` does not return: the
`class` pattern matches, `extractClassBody` builds a pattern with the look-ahead
`(?=`, which Go's `regexp` rejects, and `regexp.MustCompile` panics. This holds
whatever the other methods of the extractor do. -/
theorem PythonExtractor_Extract_panics_on_class (ms : PythonExtractor.Methods) :
    NewPythonExtractor.Initialize.2 = none ∧
    regexp.Compile (PythonExtractor.classBodyPattern "Foo") =
      .error (regexp.Error.invalidPerlOp "(?=") ∧
    PythonExtractor.initialized.Extract ms "class Foo:\n    pass\n" =
      .error (Panic.mustCompile (PythonExtractor.classBodyPattern "Foo")) :=
  ⟨rfl, rfl, rfl⟩

/-! ## C2 -/

/-- Each block pattern of the initialized generic extractor is in its table. -/
theorem GenericExtractor.initialized_patterns :
    (∃ re, patternOf GenericExtractor.initialized.patterns "code_block" = .ok re) ∧
    (∃ re, patternOf GenericExtractor.initialized.patterns "yaml_block" = .ok re) ∧
    (∃ re, patternOf GenericExtractor.initialized.patterns "json_block" = .ok re) ∧
    (∃ re, patternOf GenericExtractor.initialized.patterns "xml_block" = .ok re) ∧
    (∃ re, patternOf GenericExtractor.initialized.patterns "ini_block" = .ok re) :=
  ⟨⟨_, rfl⟩, ⟨_, rfl⟩, ⟨_, rfl⟩, ⟨_, rfl⟩, ⟨_, rfl⟩⟩

/-- What `Extract` returns when no block pattern matches: the whole content as one
block if the content has a character that is not white space, and no block
otherwise. -/
theorem GenericExtractor.Extract_of_noMatch (content : String)
    (hno : GenericExtractor.initialized.noMatch content = true) :
    GenericExtractor.initialized.Extract content =
      if strings.TrimSpace content ≠ "" then
        .ok [{ Content := content, BlockType := "text", Package := "",
               Filename := (GenericExtractor.determineFileType content).1,
               Language := (GenericExtractor.determineFileType content).2 }]
      else .ok [] := by
  obtain ⟨⟨r1, h1⟩, ⟨r2, h2⟩, ⟨r3, h3⟩, ⟨r4, h4⟩, ⟨r5, h5⟩⟩ :=
    GenericExtractor.initialized_patterns
  simp only [GenericExtractor.noMatch, GenericExtractor.blockPatterns, List.all_cons,
    List.all_nil, h1, h2, h3, h4, h5, Bool.and_true, Bool.and_eq_true,
    List.isEmpty_iff] at hno
  obtain ⟨e1, e2, e3, e4, e5⟩ := hno
  simp only [GenericExtractor.Extract, h1, h2, h3, h4, h5, e1, e2, e3, e4, e5, bind,
    Except.bind, List.filterMap_nil, List.append_nil, List.length_nil, true_and,
    List.nil_append, pure, Except.pure]

/-- C2 as stated fails: on the content of one space and a line break no block pattern
of the initialized generic extractor matches, and `Extract` returns no block at all
(the fallback is taken only when `strings.TrimSpace(content) != ""`). -/
theorem GenericExtractor_Extract_blank_no_block :
    GenericExtractor.initialized.noMatch " \n" = true ∧
    GenericExtractor.initialized.Extract " \n" = .ok [] :=
  ⟨rfl, rfl⟩

/-- C2, amended. For every content on which none of the block patterns (code_block,
yaml_block, json_block, xml_block, ini_block) finds a match and which has a character
that is not white space, `Extract` of the initialized generic extractor returns
exactly one block, and the Content of that block is the input content. -/
theorem GenericExtractor_Extract_fallback (content : String)
    (hno : GenericExtractor.initialized.noMatch content = true)
    (hne : strings.TrimSpace content ≠ "") :
    ∃ b, GenericExtractor.initialized.Extract content = .ok [b] ∧ b.Content = content := by
  rw [GenericExtractor.Extract_of_noMatch content hno, if_pos hne]
  exact ⟨_, rfl, rfl⟩

/-- The amended C2 at the content `hello world`. -/
theorem GenericExtractor_Extract_fallback_witness :
    ∃ b, GenericExtractor.initialized.Extract "hello world" = .ok [b] ∧
      b.Content = "hello world" :=
  GenericExtractor_Extract_fallback "hello world" rfl (by decide)

/-! ## C3 -/

/-- C3, at the failing input. On a fenced block with nothing between the fences (the
language line `go`, then the closing fence), the second group of `code_block`
matches the empty string and `Extract` of the initialized generic extractor returns
a block whose Content is empty. -/
theorem GenericExtractor_Extract_empty_fenced_block :
    NewGenericExtractor.Initialize.2 = none ∧
    GenericExtractor.initialized.Extract "```go\n```" =
      .ok [{ Content := "", BlockType := "code_block", Package := "",
             Filename := "code.go", Language := "go" }] :=
  ⟨rfl, rfl⟩

/-! ## Lemmas on the tables of `cmd/extract/registry.go` -/

section ExtractRegistry

variable (ToLower : String → String)

/-- An entry that already holds the plugin keeps it through the extension loop. -/
theorem registerExtensions_keeps (p : ExtractorPlugin) (exts : List String)
    (m : String → Option ExtractorPlugin) (k : String) (h : m k = some p) :
    registerExtensions ToLower p exts m k = some p := by
  induction exts generalizing m with
  | nil => exact h
  | cons ext rest ih =>
    apply ih
    unfold mapSet
    split
    · rfl
    · exact h

/-- After the extension loop every extension of the list maps to the plugin. -/
theorem registerExtensions_of_mem (p : ExtractorPlugin) (exts : List String)
    (m : String → Option ExtractorPlugin) (x : String) (hx : x ∈ exts) :
    registerExtensions ToLower p exts m (ToLower x) = some p := by
  induction exts generalizing m with
  | nil => cases hx
  | cons ext rest ih =>
    rcases List.mem_cons.mp hx with h | h
    · subst h
      show registerExtensions ToLower p rest (mapSet m (ToLower x) p) (ToLower x) = some p
      apply registerExtensions_keeps
      simp [mapSet]
    · exact ih _ h

/-- The extension loop leaves alone a key that no extension of the list lowers to. -/
theorem registerExtensions_of_not_mem (q : ExtractorPlugin) (exts : List String)
    (m : String → Option ExtractorPlugin) (k : String)
    (h : ∀ y ∈ exts, ToLower y ≠ k) :
    registerExtensions ToLower q exts m k = m k := by
  induction exts generalizing m with
  | nil => rfl
  | cons ext rest ih =>
    have h1 : ToLower ext ≠ k := h ext (List.mem_cons_self _ _)
    have h2 : ∀ y ∈ rest, ToLower y ≠ k := fun y hy => h y (List.mem_cons_of_mem _ hy)
    show registerExtensions ToLower q rest (mapSet m (ToLower ext) q) k = m k
    rw [ih _ h2]
    simp [mapSet, Ne.symm h1]

/-- Later registrations that claim no extension lowering to `k` leave the entry of
`k` in the extension table alone. -/
theorem registerAll_extensionMap (r : PluginRegistry) (qs : List ExtractorPlugin)
    (k : String) (h : ∀ q ∈ qs, ∀ y ∈ q.Extensions, ToLower y ≠ k) :
    (registerAll ToLower r qs).extensionMap k = r.extensionMap k := by
  induction qs generalizing r with
  | nil => rfl
  | cons q rest ih =>
    show (registerAll ToLower (r.Register ToLower q).1 rest).extensionMap k = _
    rw [ih _ (fun q2 hq2 => h q2 (List.mem_cons_of_mem _ hq2))]
    exact registerExtensions_of_not_mem ToLower q q.Extensions r.extensionMap k
      (h q (List.mem_cons_self _ _))

/-- A key of the language table stays a key through later registrations. -/
theorem registerAll_languageMap_isSome (r : PluginRegistry) (qs : List ExtractorPlugin)
    (k : String) (h : (r.languageMap k).isSome) :
    ((registerAll ToLower r qs).languageMap k).isSome := by
  induction qs generalizing r with
  | nil => exact h
  | cons q rest ih =>
    apply ih
    show (mapSet r.languageMap (ToLower q.Name) q k).isSome
    unfold mapSet
    split
    · rfl
    · exact h

/-- Later registrations under names that do not lower to `k` leave the entry of `k`
in the language table alone. -/
theorem registerAll_languageMap (r : PluginRegistry) (qs : List ExtractorPlugin)
    (k : String) (h : ∀ q ∈ qs, ToLower q.Name ≠ k) :
    (registerAll ToLower r qs).languageMap k = r.languageMap k := by
  induction qs generalizing r with
  | nil => rfl
  | cons q rest ih =>
    show (registerAll ToLower (r.Register ToLower q).1 rest).languageMap k = _
    rw [ih _ (fun q2 hq2 => h q2 (List.mem_cons_of_mem _ hq2))]
    show mapSet r.languageMap (ToLower q.Name) q k = r.languageMap k
    simp [mapSet, Ne.symm (h q (List.mem_cons_self _ _))]

/-- After `Register(Y)`, and later registrations under names with another
lower-casing, the lookup by language of the name of Y returns Y. -/
theorem GetExtractorByLanguage_after_Register (r : PluginRegistry) (Y : ExtractorPlugin)
    (qs : List ExtractorPlugin) (h : ∀ q ∈ qs, ToLower q.Name ≠ ToLower Y.Name) :
    (registerAll ToLower (r.Register ToLower Y).1 qs).GetExtractorByLanguage ToLower Y.Name =
      some Y := by
  unfold PluginRegistry.GetExtractorByLanguage
  rw [registerAll_languageMap ToLower _ qs _ h]
  simp [PluginRegistry.Register, mapSet]

end ExtractRegistry

/-! ## C4 -/

/-- C4. Take any registry in which X is the plugin of the extension of the file and Y
is the plugin found under the language name of Y, any command whose language
override is set to the name of Y, and any readable file on which Y initializes and
extracts. Then `processSingleFile` returns a result whose ExtractorName is the name of
Y (so not the name of X, when the two differ): the override is looked up first and
the extension table is not consulted. -/
theorem processSingleFile_override_selects (ToLower : String → String) (c : ExtractCommand)
    (faults : os.Faults) (fs : os.FileSystem) (path content : String)
    (registry : PluginRegistry) (X Y : ExtractorPlugin) (blocks : List CodeBlock)
    (_hX : registry.GetExtractorByExtension ToLower (ToLower (filepath.Ext path)) = some X)
    (hY : registry.GetExtractorByLanguage ToLower Y.Name = some Y)
    (hlang : c.language = Y.Name) (hset : c.language ≠ "")
    (hread : fs.files path = some content)
    (hinit : Y.Initialize = none) (hext : Y.Extract content = .ok blocks) :
    ∃ res fs2, c.processSingleFile ToLower faults fs path registry = .ok (.ok res, fs2) ∧
      res.ExtractorName = Y.Name ∧ res.CodeBlocks = blocks ∧
      (X.Name ≠ Y.Name → res.ExtractorName ≠ X.Name) := by
  rw [← hlang] at hY
  simp only [ExtractCommand.processSingleFile, os.ReadFile, hread, hset, ne_eq,
    not_false_eq_true, if_true, hY, hinit, hext]
  exact ⟨_, _, rfl, rfl, rfl, fun h => Ne.symm h⟩

/-- C4 at a concrete input: the plugin `python` claims `.py`, the plugin `generic` is
registered too, the file is `a.py` and the override is `generic`. -/
theorem processSingleFile_override_selects_witness :
    ∃ res fs2,
      ({ language := "generic", dryRun := true } : ExtractCommand).processSingleFile
        strings.lowerASCII noFaults (exampleFS "a.py" "x = 1") "a.py"
        (registerAll strings.lowerASCII NewPluginRegistry
          [examplePlugin "python" [".py"] none, examplePlugin "generic" [".txt"] none]) =
        .ok (.ok res, fs2) ∧
      res.ExtractorName = (examplePlugin "generic" [".txt"] none).Name ∧
      res.CodeBlocks = [{ Content := "x = 1", BlockType := "text",
                          Filename := "generic.txt", Language := "generic" }] ∧
      ((examplePlugin "python" [".py"] none).Name ≠ (examplePlugin "generic" [".txt"] none).Name →
        res.ExtractorName ≠ (examplePlugin "python" [".py"] none).Name) :=
  processSingleFile_override_selects strings.lowerASCII _ noFaults _ "a.py" "x = 1" _
    (examplePlugin "python" [".py"] none) (examplePlugin "generic" [".txt"] none) _
    rfl rfl rfl (by decide) rfl rfl rfl

/-! ## C5 -/

/-- C5 as stated fails: the plugin `python` claims `.py` and `generic` is registered;
for the file `a.py` with the language override `cobol`, which names no plugin,
`processSingleFile` selects `generic`, not the plugin of the extension. -/
theorem processSingleFile_unknown_override_skips_extension :
    (registerAll strings.lowerASCII NewPluginRegistry
        [examplePlugin "python" [".py"] none, GenericExtractor.plugin]).GetExtractorByExtension
      strings.lowerASCII (strings.lowerASCII (filepath.Ext "a.py")) =
      some (examplePlugin "python" [".py"] none) ∧
    (registerAll strings.lowerASCII NewPluginRegistry
        [examplePlugin "python" [".py"] none, GenericExtractor.plugin]).GetExtractorByLanguage
      strings.lowerASCII "cobol" = none ∧
    ∃ res fs2,
      ({ language := "cobol", dryRun := true } : ExtractCommand).processSingleFile
        strings.lowerASCII noFaults (exampleFS "a.py" "x = 1") "a.py"
        (registerAll strings.lowerASCII NewPluginRegistry
          [examplePlugin "python" [".py"] none, GenericExtractor.plugin]) =
        .ok (.ok res, fs2) ∧
      res.ExtractorName = "generic" :=
  ⟨rfl, rfl, _, _, rfl, rfl⟩

/-- C5, amended. When the language override is set but names no registered plugin,
the extension table is not consulted, whatever plugin X it holds for the extension
of the file: for a readable file, `processSingleFile` fails with the error `no
suitable extractor found` if no plugin is registered under the language `generic`,
and otherwise selects that plugin G (the ExtractorName of the result is the name of
G, once G initializes and extracts). -/
theorem processSingleFile_unknown_override (ToLower : String → String) (c : ExtractCommand)
    (faults : os.Faults) (fs : os.FileSystem) (path content : String)
    (registry : PluginRegistry) (X : ExtractorPlugin)
    (_hX : registry.GetExtractorByExtension ToLower (ToLower (filepath.Ext path)) = some X)
    (hset : c.language ≠ "")
    (hnone : registry.GetExtractorByLanguage ToLower c.language = none)
    (hread : fs.files path = some content) :
    (registry.GetExtractorByLanguage ToLower "generic" = none →
      c.processSingleFile ToLower faults fs path registry =
        .ok (.error (ProcessError.noExtractor path), fs)) ∧
    (∀ G blocks, registry.GetExtractorByLanguage ToLower "generic" = some G →
      G.Initialize = none → G.Extract content = .ok blocks →
      ∃ res fs2, c.processSingleFile ToLower faults fs path registry = .ok (.ok res, fs2) ∧
        res.ExtractorName = G.Name ∧ res.CodeBlocks = blocks) := by
  constructor
  · intro hg
    simp only [ExtractCommand.processSingleFile, os.ReadFile, hread, hset, ne_eq,
      not_false_eq_true, if_true, hnone, hg]
  · intro G blocks hg hinit hext
    simp only [ExtractCommand.processSingleFile, os.ReadFile, hread, hset, ne_eq,
      not_false_eq_true, if_true, hnone, hg, hinit, hext]
    exact ⟨_, _, rfl, rfl, rfl⟩

/-- The amended C5 at a concrete input: `python` claims `.py`, the file is `a.py` and
the override is `cobol`. -/
theorem processSingleFile_unknown_override_witness :
    ((registerAll strings.lowerASCII NewPluginRegistry
        [examplePlugin "python" [".py"] none]).GetExtractorByLanguage
        strings.lowerASCII "generic" = none →
      ({ language := "cobol" } : ExtractCommand).processSingleFile strings.lowerASCII
        noFaults (exampleFS "a.py" "x = 1") "a.py"
        (registerAll strings.lowerASCII NewPluginRegistry
          [examplePlugin "python" [".py"] none]) =
        .ok (.error (ProcessError.noExtractor "a.py"), exampleFS "a.py" "x = 1")) ∧
    (∀ G blocks,
      (registerAll strings.lowerASCII NewPluginRegistry
        [examplePlugin "python" [".py"] none]).GetExtractorByLanguage
        strings.lowerASCII "generic" = some G →
      G.Initialize = none → G.Extract "x = 1" = .ok blocks →
      ∃ res fs2,
        ({ language := "cobol" } : ExtractCommand).processSingleFile strings.lowerASCII
          noFaults (exampleFS "a.py" "x = 1") "a.py"
          (registerAll strings.lowerASCII NewPluginRegistry
            [examplePlugin "python" [".py"] none]) = .ok (.ok res, fs2) ∧
        res.ExtractorName = G.Name ∧ res.CodeBlocks = blocks) :=
  processSingleFile_unknown_override strings.lowerASCII _ noFaults _ "a.py" "x = 1" _
    (examplePlugin "python" [".py"] none) rfl (by decide) rfl rfl

/-! ## C6 -/

/-- C6. After `Register(p)` on any registry, and after any later registrations that
claim no extension with the same lower-casing, `GetExtractorByExtension(e)` returns
p for every string e whose lower-casing is the lower-casing of an extension x of
p. -/
theorem GetExtractorByExtension_after_Register (ToLower : String → String)
    (r : PluginRegistry) (p : ExtractorPlugin) (qs : List ExtractorPlugin) (x e : String)
    (hx : x ∈ p.Extensions) (he : ToLower e = ToLower x)
    (hlater : ∀ q ∈ qs, ∀ y ∈ q.Extensions, ToLower y ≠ ToLower x) :
    (registerAll ToLower (r.Register ToLower p).1 qs).GetExtractorByExtension ToLower e =
      some p := by
  unfold PluginRegistry.GetExtractorByExtension
  rw [he, registerAll_extensionMap ToLower _ qs (ToLower x) hlater]
  exact registerExtensions_of_mem ToLower p p.Extensions r.extensionMap x hx

/-- C6 at a concrete input: `python` claims `.py` and `.pyw`, `generic` is registered
after it, and the extension looked up is `.PY`. -/
theorem GetExtractorByExtension_after_Register_witness :
    (registerAll strings.lowerASCII
        (NewPluginRegistry.Register strings.lowerASCII
          (examplePlugin "python" [".py", ".pyw"] none)).1
        [examplePlugin "generic" [".txt"] none]).GetExtractorByExtension
      strings.lowerASCII ".PY" = some (examplePlugin "python" [".py", ".pyw"] none) :=
  GetExtractorByExtension_after_Register strings.lowerASCII NewPluginRegistry
    (examplePlugin "python" [".py", ".pyw"] none) [examplePlugin "generic" [".txt"] none]
    ".py" ".PY" (by decide) (by decide) (by decide)

/-! ## C7 -/

/-- C7. For a readable file, `processSingleFile` fails with the error `no suitable
extractor found` exactly when the primary lookup (by the language override when it
is set, otherwise by the lower-cased extension) finds no plugin and no plugin is
registered under the language `generic`. So it fails this way on the empty registry,
and never in a registry in which a plugin named `generic` has been registered,
whatever was registered before or after it. -/
theorem processSingleFile_noExtractor_iff (ToLower : String → String) (c : ExtractCommand)
    (faults : os.Faults) (fs : os.FileSystem) (path content : String)
    (hread : fs.files path = some content) :
    (∀ registry : PluginRegistry,
      (∃ p fs2, c.processSingleFile ToLower faults fs path registry =
          .ok (.error (ProcessError.noExtractor p), fs2)) ↔
        ((if c.language ≠ "" then registry.GetExtractorByLanguage ToLower c.language
          else registry.GetExtractorByExtension ToLower (ToLower (filepath.Ext path))) = none ∧
         registry.GetExtractorByLanguage ToLower "generic" = none)) ∧
    c.processSingleFile ToLower faults fs path NewPluginRegistry =
      .ok (.error (ProcessError.noExtractor path), fs) ∧
    (∀ (r0 : PluginRegistry) (g : ExtractorPlugin) (qs : List ExtractorPlugin),
      g.Name = "generic" →
      ¬ ∃ p fs2, c.processSingleFile ToLower faults fs path
          (registerAll ToLower (r0.Register ToLower g).1 qs) =
        .ok (.error (ProcessError.noExtractor p), fs2)) := by
  have key : ∀ registry : PluginRegistry,
      (∃ p fs2, c.processSingleFile ToLower faults fs path registry =
          .ok (.error (ProcessError.noExtractor p), fs2)) ↔
        ((if c.language ≠ "" then registry.GetExtractorByLanguage ToLower c.language
          else registry.GetExtractorByExtension ToLower (ToLower (filepath.Ext path))) = none ∧
         registry.GetExtractorByLanguage ToLower "generic" = none) := by
    intro registry
    simp only [ExtractCommand.processSingleFile, os.ReadFile, hread]
    generalize (if c.language ≠ "" then registry.GetExtractorByLanguage ToLower c.language
      else registry.GetExtractorByExtension ToLower (ToLower (filepath.Ext path))) = found
    cases found with
    | none =>
      cases hg : registry.GetExtractorByLanguage ToLower "generic" with
      | none => simp
      | some G =>
        cases hi : G.Initialize with
        | some err => simp [hi]
        | none => cases hx : G.Extract content <;> simp [hi, hx]
    | some E =>
      cases hi : E.Initialize with
      | some err => simp [hi]
      | none => cases hx : E.Extract content <;> simp [hi, hx]
  refine ⟨key, ?_, ?_⟩
  · simp only [ExtractCommand.processSingleFile, os.ReadFile, hread,
      PluginRegistry.GetExtractorByLanguage, PluginRegistry.GetExtractorByExtension,
      NewPluginRegistry, ite_self]
  · intro r0 g qs hname hfail
    have h := ((key _).mp hfail).2
    have hsome := registerAll_languageMap_isSome ToLower (r0.Register ToLower g).1 qs
      (ToLower "generic") (by simp [PluginRegistry.Register, mapSet, hname])
    unfold PluginRegistry.GetExtractorByLanguage at h
    rw [h] at hsome
    exact absurd hsome (by simp)

/-- C7 at a concrete input: the readable file `a.py` with no language override. -/
theorem processSingleFile_noExtractor_iff_witness :
    (∀ registry : PluginRegistry,
      (∃ p fs2, ({} : ExtractCommand).processSingleFile strings.lowerASCII noFaults
          (exampleFS "a.py" "x = 1") "a.py" registry =
          .ok (.error (ProcessError.noExtractor p), fs2)) ↔
        ((if ({} : ExtractCommand).language ≠ "" then
            registry.GetExtractorByLanguage strings.lowerASCII ({} : ExtractCommand).language
          else registry.GetExtractorByExtension strings.lowerASCII
            (strings.lowerASCII (filepath.Ext "a.py"))) = none ∧
         registry.GetExtractorByLanguage strings.lowerASCII "generic" = none)) ∧
    ({} : ExtractCommand).processSingleFile strings.lowerASCII noFaults
        (exampleFS "a.py" "x = 1") "a.py" NewPluginRegistry =
      .ok (.error (ProcessError.noExtractor "a.py"), exampleFS "a.py" "x = 1") ∧
    (∀ (r0 : PluginRegistry) (g : ExtractorPlugin) (qs : List ExtractorPlugin),
      g.Name = "generic" →
      ¬ ∃ p fs2, ({} : ExtractCommand).processSingleFile strings.lowerASCII noFaults
          (exampleFS "a.py" "x = 1") "a.py"
          (registerAll strings.lowerASCII (r0.Register strings.lowerASCII g).1 qs) =
        .ok (.error (ProcessError.noExtractor p), fs2)) :=
  processSingleFile_noExtractor_iff strings.lowerASCII {} noFaults
    (exampleFS "a.py" "x = 1") "a.py" "x = 1" rfl

/-! ## C8 -/

/-- C8. In the registry of `cmd/main`, for every registry state and every plugin p
whose name is already a key of the plugins table, `Register(p)` returns the error
`plugin '<name>' already registered`, leaves the registry (the plugins table and the
extension table) exactly as it was, and does not call `Initialize` on p. -/
theorem main_Register_duplicate_name (ToLower : String → String) (r : main.PluginRegistry)
    (p : ExtractorPlugin) (h : (r.plugins p.Name).isSome) :
    (r.Register ToLower p).err = some ("plugin '" ++ p.Name ++ "' already registered") ∧
    (r.Register ToLower p).registry = r ∧
    (r.Register ToLower p).registry.plugins = r.plugins ∧
    (r.Register ToLower p).registry.extToPlugin = r.extToPlugin ∧
    (r.Register ToLower p).initCalls = [] := by
  simp [main.PluginRegistry.Register, h]

/-- C8 at a concrete input: a second plugin named `go` on a registry that holds a
plugin named `go`. -/
theorem main_Register_duplicate_name_witness :
    (((main.NewPluginRegistry.Register strings.lowerASCII
        (examplePlugin "go" [".go"] none)).registry).Register strings.lowerASCII
        (examplePlugin "go" [".golang"] none)).err =
      some ("plugin '" ++ (examplePlugin "go" [".golang"] none).Name ++
        "' already registered") ∧
    (((main.NewPluginRegistry.Register strings.lowerASCII
        (examplePlugin "go" [".go"] none)).registry).Register strings.lowerASCII
        (examplePlugin "go" [".golang"] none)).registry =
      (main.NewPluginRegistry.Register strings.lowerASCII
        (examplePlugin "go" [".go"] none)).registry ∧
    (((main.NewPluginRegistry.Register strings.lowerASCII
        (examplePlugin "go" [".go"] none)).registry).Register strings.lowerASCII
        (examplePlugin "go" [".golang"] none)).registry.plugins =
      (main.NewPluginRegistry.Register strings.lowerASCII
        (examplePlugin "go" [".go"] none)).registry.plugins ∧
    (((main.NewPluginRegistry.Register strings.lowerASCII
        (examplePlugin "go" [".go"] none)).registry).Register strings.lowerASCII
        (examplePlugin "go" [".golang"] none)).registry.extToPlugin =
      (main.NewPluginRegistry.Register strings.lowerASCII
        (examplePlugin "go" [".go"] none)).registry.extToPlugin ∧
    (((main.NewPluginRegistry.Register strings.lowerASCII
        (examplePlugin "go" [".go"] none)).registry).Register strings.lowerASCII
        (examplePlugin "go" [".golang"] none)).initCalls = [] :=
  main_Register_duplicate_name strings.lowerASCII
    (main.NewPluginRegistry.Register strings.lowerASCII
      (examplePlugin "go" [".go"] none)).registry
    (examplePlugin "go" [".golang"] none) rfl

/-! ## C9 -/

/-- Every plugin in the plugins table of a reachable registry of `cmd/main` is one
whose `Initialize` returned nil. -/
theorem main_reachable_plugins_initialized (ToLower : String → String)
    (r : main.PluginRegistry) (hr : main.Reachable ToLower r) :
    ∀ name q, r.plugins name = some q → q.Initialize = none := by
  induction hr with
  | new => intro name q h; cases h
  | register r p _ ih =>
    intro name q h
    by_cases hdup : (r.plugins p.Name).isSome = true
    · simp only [main.PluginRegistry.Register, hdup, if_true] at h
      exact ih name q h
    · cases hinit : p.Initialize with
      | some err =>
        simp only [main.PluginRegistry.Register, hdup, hinit, if_false, Bool.false_eq_true] at h
        exact ih name q h
      | none =>
        simp only [main.PluginRegistry.Register, hdup, hinit, mapSet, if_false, Bool.false_eq_true] at h
        split at h
        · cases h; exact hinit
        · exact ih name q h
  | unregister r n _ ih =>
    intro name q h
    cases hn : r.plugins n with
    | none =>
      simp only [main.PluginRegistry.Unregister, hn] at h
      exact ih name q h
    | some pl =>
      simp only [main.PluginRegistry.Unregister, hn, mapDelete] at h
      split at h
      · cases h
      · exact ih name q h
  | cleanup r _ _ => intro name q h; cases h

/-- C9. In the registry of `cmd/main`, for every plugin p whose `Initialize` returns an
error, `Register(p)` returns an error whose message contains the name of p and leaves
the registry as it was; on a reachable registry, p is afterwards the value of no key
of the plugins table and the plugin of no extension. -/
theorem main_Register_failed_initialize (ToLower : String → String)
    (r : main.PluginRegistry) (p : ExtractorPlugin) (err : String)
    (hr : main.Reachable ToLower r) (hinit : p.Initialize = some err) :
    (∃ pre post, (r.Register ToLower p).err = some (pre ++ p.Name ++ post)) ∧
    (r.Register ToLower p).registry = r ∧
    (∀ name, (r.Register ToLower p).registry.plugins name ≠ some p) ∧
    (∀ ext, (r.Register ToLower p).registry.GetPluginByExtension ToLower ext ≠ some p) := by
  have hsame : (r.Register ToLower p).registry = r := by
    by_cases hdup : (r.plugins p.Name).isSome = true
    · simp only [main.PluginRegistry.Register, hdup, if_true]
    · simp only [main.PluginRegistry.Register, hdup, hinit, if_false, Bool.false_eq_true]
  have hnot : ∀ name, r.plugins name ≠ some p := by
    intro name h
    have := main_reachable_plugins_initialized ToLower r hr name p h
    rw [hinit] at this
    cases this
  refine ⟨?_, hsame, ?_, ?_⟩
  · by_cases hdup : (r.plugins p.Name).isSome = true
    · exact ⟨"plugin '", "' already registered", by
        simp only [main.PluginRegistry.Register, hdup, if_true]⟩
    · exact ⟨"failed to initialize plugin '", "': " ++ err, by
        simp only [main.PluginRegistry.Register, hdup, hinit, String.append_assoc, if_false,
          Bool.false_eq_true]⟩
  · rw [hsame]; exact hnot
  · intro ext
    rw [hsame]
    unfold main.PluginRegistry.GetPluginByExtension main.PluginRegistry.GetPlugin
    split
    · simp
    · exact hnot _

/-- C9 at a concrete input: a plugin named `bad` whose `Initialize` fails, on a new
registry. -/
theorem main_Register_failed_initialize_witness :
    (∃ pre post,
      (main.NewPluginRegistry.Register strings.lowerASCII
        (examplePlugin "bad" [".bad"] (some "boom"))).err =
        some (pre ++ (examplePlugin "bad" [".bad"] (some "boom")).Name ++ post)) ∧
    (main.NewPluginRegistry.Register strings.lowerASCII
      (examplePlugin "bad" [".bad"] (some "boom"))).registry = main.NewPluginRegistry ∧
    (∀ name,
      (main.NewPluginRegistry.Register strings.lowerASCII
        (examplePlugin "bad" [".bad"] (some "boom"))).registry.plugins name ≠
        some (examplePlugin "bad" [".bad"] (some "boom"))) ∧
    (∀ ext,
      (main.NewPluginRegistry.Register strings.lowerASCII
        (examplePlugin "bad" [".bad"] (some "boom"))).registry.GetPluginByExtension
        strings.lowerASCII ext ≠ some (examplePlugin "bad" [".bad"] (some "boom"))) :=
  main_Register_failed_initialize strings.lowerASCII main.NewPluginRegistry
    (examplePlugin "bad" [".bad"] (some "boom")) "boom" (main.Reachable.new) rfl

/-! ## C10 -/

/-- C10, at the failing input. In the registry of `cmd/extract`, after `Register` of a
plugin named `dup` that claims `.a`, `Register` of another plugin named `dup` that
claims `.a` and `.b` returns no error, and the lookups by name, by language and by
extension all return the second plugin: the first one is overwritten. -/
theorem extract_Register_overwrites_duplicate :
    examplePlugin "dup" [".a"] none ≠ examplePlugin "dup" [".a", ".b"] none ∧
    (((NewPluginRegistry.Register strings.lowerASCII (examplePlugin "dup" [".a"] none)).1).Register
      strings.lowerASCII (examplePlugin "dup" [".a", ".b"] none)).2 = none ∧
    ((((NewPluginRegistry.Register strings.lowerASCII (examplePlugin "dup" [".a"] none)).1).Register
      strings.lowerASCII (examplePlugin "dup" [".a", ".b"] none)).1).GetExtractorByName
        strings.lowerASCII "dup" = some (examplePlugin "dup" [".a", ".b"] none) ∧
    ((((NewPluginRegistry.Register strings.lowerASCII (examplePlugin "dup" [".a"] none)).1).Register
      strings.lowerASCII (examplePlugin "dup" [".a", ".b"] none)).1).GetExtractorByLanguage
        strings.lowerASCII "dup" = some (examplePlugin "dup" [".a", ".b"] none) ∧
    ((((NewPluginRegistry.Register strings.lowerASCII (examplePlugin "dup" [".a"] none)).1).Register
      strings.lowerASCII (examplePlugin "dup" [".a", ".b"] none)).1).GetExtractorByExtension
        strings.lowerASCII ".a" = some (examplePlugin "dup" [".a", ".b"] none) :=
  ⟨fun h => absurd (congrArg ExtractorPlugin.Extensions h) (by decide), rfl, rfl, rfl, rfl⟩

/-! ## Lemmas on `mergeSlices` -/

/-- The elements the loop of `mergeSlices` adds to the result: those of `items` that
are not in `seen`, each once, in order. -/
theorem appendUnseen_result (items seen result : List String) :
    (main.appendUnseen items (seen, result)).2 =
      result ++ (main.dropRepeats items).filter (fun y => y ∉ seen) := by
  induction items generalizing seen result with
  | nil => simp [main.appendUnseen, main.dropRepeats]
  | cons x xs ih =>
    by_cases hx : x ∈ seen
    · simp only [main.appendUnseen, hx, if_true, ih, main.dropRepeats]
      congr 1
      simp only [List.filter_cons, hx, not_true_eq_false, decide_False, List.filter_filter]
      simp only [Bool.false_eq_true, if_false]
      apply List.filter_congr
      intro y _
      by_cases hy : y ∈ seen
      · simp [hy]
      · have : y ≠ x := fun h => hy (h ▸ hx)
        simp [hy, this]
    · simp only [main.appendUnseen, hx, if_false, ih, main.dropRepeats]
      simp only [List.filter_cons, hx, not_false_eq_true, decide_True, if_true,
        List.filter_filter, List.append_assoc, List.singleton_append]
      congr 2
      apply List.filter_congr
      intro y _
      by_cases hy : y = x <;> simp [hy, hx]

/-- The keys of `seen` after the loop of `mergeSlices`: the earlier ones and the
items. -/
theorem appendUnseen_seen (items seen result : List String) (y : String) :
    y ∈ (main.appendUnseen items (seen, result)).1 ↔ y ∈ seen ∨ y ∈ items := by
  induction items generalizing seen result with
  | nil => simp [main.appendUnseen]
  | cons x xs ih =>
    by_cases hx : x ∈ seen
    · simp only [main.appendUnseen, hx, if_true, ih, List.mem_cons]
      constructor
      · rintro (h | h)
        · exact Or.inl h
        · exact Or.inr (Or.inr h)
      · rintro (h | h | h)
        · exact Or.inl h
        · exact Or.inl (h ▸ hx)
        · exact Or.inr h
    · simp only [main.appendUnseen, hx, if_false, ih, List.mem_cons]
      tauto

/-- Membership in `dropRepeats`. -/
theorem mem_dropRepeats (l : List String) (y : String) : y ∈ main.dropRepeats l ↔ y ∈ l := by
  induction l with
  | nil => simp [main.dropRepeats]
  | cons x xs ih =>
    simp only [main.dropRepeats, List.mem_cons, List.mem_filter, ih, decide_eq_true_eq]
    by_cases h : y = x <;> simp [h]

/-- No element occurs twice in `dropRepeats`. -/
theorem nodup_dropRepeats (l : List String) : (main.dropRepeats l).Nodup := by
  induction l with
  | nil => simp [main.dropRepeats]
  | cons x xs ih =>
    simp only [main.dropRepeats, List.nodup_cons, List.mem_filter, decide_eq_true_eq]
    exact ⟨fun h => h.2 rfl, ih.filter _⟩

/-- A list without repeated elements is its own `dropRepeats`. -/
theorem dropRepeats_of_nodup (l : List String) (h : l.Nodup) : main.dropRepeats l = l := by
  induction l with
  | nil => rfl
  | cons x xs ih =>
    have hx := (List.nodup_cons.mp h)
    simp only [main.dropRepeats, ih hx.2]
    congr 1
    apply List.filter_eq_self.mpr
    intro y hy
    simp only [decide_eq_true_eq]
    exact fun e => hx.1 (e ▸ hy)

/-- The function `dropRepeats` on two lists put end to end. -/
theorem dropRepeats_append (a b : List String) :
    main.dropRepeats (a ++ b) =
      main.dropRepeats a ++ (main.dropRepeats b).filter (fun y => y ∉ a) := by
  induction a with
  | nil => simp [main.dropRepeats]
  | cons x xs ih =>
    show main.dropRepeats (x :: (xs ++ b)) = _
    simp only [main.dropRepeats]
    rw [ih, List.filter_append, List.filter_filter, List.cons_append]
    congr 2
    apply List.filter_congr
    intro y _
    by_cases hy : y = x <;> simp [hy]

/-- What `mergeSlices` computes. -/
theorem mergeSlices_eq (s1 s2 : List String) :
    main.mergeSlices s1 s2 = main.dropRepeats (s1 ++ s2) := by
  have h1 : main.appendUnseen s1 ([], []) =
      ((main.appendUnseen s1 ([], [])).1, main.dropRepeats s1) := by
    have := appendUnseen_result s1 [] []
    simp at this
    exact Prod.ext rfl this
  unfold main.mergeSlices
  rw [h1, appendUnseen_result, dropRepeats_append]
  congr 1
  apply List.filter_congr
  intro y _
  have := appendUnseen_seen s1 [] [] y
  simp only [List.not_mem_nil, false_or] at this
  simp [this]

/-- Merging into a list that has no repeats adds the new elements of the second. -/
theorem dropRepeats_dropRepeats_append (a b : List String) :
    main.dropRepeats (main.dropRepeats a ++ b) = main.dropRepeats (a ++ b) := by
  rw [dropRepeats_append, dropRepeats_append, dropRepeats_of_nodup _ (nodup_dropRepeats a)]
  congr 1
  apply List.filter_congr
  intro y _
  simp [mem_dropRepeats]

/-! ## Lemmas on the groups of `MergeBlocks` -/

/-- The step of the first loop of `MergeBlocks`. -/
theorem groupBlocks_step (gs : main.Groups) (blocks : List CodeBlock) (k : String) :
    (blocks.foldl (fun gs block => gs.add (block.Filename ++ "|" ++ block.Language) block)
        gs).get k =
      gs.get k ++ blocks.filter (fun b => main.mergeKey b = k) := by
  induction blocks generalizing gs with
  | nil => simp
  | cons b rest ih =>
    rw [List.foldl_cons, ih]
    simp only [main.Groups.add, List.filter_cons, main.mergeKey]
    by_cases h : k = b.Filename ++ "|" ++ b.Language
    · subst h; simp
    · have h2 : ¬ (b.Filename ++ "|" ++ b.Language = k) := fun e => h e.symm
      simp [h, h2]

/-- The group of a key after the first loop of `MergeBlocks`: the blocks of the
input with that key, in the order of the input. -/
theorem groupBlocks_get (blocks : List CodeBlock) (k : String) :
    (main.groupBlocks blocks).get k = blocks.filter (fun b => main.mergeKey b = k) := by
  unfold main.groupBlocks
  rw [groupBlocks_step]
  rfl

/-- The keys of the map after the first loop of `MergeBlocks`, from any map. -/
theorem groupBlocks_keys_step (gs : main.Groups) (blocks : List CodeBlock) (k : String) :
    k ∈ (blocks.foldl (fun gs block => gs.add (block.Filename ++ "|" ++ block.Language) block)
        gs).keys ↔ k ∈ gs.keys ∨ ∃ b ∈ blocks, main.mergeKey b = k := by
  induction blocks generalizing gs with
  | nil => simp
  | cons b rest ih =>
    rw [List.foldl_cons, ih]
    simp only [main.Groups.add, List.mem_cons, exists_eq_or_imp, main.mergeKey]
    by_cases h : b.Filename ++ "|" ++ b.Language ∈ gs.keys
    · simp only [h, if_true]
      constructor
      · rintro (h1 | h1)
        · exact Or.inl h1
        · exact Or.inr (Or.inr h1)
      · rintro (h1 | h1 | h1)
        · exact Or.inl h1
        · exact Or.inl (h1 ▸ h)
        · exact Or.inr h1
    · simp only [h, if_false, List.mem_append, List.mem_singleton]
      constructor
      · rintro ((h1 | h1) | h1)
        · exact Or.inl h1
        · exact Or.inr (Or.inl h1.symm)
        · exact Or.inr (Or.inr h1)
      · rintro (h1 | h1 | h1)
        · exact Or.inl (Or.inl h1)
        · exact Or.inl (Or.inr h1.symm)
        · exact Or.inr h1

/-- The keys of the map after the first loop of `MergeBlocks`: the keys of the blocks
of the input. -/
theorem groupBlocks_keys (blocks : List CodeBlock) (k : String) :
    k ∈ (main.groupBlocks blocks).keys ↔ ∃ b ∈ blocks, main.mergeKey b = k := by
  unfold main.groupBlocks
  rw [groupBlocks_keys_step]
  simp

/-- One step of the inner loop of `MergeBlocks` keeps the file name and the language
and adds the separator and the content of the block. -/
theorem mergeInto_fields (m b : CodeBlock) :
    (main.mergeInto m b).Filename = m.Filename ∧
    (main.mergeInto m b).Language = m.Language ∧
    (main.mergeInto m b).Content = m.Content ++ main.separator ++ b.Content := by
  refine ⟨by simp only [main.mergeInto], by simp only [main.mergeInto], ?_⟩
  show m.Content ++ ("\n\n" ++ strings.Repeat "-" 80 ++ "\n\n" ++ b.Content) =
    m.Content ++ ("\n\n" ++ strings.Repeat "-" 80 ++ "\n\n") ++ b.Content
  simp only [String.append_assoc]

/-- The inner loop of `MergeBlocks` keeps the file name and the language of the first
block of the group. -/
theorem foldl_mergeInto_key (rest : List CodeBlock) (b : CodeBlock) :
    (rest.foldl main.mergeInto b).Filename = b.Filename ∧
    (rest.foldl main.mergeInto b).Language = b.Language := by
  induction rest generalizing b with
  | nil => exact ⟨rfl, rfl⟩
  | cons r rs ih =>
    rw [List.foldl_cons, (ih (main.mergeInto b r)).1, (ih (main.mergeInto b r)).2]
    exact ⟨(mergeInto_fields b r).1, (mergeInto_fields b r).2.1⟩

/-- The content the inner loop of `MergeBlocks` builds. -/
theorem foldl_mergeInto_Content (rest : List CodeBlock) (b : CodeBlock) :
    (rest.foldl main.mergeInto b).Content =
      strings.Join ((b :: rest).map (fun x => x.Content)) main.separator := by
  have h : ∀ (rest : List CodeBlock) (b : CodeBlock),
      (rest.foldl main.mergeInto b).Content =
        (rest.map (fun x => x.Content)).foldl (fun acc x => acc ++ main.separator ++ x)
          b.Content := by
    intro rest
    induction rest with
    | nil => intro b; rfl
    | cons r rs ih =>
      intro b
      rw [List.foldl_cons, ih, List.map_cons, List.foldl_cons, (mergeInto_fields b r).2.2]
  rw [h]
  rfl

/-- A group that is not empty merges into one block: its first block with the others
merged into it. -/
theorem mergeGroup_cons (b : CodeBlock) (rest : List CodeBlock) :
    main.mergeGroup (b :: rest) = [rest.foldl main.mergeInto b] := by
  cases rest with
  | nil => rfl
  | cons r rs => rfl

/-- The blocks `MergeBlocks` returns for an input that is not empty. -/
theorem mem_MergeBlocks (order : main.MapOrder) (blocks : List CodeBlock) (m : CodeBlock)
    (hne : blocks ≠ []) :
    m ∈ main.MergeBlocks order blocks ↔
      ∃ b ∈ blocks, m ∈ main.mergeGroup
        (blocks.filter (fun x => main.mergeKey x = main.mergeKey b)) := by
  have hlen : ¬ blocks.length = 0 := fun h => hne (List.length_eq_zero.mp h)
  simp only [main.MergeBlocks, hlen, if_false, List.mem_flatMap,
    (order.perm _).mem_iff, groupBlocks_keys, groupBlocks_get]
  constructor
  · rintro ⟨k, ⟨b, hb, hk⟩, hm⟩
    exact ⟨b, hb, hk ▸ hm⟩
  · rintro ⟨b, hb, hm⟩
    exact ⟨_, ⟨b, hb, rfl⟩, hm⟩

/-! ## C11 -/

/-- C11, at the failing input. The first block has the file name `a|b` and the
language `c`, the second the file name `a` and the language `b|c`: the file names
differ, and so do the languages, but both blocks get the key `a|b|c`, and on every
run `MergeBlocks` folds them into one block. -/
theorem MergeBlocks_folds_distinct_pairs (order : main.MapOrder) :
    (exampleBlock "a|b" "c" "one" []).Filename ≠ (exampleBlock "a" "b|c" "two" []).Filename ∧
    (exampleBlock "a|b" "c" "one" []).Language ≠ (exampleBlock "a" "b|c" "two" []).Language ∧
    main.MergeBlocks order [exampleBlock "a|b" "c" "one" [], exampleBlock "a" "b|c" "two" []] =
      [exampleBlock "a|b" "c" ("one" ++ main.separator ++ "two") []] := by
  refine ⟨by decide, by decide, ?_⟩
  have hk : (main.groupBlocks
      [exampleBlock "a|b" "c" "one" [], exampleBlock "a" "b|c" "two" []]).keys = ["a|b|c"] := by
    decide
  have hv : order.visit (main.groupBlocks
      [exampleBlock "a|b" "c" "one" [], exampleBlock "a" "b|c" "two" []]).keys = ["a|b|c"] := by
    rw [hk]
    exact List.perm_singleton.mp (order.perm _)
  unfold main.MergeBlocks
  rw [hv]
  decide!

/-! ## C12 -/

/-- C12. For every input list, every run and every key under which the input has two
or more blocks, the output has a block whose Content is the contents of those blocks
in the order of the input, joined by the separator (two line breaks, 80 dashes, two
line breaks); it is the only block of the output with that key. -/
theorem MergeBlocks_content (order : main.MapOrder) (blocks : List CodeBlock) (key : String)
    (hn : 2 ≤ (blocks.filter (fun b => main.mergeKey b = key)).length) :
    ∃ m, m ∈ main.MergeBlocks order blocks ∧
      m.Content =
        strings.Join ((blocks.filter (fun b => main.mergeKey b = key)).map (fun b => b.Content))
          ("\n\n" ++ strings.Repeat "-" 80 ++ "\n\n") ∧
      main.mergeKey m = key ∧
      ∀ m2, m2 ∈ main.MergeBlocks order blocks → main.mergeKey m2 = key → m2 = m := by
  have hne : blocks ≠ [] := by
    intro h
    subst h
    simp at hn
  cases hg : blocks.filter (fun b => main.mergeKey b = key) with
  | nil => rw [hg] at hn; simp at hn
  | cons b rest =>
    have hb : b ∈ blocks.filter (fun b => main.mergeKey b = key) := by
      rw [hg]; exact List.mem_cons_self _ _
    have hbk : main.mergeKey b = key := by
      simpa using (List.mem_filter.mp hb).2
    have hbm : b ∈ blocks := (List.mem_filter.mp hb).1
    have hkm : main.mergeKey (rest.foldl main.mergeInto b) = key := by
      unfold main.mergeKey
      rw [(foldl_mergeInto_key rest b).1, (foldl_mergeInto_key rest b).2]
      exact hbk
    refine ⟨rest.foldl main.mergeInto b, ?_, ?_, hkm, ?_⟩
    · rw [mem_MergeBlocks order blocks _ hne]
      refine ⟨b, hbm, ?_⟩
      rw [hbk, hg, mergeGroup_cons]
      exact List.mem_singleton_self _
    · exact foldl_mergeInto_Content rest b
    · intro m2 hm2 hk2
      rw [mem_MergeBlocks order blocks _ hne] at hm2
      obtain ⟨b2, hb2, hm2⟩ := hm2
      cases hg2 : blocks.filter (fun x => main.mergeKey x = main.mergeKey b2) with
      | nil =>
        have : b2 ∈ blocks.filter (fun x => main.mergeKey x = main.mergeKey b2) :=
          List.mem_filter.mpr ⟨hb2, by simp⟩
        rw [hg2] at this
        cases this
      | cons c cs =>
        rw [hg2, mergeGroup_cons, List.mem_singleton] at hm2
        have hc : c ∈ blocks.filter (fun x => main.mergeKey x = main.mergeKey b2) := by
          rw [hg2]; exact List.mem_cons_self _ _
        have hck : main.mergeKey c = main.mergeKey b2 := by
          simpa using (List.mem_filter.mp hc).2
        have hmk : main.mergeKey m2 = main.mergeKey b2 := by
          rw [hm2]
          unfold main.mergeKey
          rw [(foldl_mergeInto_key cs c).1, (foldl_mergeInto_key cs c).2]
          exact hck
        have hkk : main.mergeKey b2 = key := hmk ▸ hk2
        rw [hkk, hg] at hg2
        cases hg2
        exact hm2

/-- C12 at a concrete input: three blocks, the first and the third with the key
`a.txt|text`. -/
theorem MergeBlocks_content_witness :
    ∃ m, m ∈ main.MergeBlocks main.MapOrder.insertion
        [exampleBlock "a.txt" "text" "one" [], exampleBlock "b.txt" "text" "two" [],
         exampleBlock "a.txt" "text" "three" []] ∧
      m.Content =
        strings.Join
          (([exampleBlock "a.txt" "text" "one" [], exampleBlock "b.txt" "text" "two" [],
             exampleBlock "a.txt" "text" "three" []].filter
              (fun b => main.mergeKey b = "a.txt|text")).map (fun b => b.Content))
          ("\n\n" ++ strings.Repeat "-" 80 ++ "\n\n") ∧
      main.mergeKey m = "a.txt|text" ∧
      ∀ m2, m2 ∈ main.MergeBlocks main.MapOrder.insertion
          [exampleBlock "a.txt" "text" "one" [], exampleBlock "b.txt" "text" "two" [],
           exampleBlock "a.txt" "text" "three" []] →
        main.mergeKey m2 = "a.txt|text" → m2 = m :=
  MergeBlocks_content main.MapOrder.insertion _ "a.txt|text" (by decide)

/-! ## C13 -/

/-- The lists the inner loop of `MergeBlocks` builds: when the lists of the block it
starts from are `dropRepeats` of some lists, the lists of the merged block are
`dropRepeats` of those lists followed by the lists of the blocks merged in. -/
theorem foldl_mergeInto_lists (rs : List CodeBlock) (acc : CodeBlock) (X Y Z : List String)
    (hI : acc.Imports = main.dropRepeats X) (hA : acc.Annotations = main.dropRepeats Y)
    (hM : acc.Modifiers = main.dropRepeats Z) :
    (rs.foldl main.mergeInto acc).Imports =
      main.dropRepeats (X ++ rs.flatMap (fun b => b.Imports)) ∧
    (rs.foldl main.mergeInto acc).Annotations =
      main.dropRepeats (Y ++ rs.flatMap (fun b => b.Annotations)) ∧
    (rs.foldl main.mergeInto acc).Modifiers =
      main.dropRepeats (Z ++ rs.flatMap (fun b => b.Modifiers)) := by
  induction rs generalizing acc X Y Z with
  | nil => simpa using ⟨hI, hA, hM⟩
  | cons r rs ih =>
    have h := ih (main.mergeInto acc r) (X ++ r.Imports) (Y ++ r.Annotations)
      (Z ++ r.Modifiers)
      (by
        show main.mergeSlices acc.Imports r.Imports = _
        rw [mergeSlices_eq, hI, dropRepeats_dropRepeats_append])
      (by
        show main.mergeSlices acc.Annotations r.Annotations = _
        rw [mergeSlices_eq, hA, dropRepeats_dropRepeats_append])
      (by
        show main.mergeSlices acc.Modifiers r.Modifiers = _
        rw [mergeSlices_eq, hM, dropRepeats_dropRepeats_append])
    simpa only [List.foldl_cons, List.flatMap_cons, List.append_assoc] using h

/-- C13. For all string lists s1 and s2, `mergeSlices(s1, s2)` is s1 followed by s2
with every repeated element dropped after its first occurrence: it has no element
twice and its elements are those of s1 and s2. The Imports, Annotations and Modifiers
of the block merged from a group of two or more blocks are computed this way: each is
the lists of the members, in order, with the repeats dropped. -/
theorem mergeSlices_drops_repeats (s1 s2 : List String) (b r : CodeBlock)
    (rs : List CodeBlock) :
    main.mergeSlices s1 s2 = main.dropRepeats (s1 ++ s2) ∧
    (main.mergeSlices s1 s2).Nodup ∧
    (∀ x, x ∈ main.mergeSlices s1 s2 ↔ x ∈ s1 ∨ x ∈ s2) ∧
    (main.mergeSlices s1 s2).Sublist (s1 ++ s2) ∧
    main.mergeGroup (b :: r :: rs) = [(r :: rs).foldl main.mergeInto b] ∧
    ((r :: rs).foldl main.mergeInto b).Imports =
      main.dropRepeats ((b :: r :: rs).flatMap (fun x => x.Imports)) ∧
    ((r :: rs).foldl main.mergeInto b).Annotations =
      main.dropRepeats ((b :: r :: rs).flatMap (fun x => x.Annotations)) ∧
    ((r :: rs).foldl main.mergeInto b).Modifiers =
      main.dropRepeats ((b :: r :: rs).flatMap (fun x => x.Modifiers)) := by
  have hsub : ∀ l : List String, (main.dropRepeats l).Sublist l := by
    intro l
    induction l with
    | nil => exact List.Sublist.slnil
    | cons x xs ih =>
      exact ((List.filter_sublist _).trans ih).cons₂ x
  have h := foldl_mergeInto_lists rs (main.mergeInto b r) (b.Imports ++ r.Imports)
    (b.Annotations ++ r.Annotations) (b.Modifiers ++ r.Modifiers)
    (by show main.mergeSlices b.Imports r.Imports = _; rw [mergeSlices_eq])
    (by show main.mergeSlices b.Annotations r.Annotations = _; rw [mergeSlices_eq])
    (by show main.mergeSlices b.Modifiers r.Modifiers = _; rw [mergeSlices_eq])
  refine ⟨mergeSlices_eq s1 s2, ?_, ?_, ?_, rfl, ?_, ?_, ?_⟩
  · rw [mergeSlices_eq]; exact nodup_dropRepeats _
  · intro x; rw [mergeSlices_eq, mem_dropRepeats, List.mem_append]
  · rw [mergeSlices_eq]; exact hsub _
  · simpa only [List.foldl_cons, List.flatMap_cons, List.append_assoc] using h.1
  · simpa only [List.foldl_cons, List.flatMap_cons, List.append_assoc] using h.2.1
  · simpa only [List.foldl_cons, List.flatMap_cons, List.append_assoc] using h.2.2

/-! ## C14 -/

/-- C14, at the failing input. For the two blocks `a.txt` and `b.txt`, a run that
iterates over the map in the order of insertion returns them in this order, and a run
that iterates in the reverse order returns them the other way round: two runs on the
same input return different lists. -/
theorem MergeBlocks_depends_on_map_order :
    main.MergeBlocks main.MapOrder.insertion
      [exampleBlock "a.txt" "text" "one" [], exampleBlock "b.txt" "text" "two" []] =
      [exampleBlock "a.txt" "text" "one" [], exampleBlock "b.txt" "text" "two" []] ∧
    main.MergeBlocks main.MapOrder.reversed
      [exampleBlock "a.txt" "text" "one" [], exampleBlock "b.txt" "text" "two" []] =
      [exampleBlock "b.txt" "text" "two" [], exampleBlock "a.txt" "text" "one" []] ∧
    main.MergeBlocks main.MapOrder.insertion
      [exampleBlock "a.txt" "text" "one" [], exampleBlock "b.txt" "text" "two" []] ≠
    main.MergeBlocks main.MapOrder.reversed
      [exampleBlock "a.txt" "text" "one" [], exampleBlock "b.txt" "text" "two" []] := by
  decide

/-! ## C15 -/

/-- On one block, `MergeBlocks` returns that block, on every run. -/
theorem MergeBlocks_singleton (order : main.MapOrder) (m : CodeBlock) :
    main.MergeBlocks order [m] = [m] := by
  have hk : (main.groupBlocks [m]).keys = [main.mergeKey m] := by
    simp [main.groupBlocks, main.Groups.add, main.mergeKey]
  have hv : order.visit (main.groupBlocks [m]).keys = [main.mergeKey m] := by
    rw [hk]
    exact List.perm_singleton.mp (order.perm _)
  unfold main.MergeBlocks
  rw [hv]
  simp [groupBlocks_get, main.mergeGroup]

/-- On blocks that share one key, `MergeBlocks` returns one block, on every run. -/
theorem MergeBlocks_one_key (order : main.MapOrder) (b : CodeBlock) (rest : List CodeBlock)
    (h : ∀ a ∈ rest, main.mergeKey a = main.mergeKey b) :
    main.MergeBlocks order (b :: rest) = [rest.foldl main.mergeInto b] := by
  have hmem : ∀ k, k ∈ (main.groupBlocks (b :: rest)).keys ↔ k = main.mergeKey b := by
    intro k
    rw [groupBlocks_keys]
    constructor
    · rintro ⟨a, ha, hk⟩
      rcases List.mem_cons.mp ha with e | e
      · rw [← hk, e]
      · rw [← hk, h a e]
    · intro e
      exact ⟨b, List.mem_cons_self _ _, e.symm⟩
  have hnd : (main.groupBlocks (b :: rest)).keys.Nodup := by
    have : ∀ (blocks : List CodeBlock) (gs : main.Groups), gs.keys.Nodup →
        (blocks.foldl (fun gs block => gs.add (block.Filename ++ "|" ++ block.Language) block)
          gs).keys.Nodup := by
      intro blocks
      induction blocks with
      | nil => intro gs hgs; exact hgs
      | cons c cs ih =>
        intro gs hgs
        rw [List.foldl_cons]
        apply ih
        unfold main.Groups.add
        by_cases hc : c.Filename ++ "|" ++ c.Language ∈ gs.keys
        · simpa [hc] using hgs
        · simp only [hc, if_false]
          exact List.Nodup.append hgs (List.nodup_singleton _)
            (by simpa using hc)
    exact this _ _ List.nodup_nil
  have hk : (main.groupBlocks (b :: rest)).keys = [main.mergeKey b] := by
    have hp : (main.groupBlocks (b :: rest)).keys.Perm [main.mergeKey b] := by
      rw [List.perm_ext_iff_of_nodup hnd (List.nodup_singleton _)]
      intro k
      rw [hmem, List.mem_singleton]
    exact List.perm_singleton.mp hp
  have hv : order.visit (main.groupBlocks (b :: rest)).keys = [main.mergeKey b] := by
    rw [hk]
    exact List.perm_singleton.mp (order.perm _)
  have hf : (b :: rest).filter (fun x => main.mergeKey x = main.mergeKey b) = b :: rest := by
    apply List.filter_eq_self.mpr
    intro a ha
    rcases List.mem_cons.mp ha with e | e
    · simp [e]
    · simp [h a e]
  unfold main.MergeBlocks
  rw [hv]
  simp only [List.length_cons, Nat.add_one_ne_zero, if_false, List.flatMap_cons,
    List.flatMap_nil, List.append_nil, groupBlocks_get, hf, mergeGroup_cons]

/-- C15. For every list A of blocks that is not empty and whose blocks all have the
Filename and the Language of its first block, merging the output of `MergeBlocks(A)`
again returns that output unchanged (all fields of its one block are kept), whatever
the order of iteration of the two runs. -/
theorem MergeBlocks_idempotent_on_group (order1 order2 : main.MapOrder) (b : CodeBlock)
    (rest : List CodeBlock)
    (h : ∀ a ∈ rest, a.Filename = b.Filename ∧ a.Language = b.Language) :
    main.MergeBlocks order2 (main.MergeBlocks order1 (b :: rest)) =
      main.MergeBlocks order1 (b :: rest) ∧
    main.MergeBlocks order1 (b :: rest) = [rest.foldl main.mergeInto b] := by
  have hk : ∀ a ∈ rest, main.mergeKey a = main.mergeKey b := by
    intro a ha
    unfold main.mergeKey
    rw [(h a ha).1, (h a ha).2]
  rw [MergeBlocks_one_key order1 b rest hk, MergeBlocks_singleton]
  exact ⟨rfl, rfl⟩

/-- C15 at a concrete input: three blocks with the file name `a.txt` and the language
`text`. -/
theorem MergeBlocks_idempotent_on_group_witness :
    main.MergeBlocks main.MapOrder.reversed
      (main.MergeBlocks main.MapOrder.insertion
        (exampleBlock "a.txt" "text" "one" ["x", "y"] ::
          [exampleBlock "a.txt" "text" "two" ["y", "z"],
           exampleBlock "a.txt" "text" "three" ["x"]])) =
      main.MergeBlocks main.MapOrder.insertion
        (exampleBlock "a.txt" "text" "one" ["x", "y"] ::
          [exampleBlock "a.txt" "text" "two" ["y", "z"],
           exampleBlock "a.txt" "text" "three" ["x"]]) ∧
    main.MergeBlocks main.MapOrder.insertion
        (exampleBlock "a.txt" "text" "one" ["x", "y"] ::
          [exampleBlock "a.txt" "text" "two" ["y", "z"],
           exampleBlock "a.txt" "text" "three" ["x"]]) =
      [[exampleBlock "a.txt" "text" "two" ["y", "z"],
        exampleBlock "a.txt" "text" "three" ["x"]].foldl main.mergeInto
          (exampleBlock "a.txt" "text" "one" ["x", "y"])] :=
  MergeBlocks_idempotent_on_group main.MapOrder.insertion main.MapOrder.reversed _ _
    (by decide)

/-! ## Lemmas on `writeExtractedBlocks` -/

/-- The paths the loop of `writeExtractedBlocks` writes: the paths of the blocks, in
order, whose directory can be made and whose file can be written. -/
theorem writeBlocksFrom_written (ToLower : String → String) (c : ExtractCommand)
    (faults : os.Faults) (sourceFile : String) (blocks : List CodeBlock) (i : Nat)
    (fs : os.FileSystem) :
    (writeBlocksFrom ToLower c faults sourceFile i blocks fs).1 =
      (blocks.enumFrom i).filterMap (fun ib =>
        if faults.mkdirAll (filepath.Dir (outputPathFor ToLower c sourceFile ib.1 ib.2)) = false ∧
            faults.writeFile (outputPathFor ToLower c sourceFile ib.1 ib.2) = false then
          some (outputPathFor ToLower c sourceFile ib.1 ib.2)
        else none) := by
  induction blocks generalizing i fs with
  | nil => rfl
  | cons b rest ih =>
    simp only [writeBlocksFrom, os.MkdirAll, os.WriteFile, List.enumFrom_cons,
      List.filterMap_cons, outputPathFor, fileNameFor]
    cases hm : faults.mkdirAll (filepath.Dir (filepath.Join c.outputDir
        (if b.Filename ≠ "" then b.Filename
          else strings.TrimSuffix (filepath.Base sourceFile) (filepath.Ext sourceFile) ++ "_" ++
            b.BlockType ++ "_" ++ toString i ++ getExtensionForLanguage ToLower b.Language)))
    · cases hw : faults.writeFile (filepath.Join c.outputDir
          (if b.Filename ≠ "" then b.Filename
            else strings.TrimSuffix (filepath.Base sourceFile) (filepath.Ext sourceFile) ++
              "_" ++ b.BlockType ++ "_" ++ toString i ++
              getExtensionForLanguage ToLower b.Language))
      · simp [ih, outputPathFor, fileNameFor]
      · simp [ih, outputPathFor, fileNameFor]
    · simp [ih, outputPathFor, fileNameFor]

/-- The last block of a list that resolves to a path: the last one of the tail if
there is one, and otherwise the head if it resolves to the path. -/
theorem lastResolving_cons (ToLower : String → String) (c : ExtractCommand)
    (sourceFile p : String) (i : Nat) (b : CodeBlock) (rest : List CodeBlock) :
    lastResolving ToLower c sourceFile p i (b :: rest) =
      match lastResolving ToLower c sourceFile p (i + 1) rest with
      | some x => some x
      | none => if outputPathFor ToLower c sourceFile i b = p then some b else none := by
  unfold lastResolving
  rw [List.enumFrom_cons, List.reverse_cons, List.find?_append]
  cases h : List.find? (fun ib => decide (outputPathFor ToLower c sourceFile ib.1 ib.2 = p))
      (List.enumFrom (i + 1) rest).reverse with
  | some x => simp
  | none =>
    by_cases hp : outputPathFor ToLower c sourceFile i b = p <;> simp [hp]

/-- The files after the loop of `writeExtractedBlocks` when every call of the
operating system succeeds: a path holds the content of the last block that resolves
to it, and a path to which no block resolves holds what it held before. -/
theorem writeBlocksFrom_files (ToLower : String → String) (c : ExtractCommand)
    (faults : os.Faults) (sourceFile : String) (blocks : List CodeBlock) (i : Nat)
    (fs : os.FileSystem) (hm : ∀ d, faults.mkdirAll d = false)
    (hw : ∀ p, faults.writeFile p = false) (p : String) :
    (writeBlocksFrom ToLower c faults sourceFile i blocks fs).2.files p =
      match lastResolving ToLower c sourceFile p i blocks with
      | some b => some b.Content
      | none => fs.files p := by
  induction blocks generalizing i fs with
  | nil => rfl
  | cons b rest ih =>
    rw [lastResolving_cons]
    simp only [writeBlocksFrom, os.MkdirAll, os.WriteFile, hm, hw, Bool.false_eq_true,
      if_false]
    rw [ih]
    cases h : lastResolving ToLower c sourceFile p (i + 1) rest with
    | some x => simp
    | none =>
      have aux : ∀ q : String,
          (if p = q then some b.Content else fs.files p) =
            match (if q = p then some b else none : Option CodeBlock) with
            | some b => some b.Content
            | none => fs.files p := by
        intro q
        by_cases hp : q = p
        · subst hp; simp
        · have hp2 : ¬ p = q := fun e => hp e.symm
          simp [hp, hp2]
      exact aux _

/-! ## C16 -/

/-- C16. For every source path and block list, the paths `writeExtractedBlocks`
writes are, in order, the output directory joined with the file name of each block
whose directory and file can be written; for the block at position i (from 0) that
name is the Filename of the block when it is not empty, and otherwise stem `_` Type
`_` i (in decimal) followed by `getExtensionForLanguage` of the Language, where stem
is the base name of the source file without its last extension. The name is never
empty. -/
theorem writeExtractedBlocks_file_names (ToLower : String → String) (c : ExtractCommand)
    (faults : os.Faults) (fs : os.FileSystem) (sourceFile : String)
    (blocks : List CodeBlock) (i : Nat) (block : CodeBlock) :
    (c.writeExtractedBlocks ToLower faults blocks sourceFile fs).1 =
      (blocks.enumFrom 0).filterMap (fun ib =>
        if faults.mkdirAll (filepath.Dir (filepath.Join c.outputDir
              (fileNameFor ToLower sourceFile ib.1 ib.2))) = false ∧
            faults.writeFile (filepath.Join c.outputDir
              (fileNameFor ToLower sourceFile ib.1 ib.2)) = false then
          some (filepath.Join c.outputDir (fileNameFor ToLower sourceFile ib.1 ib.2))
        else none) ∧
    (block.Filename ≠ "" → fileNameFor ToLower sourceFile i block = block.Filename) ∧
    (block.Filename = "" → fileNameFor ToLower sourceFile i block =
      strings.TrimSuffix (filepath.Base sourceFile) (filepath.Ext sourceFile) ++ "_" ++
        block.BlockType ++ "_" ++ toString i ++ getExtensionForLanguage ToLower block.Language) ∧
    fileNameFor ToLower sourceFile i block ≠ "" := by
  refine ⟨writeBlocksFrom_written ToLower c faults sourceFile blocks 0 fs, ?_, ?_, ?_⟩
  · intro h; simp [fileNameFor, h]
  · intro h; simp [fileNameFor, h]
  · by_cases h : block.Filename = ""
    · simp only [fileNameFor, h, ne_eq, not_true_eq_false, if_false]
      intro e
      have hl := congrArg String.length e
      simp only [String.length_append] at hl
      have h1 : ("_" : String).length = 1 := by decide
      have h0 : ("" : String).length = 0 := by decide
      omega
    · simp [fileNameFor, h]

/-- C16 at a concrete input: the source file `dir/notes.md` with a block of type
`code` and language `go` that has no Filename, at position 3, and the block list made
of that block and a block named `Foo.txt`, written to the directory `out`. -/
theorem writeExtractedBlocks_file_names_witness :
    fileNameFor strings.lowerASCII "dir/notes.md" 3
        { Content := "x", BlockType := "code", Filename := "", Language := "go" } =
      "notes_code_3.go" ∧
    (({ outputDir := "out" } : ExtractCommand).writeExtractedBlocks strings.lowerASCII noFaults
        [{ Content := "x", BlockType := "code", Filename := "", Language := "go" },
         exampleBlock "Foo.txt" "text" "y" []] "dir/notes.md" (exampleFS "dir/notes.md" "x")).1 =
      ["out/notes_code_0.go", "out/Foo.txt"] :=
  ⟨((writeExtractedBlocks_file_names strings.lowerASCII { outputDir := "out" } noFaults
      (exampleFS "dir/notes.md" "x") "dir/notes.md" [] 3
      { Content := "x", BlockType := "code", Filename := "", Language := "go" }).2.2.1
      rfl).trans rfl,
   (writeExtractedBlocks_file_names strings.lowerASCII { outputDir := "out" } noFaults
      (exampleFS "dir/notes.md" "x") "dir/notes.md"
      [{ Content := "x", BlockType := "code", Filename := "", Language := "go" },
       exampleBlock "Foo.txt" "text" "y" []] 0
      { Content := "x", BlockType := "code", Filename := "", Language := "go" }).1.trans rfl⟩

/-! ## C17 -/

/-- C17, at the failing input. On a Go file that declares one constant in a `const (`
... `)` group, `Initialize` succeeds and `Extract` of the Go extractor returns a
`constant` block whose Filename is the whole text between the parentheses followed
by `.go`: it contains line breaks, a double quote and a slash, characters that
`ValidateBlock` rejects in a file name. -/
theorem GoExtractor_Extract_constant_filename :
    extract.NewGoExtractor.Initialize.2 = none ∧
    extract.GoExtractor.initialized.Extract "const (\n\tSep = \"/\"\n)\n" =
      .ok [{ Content := "const \n\tSep = \"/\"\n = /* value */", BlockType := "constant",
             Package := "", Filename := "\n\tSep = \"/\"\n.go", Language := "go" }] ∧
    strings.ContainsAny "\n\tSep = \"/\"\n.go" "<>:\"/\\|?*" = true ∧
    strings.Contains "\n\tSep = \"/\"\n.go" "\n" = true :=
  ⟨rfl, rfl, rfl, rfl⟩

/-! ## C18 -/

/-- A path that some block of the list resolves to has a last block resolving to it,
and that block is in the list. -/
theorem lastResolving_of_mem (ToLower : String → String) (c : ExtractCommand)
    (sourceFile p : String) (blocks : List CodeBlock) (i : Nat)
    (h : ∃ ib ∈ blocks.enumFrom i, outputPathFor ToLower c sourceFile ib.1 ib.2 = p) :
    ∃ b ∈ blocks, lastResolving ToLower c sourceFile p i blocks = some b := by
  unfold lastResolving
  cases hf : (blocks.enumFrom i).reverse.find?
      (fun ib => outputPathFor ToLower c sourceFile ib.1 ib.2 = p) with
  | none =>
    obtain ⟨ib, hib, hp⟩ := h
    have := List.find?_eq_none.mp hf ib (List.mem_reverse.mpr hib)
    simp [hp] at this
  | some x =>
    have hx : x ∈ blocks.enumFrom i := List.mem_reverse.mp (List.mem_of_find?_eq_some hf)
    exact ⟨x.2, List.snd_mem_of_mem_enumFrom hx, rfl⟩

/-- C18. When every directory creation and file write succeeds, after
`writeExtractedBlocks` on any block list every path holds the Content of the last
block of the list that resolves to it (and a path no block resolves to holds what it
held before); in particular each written path holds the Content of the last block
resolving to it, so two blocks with one name leave one file with the content of the
later block. -/
theorem writeExtractedBlocks_last_write_wins (ToLower : String → String)
    (c : ExtractCommand) (faults : os.Faults) (fs : os.FileSystem) (sourceFile : String)
    (blocks : List CodeBlock) (hm : ∀ d, faults.mkdirAll d = false)
    (hw : ∀ p, faults.writeFile p = false) :
    (∀ p, (c.writeExtractedBlocks ToLower faults blocks sourceFile fs).2.files p =
      match lastResolving ToLower c sourceFile p 0 blocks with
      | some b => some b.Content
      | none => fs.files p) ∧
    (∀ p ∈ (c.writeExtractedBlocks ToLower faults blocks sourceFile fs).1,
      ∃ b ∈ blocks, lastResolving ToLower c sourceFile p 0 blocks = some b ∧
        (c.writeExtractedBlocks ToLower faults blocks sourceFile fs).2.files p =
          some b.Content) := by
  have hfiles := writeBlocksFrom_files ToLower c faults sourceFile blocks 0 fs hm hw
  refine ⟨hfiles, ?_⟩
  intro p hp
  unfold ExtractCommand.writeExtractedBlocks at hp ⊢
  rw [writeBlocksFrom_written] at hp
  obtain ⟨ib, hib, hsome⟩ := List.mem_filterMap.mp hp
  have hpath : outputPathFor ToLower c sourceFile ib.1 ib.2 = p := by
    simp only [hm, hw, and_self, if_true, Option.some.injEq] at hsome
    exact hsome
  obtain ⟨b, hb, hlast⟩ := lastResolving_of_mem ToLower c sourceFile p blocks 0
    ⟨ib, hib, hpath⟩
  exact ⟨b, hb, hlast, by rw [hfiles p, hlast]⟩

/-- C18 at a concrete input: two blocks named `Foo.txt` written to the directory
`out`; the one file `out/Foo.txt` holds the content of the second block. -/
theorem writeExtractedBlocks_last_write_wins_witness :
    ((∀ p, (({ outputDir := "out" } : ExtractCommand).writeExtractedBlocks strings.lowerASCII
        noFaults [exampleBlock "Foo.txt" "text" "first" [],
          exampleBlock "Foo.txt" "text" "second" []] "a.md" (exampleFS "a.md" "x")).2.files p =
      match lastResolving strings.lowerASCII ({ outputDir := "out" } : ExtractCommand) "a.md" p 0
          [exampleBlock "Foo.txt" "text" "first" [],
            exampleBlock "Foo.txt" "text" "second" []] with
      | some b => some b.Content
      | none => (exampleFS "a.md" "x").files p) ∧
    (∀ p ∈ (({ outputDir := "out" } : ExtractCommand).writeExtractedBlocks strings.lowerASCII
        noFaults [exampleBlock "Foo.txt" "text" "first" [],
          exampleBlock "Foo.txt" "text" "second" []] "a.md" (exampleFS "a.md" "x")).1,
      ∃ b ∈ [exampleBlock "Foo.txt" "text" "first" [],
          exampleBlock "Foo.txt" "text" "second" []],
        lastResolving strings.lowerASCII ({ outputDir := "out" } : ExtractCommand) "a.md" p 0
          [exampleBlock "Foo.txt" "text" "first" [],
            exampleBlock "Foo.txt" "text" "second" []] = some b ∧
        (({ outputDir := "out" } : ExtractCommand).writeExtractedBlocks strings.lowerASCII
          noFaults [exampleBlock "Foo.txt" "text" "first" [],
            exampleBlock "Foo.txt" "text" "second" []] "a.md"
          (exampleFS "a.md" "x")).2.files p = some b.Content)) ∧
    (({ outputDir := "out" } : ExtractCommand).writeExtractedBlocks strings.lowerASCII
        noFaults [exampleBlock "Foo.txt" "text" "first" [],
          exampleBlock "Foo.txt" "text" "second" []] "a.md" (exampleFS "a.md" "x")).1 =
      ["out/Foo.txt", "out/Foo.txt"] ∧
    (({ outputDir := "out" } : ExtractCommand).writeExtractedBlocks strings.lowerASCII
        noFaults [exampleBlock "Foo.txt" "text" "first" [],
          exampleBlock "Foo.txt" "text" "second" []] "a.md"
        (exampleFS "a.md" "x")).2.files "out/Foo.txt" = some "second" :=
  ⟨writeExtractedBlocks_last_write_wins strings.lowerASCII _ noFaults _ "a.md" _
      (fun _ => rfl) (fun _ => rfl), rfl, rfl⟩

/-- With dry-run enabled, `processSingleFile` leaves the file system as it was. -/
theorem processSingleFile_dry_run_frame (ToLower : String → String) (c : ExtractCommand)
    (faults : os.Faults) (fs : os.FileSystem) (hdry : c.dryRun = true) (p : String)
    (r : PluginRegistry) (out : Except ProcessError ExtractionResult) (fs2 : os.FileSystem)
    (h : c.processSingleFile ToLower faults fs p r = .ok (out, fs2)) : fs2 = fs := by
  unfold ExtractCommand.processSingleFile at h
  simp only [hdry] at h
  split at h
  · cases h; rfl
  · split at h
    · cases h; rfl
    · split at h
      · cases h; rfl
      · split at h
        · cases h
        · cases h; rfl

/-! ## C19 -/

/-- C19. With dry-run enabled, `processSingleFile` never changes the file system; and
for a readable file for which an extractor is selected that initializes and extracts,
it returns the result with the blocks of that extractor and no written file, while
the same call without dry-run returns a result with the same blocks. -/
theorem processSingleFile_dry_run (ToLower : String → String) (c : ExtractCommand)
    (faults : os.Faults) (fs : os.FileSystem) (path content : String)
    (registry : PluginRegistry) (e : ExtractorPlugin) (blocks : List CodeBlock)
    (hdry : c.dryRun = true) (hread : fs.files path = some content)
    (hsel : selectedExtractor ToLower c path registry = some e)
    (hinit : e.Initialize = none) (hext : e.Extract content = .ok blocks) :
    c.processSingleFile ToLower faults fs path registry =
      .ok (.ok { SourceFile := path, ExtractorName := e.Name, CodeBlocks := blocks,
                 WrittenFiles := [] }, fs) ∧
    (∃ written fs2,
      ({ c with dryRun := false } : ExtractCommand).processSingleFile ToLower faults fs path
          registry =
        .ok (.ok { SourceFile := path, ExtractorName := e.Name, CodeBlocks := blocks,
                   WrittenFiles := written }, fs2)) ∧
    (∀ (p : String) (r : PluginRegistry) (out : Except ProcessError ExtractionResult)
        (fs2 : os.FileSystem),
      c.processSingleFile ToLower faults fs p r = .ok (out, fs2) → fs2 = fs) := by
  refine ⟨?_, ?_, ?_⟩
  · unfold selectedExtractor at hsel
    simp only [ExtractCommand.processSingleFile, os.ReadFile, hread]
    generalize (if c.language ≠ "" then registry.GetExtractorByLanguage ToLower c.language
      else registry.GetExtractorByExtension ToLower (ToLower (filepath.Ext path))) = found
      at hsel ⊢
    cases found with
    | some x =>
      simp only [Option.some.injEq] at hsel
      subst hsel
      simp [hinit, hext, hdry]
    | none =>
      simp only at hsel
      simp [hsel, hinit, hext, hdry]
  · have hsel2 : selectedExtractor ToLower ({ c with dryRun := false } : ExtractCommand) path
        registry = some e := hsel
    unfold selectedExtractor at hsel2
    simp only [ExtractCommand.processSingleFile, os.ReadFile, hread]
    generalize (if c.language ≠ "" then registry.GetExtractorByLanguage ToLower c.language
      else registry.GetExtractorByExtension ToLower (ToLower (filepath.Ext path))) = found
      at hsel2 ⊢
    cases found with
    | some x =>
      simp only [Option.some.injEq] at hsel2
      subst hsel2
      simp [hinit, hext]
    | none =>
      simp only at hsel2
      simp [hsel2, hinit, hext]
  · intro p r out fs2 h
    exact processSingleFile_dry_run_frame ToLower c faults fs hdry p r out fs2 h

/-- C19 at a concrete input: the readable file `a.py`, the plugin `python` for `.py`,
dry-run enabled. -/
theorem processSingleFile_dry_run_witness :
    ({ dryRun := true } : ExtractCommand).processSingleFile strings.lowerASCII noFaults
        (exampleFS "a.py" "x = 1") "a.py"
        (registerAll strings.lowerASCII NewPluginRegistry
          [examplePlugin "python" [".py"] none]) =
      .ok (.ok { SourceFile := "a.py",
                 ExtractorName := (examplePlugin "python" [".py"] none).Name,
                 CodeBlocks := [{ Content := "x = 1", BlockType := "text",
                                  Filename := "python.txt", Language := "python" }],
                 WrittenFiles := [] }, exampleFS "a.py" "x = 1") ∧
    (∃ written fs2,
      ({ ({ dryRun := true } : ExtractCommand) with dryRun := false } :
          ExtractCommand).processSingleFile strings.lowerASCII noFaults
          (exampleFS "a.py" "x = 1") "a.py"
          (registerAll strings.lowerASCII NewPluginRegistry
            [examplePlugin "python" [".py"] none]) =
        .ok (.ok { SourceFile := "a.py",
                   ExtractorName := (examplePlugin "python" [".py"] none).Name,
                   CodeBlocks := [{ Content := "x = 1", BlockType := "text",
                                    Filename := "python.txt", Language := "python" }],
                   WrittenFiles := written }, fs2)) ∧
    (∀ (p : String) (r : PluginRegistry) (out : Except ProcessError ExtractionResult)
        (fs2 : os.FileSystem),
      ({ dryRun := true } : ExtractCommand).processSingleFile strings.lowerASCII noFaults
          (exampleFS "a.py" "x = 1") p r = .ok (out, fs2) →
        fs2 = exampleFS "a.py" "x = 1") :=
  processSingleFile_dry_run strings.lowerASCII { dryRun := true } noFaults
    (exampleFS "a.py" "x = 1") "a.py" "x = 1" _ (examplePlugin "python" [".py"] none) _
    rfl rfl rfl rfl rfl

/-! ## C20 -/

/-- The steps of `processSingleFile`: reading the file, selecting the extractor,
initializing it, extracting, and writing unless dry-run is enabled. -/
theorem processSingleFile_steps (ToLower : String → String) (c : ExtractCommand)
    (faults : os.Faults) (fs : os.FileSystem) (path : String) (registry : PluginRegistry) :
    c.processSingleFile ToLower faults fs path registry =
      match os.ReadFile fs path with
      | .error err => .ok (.error (.readFile err), fs)
      | .ok content =>
        match selectedExtractor ToLower c path registry with
        | none => .ok (.error (.noExtractor path), fs)
        | some e =>
          match e.Initialize with
          | some err => .ok (.error (.initFailed err), fs)
          | none =>
            match e.Extract content with
            | .error p => .error p
            | .ok blocks =>
              .ok (.ok { SourceFile := path, ExtractorName := e.Name, CodeBlocks := blocks,
                         WrittenFiles :=
                           (if !c.dryRun then
                              c.writeExtractedBlocks ToLower faults blocks path fs
                            else ([], fs)).1 },
                   (if !c.dryRun then c.writeExtractedBlocks ToLower faults blocks path fs
                    else ([], fs)).2) := by
  unfold ExtractCommand.processSingleFile selectedExtractor
  rfl

/-- The result `processSingleFile` returns for a file names that file. -/
theorem processSingleFile_SourceFile (ToLower : String → String) (c : ExtractCommand)
    (faults : os.Faults) (fs : os.FileSystem) (path : String) (registry : PluginRegistry)
    (res : ExtractionResult) (fs2 : os.FileSystem)
    (h : c.processSingleFile ToLower faults fs path registry = .ok (.ok res, fs2)) :
    res.SourceFile = path := by
  rw [processSingleFile_steps] at h
  split at h
  · cases h
  · split at h
    · cases h
    · split at h
      · cases h
      · split at h
        · cases h
        · cases h; rfl

/-- The selected extractor is a plugin of the language table or of the extension
table. -/
theorem selectedExtractor_mem (ToLower : String → String) (c : ExtractCommand)
    (path : String) (registry : PluginRegistry) (e : ExtractorPlugin)
    (h : selectedExtractor ToLower c path registry = some e) :
    ∃ k, registry.languageMap k = some e ∨ registry.extensionMap k = some e := by
  unfold selectedExtractor at h
  split at h
  · rename_i x hx
    cases h
    split at hx
    · exact ⟨_, Or.inl hx⟩
    · exact ⟨_, Or.inr hx⟩
  · exact ⟨_, Or.inl h⟩

/-- When no plugin in the tables of the registry panics, `processSingleFile` returns. -/
theorem processSingleFile_returns (ToLower : String → String) (c : ExtractCommand)
    (faults : os.Faults) (fs : os.FileSystem) (path : String) (registry : PluginRegistry)
    (hnp : ∀ k e, (registry.languageMap k = some e ∨ registry.extensionMap k = some e) →
      ∀ content, ∃ blocks, e.Extract content = .ok blocks) :
    ∃ out fs2, c.processSingleFile ToLower faults fs path registry = .ok (out, fs2) := by
  rw [processSingleFile_steps]
  cases hr : os.ReadFile fs path with
  | error err => exact ⟨_, _, rfl⟩
  | ok content =>
    cases hs : selectedExtractor ToLower c path registry with
    | none => exact ⟨_, _, rfl⟩
    | some e =>
      obtain ⟨k, hk⟩ := selectedExtractor_mem ToLower c path registry e hs
      obtain ⟨blocks, hb⟩ := hnp k e hk content
      cases hi : e.Initialize with
      | some err => simp only [hi]; exact ⟨_, _, rfl⟩
      | none => simp only [hi, hb]; exact ⟨_, _, rfl⟩

/-- C20. In sequential mode, when no plugin in the tables of the registry panics, the
call returns, and the SourceFile fields of its results are, in order, the input paths
whose processing returned a result (each file processed in the file system that the
files before it leave): a subsequence of the input, to which a failing file adds
nothing and after which the loop goes on. With dry-run enabled the file system does
not change, and the SourceFile fields are the input paths filtered by success. -/
theorem processFilesSequential_sources (ToLower : String → String) (c : ExtractCommand)
    (faults : os.Faults) (fs : os.FileSystem) (paths : List String)
    (registry : PluginRegistry)
    (hnp : ∀ k e, (registry.languageMap k = some e ∨ registry.extensionMap k = some e) →
      ∀ content, ∃ blocks, e.Extract content = .ok blocks) :
    ∃ results fs2,
      c.processFilesSequential ToLower faults fs paths registry = .ok (results, fs2) ∧
      results.map (fun r => r.SourceFile) = succeededPaths ToLower c faults registry paths fs ∧
      (results.map (fun r => r.SourceFile)).Sublist paths ∧
      (c.dryRun = true → fs2 = fs ∧
        results.map (fun r => r.SourceFile) =
          paths.filter (fun p => fileSucceeds ToLower c faults registry fs p)) := by
  unfold ExtractCommand.processFilesSequential
  induction paths generalizing fs with
  | nil => exact ⟨[], fs, rfl, rfl, List.Sublist.slnil, fun _ => ⟨rfl, rfl⟩⟩
  | cons p ps ih =>
    obtain ⟨out, fs1, h1⟩ := processSingleFile_returns ToLower c faults fs p registry hnp
    obtain ⟨results, fs2, hrun, hsrc, hsub, hdry⟩ := ih fs1
    cases out with
    | error err =>
      refine ⟨results, fs2, ?_, ?_, ?_, ?_⟩
      · simp only [processFilesFrom, h1, hrun]
      · simp only [succeededPaths, fileSucceeds, fsAfterFile, h1, hsrc]
        rfl
      · exact hsub.cons p
      · intro hd
        have hfs : fs1 = fs :=
          processSingleFile_dry_run_frame ToLower c faults fs hd p registry _ fs1 h1
        subst hfs
        refine ⟨(hdry hd).1, ?_⟩
        rw [(hdry hd).2, List.filter_cons]
        simp [fileSucceeds, h1]
    | ok res =>
      have hs := processSingleFile_SourceFile ToLower c faults fs p registry res fs1 h1
      refine ⟨res :: results, fs2, ?_, ?_, ?_, ?_⟩
      · simp only [processFilesFrom, h1, hrun]
      · simp only [succeededPaths, fileSucceeds, fsAfterFile, h1, List.map_cons, hs, hsrc]
        rfl
      · rw [List.map_cons, hs]
        exact hsub.cons₂ p
      · intro hd
        have hfs : fs1 = fs :=
          processSingleFile_dry_run_frame ToLower c faults fs hd p registry _ fs1 h1
        subst hfs
        refine ⟨(hdry hd).1, ?_⟩
        rw [List.map_cons, hs, (hdry hd).2, List.filter_cons]
        simp [fileSucceeds, h1]

/-- The plugin of the examples never panics. -/
theorem examplePlugin_registry_total (k : String) (e : ExtractorPlugin)
    (h : (registerAll strings.lowerASCII NewPluginRegistry
          [examplePlugin "python" [".py"] none]).languageMap k = some e ∨
        (registerAll strings.lowerASCII NewPluginRegistry
          [examplePlugin "python" [".py"] none]).extensionMap k = some e)
    (content : String) : ∃ blocks, e.Extract content = .ok blocks := by
  have he : e = examplePlugin "python" [".py"] none := by
    simp only [registerAll, PluginRegistry.Register, NewPluginRegistry, mapSet,
      registerExtensions, examplePlugin] at h
    rcases h with h | h
    · split at h
      · exact (Option.some.inj h).symm
      · cases h
    · split at h
      · exact (Option.some.inj h).symm
      · cases h
  subst he
  exact ⟨_, rfl⟩

/-- C20 at a concrete input: the paths `a.py`, `missing.py` and `a.py` again, where
only `a.py` exists; the results name `a.py` twice. -/
theorem processFilesSequential_sources_witness :
    (∃ results fs2,
      ({ dryRun := true } : ExtractCommand).processFilesSequential strings.lowerASCII noFaults
          (exampleFS "a.py" "x = 1") ["a.py", "missing.py", "a.py"]
          (registerAll strings.lowerASCII NewPluginRegistry
            [examplePlugin "python" [".py"] none]) = .ok (results, fs2) ∧
      results.map (fun r => r.SourceFile) =
        succeededPaths strings.lowerASCII ({ dryRun := true } : ExtractCommand) noFaults
          (registerAll strings.lowerASCII NewPluginRegistry
            [examplePlugin "python" [".py"] none])
          ["a.py", "missing.py", "a.py"] (exampleFS "a.py" "x = 1") ∧
      (results.map (fun r => r.SourceFile)).Sublist ["a.py", "missing.py", "a.py"] ∧
      (({ dryRun := true } : ExtractCommand).dryRun = true →
        fs2 = exampleFS "a.py" "x = 1" ∧
        results.map (fun r => r.SourceFile) =
          ["a.py", "missing.py", "a.py"].filter
            (fun p => fileSucceeds strings.lowerASCII ({ dryRun := true } : ExtractCommand)
              noFaults
              (registerAll strings.lowerASCII NewPluginRegistry
                [examplePlugin "python" [".py"] none])
              (exampleFS "a.py" "x = 1") p))) ∧
    succeededPaths strings.lowerASCII ({ dryRun := true } : ExtractCommand) noFaults
        (registerAll strings.lowerASCII NewPluginRegistry
          [examplePlugin "python" [".py"] none])
        ["a.py", "missing.py", "a.py"] (exampleFS "a.py" "x = 1") = ["a.py", "a.py"] :=
  ⟨processFilesSequential_sources strings.lowerASCII { dryRun := true } noFaults
      (exampleFS "a.py" "x = 1") ["a.py", "missing.py", "a.py"] _
      examplePlugin_registry_total, rfl⟩

/-! ## Lemmas on `strings.Split`, `strings.Join` and `strings.ReplaceAll` -/

/-- The characters of a joined list: the first element, then each other element after
a separator. -/
theorem strings_Join_data (e : String) (es : List String) (sep : String) :
    (strings.Join (e :: es) sep).data =
      e.data ++ es.flatMap (fun x => sep.data ++ x.data) := by
  show (es.foldl (fun acc x => acc ++ sep ++ x) e).data = _
  induction es generalizing e with
  | nil => simp
  | cons x xs ih =>
    rw [List.foldl_cons, ih]
    simp [String.data_append, List.append_assoc]

/-- Passing over the rest of a separator: `splitChars` with `skip` characters to pass
over goes on after them. -/
theorem splitChars_skip (sep pre s cur : List Char) :
    strings.splitChars sep (pre ++ s) cur pre.length = strings.splitChars sep s cur 0 := by
  induction pre with
  | nil => rfl
  | cons c cs ih =>
    show strings.splitChars sep (c :: (cs ++ s)) cur (cs.length + 1) = _
    rw [strings.splitChars]
    exact ih

/-- The same for `replaceChars`. -/
theorem replaceChars_skip (old new pre s : List Char) :
    strings.replaceChars old new (pre ++ s) pre.length = strings.replaceChars old new s 0 := by
  induction pre with
  | nil => rfl
  | cons c cs ih =>
    show strings.replaceChars old new (c :: (cs ++ s)) (cs.length + 1) = _
    rw [strings.replaceChars]
    exact ih

/-- One step of `splitChars` at an occurrence of the separator. -/
theorem splitChars_at_sep (c : Char) (sep' rest cur : List Char) :
    strings.splitChars (c :: sep') (c :: sep' ++ rest) cur 0 =
      cur.reverse :: strings.splitChars (c :: sep') rest [] 0 := by
  show strings.splitChars (c :: sep') (c :: (sep' ++ rest)) cur 0 = _
  rw [strings.splitChars]
  have h : (c :: sep').isPrefixOf (c :: (sep' ++ rest)) = true := by
    rw [List.isPrefixOf_iff_prefix]
    exact ⟨rest, rfl⟩
  rw [if_pos h]
  have := splitChars_skip (c :: sep') sep' rest []
  simpa using this

/-- One step of `replaceChars` at an occurrence of `old`. -/
theorem replaceChars_at_old (c : Char) (old' new rest : List Char) :
    strings.replaceChars (c :: old') new (c :: old' ++ rest) 0 =
      new ++ strings.replaceChars (c :: old') new rest 0 := by
  show strings.replaceChars (c :: old') new (c :: (old' ++ rest)) 0 = _
  rw [strings.replaceChars]
  have h : (c :: old').isPrefixOf (c :: (old' ++ rest)) = true := by
    rw [List.isPrefixOf_iff_prefix]
    exact ⟨rest, rfl⟩
  rw [if_pos h]
  have := replaceChars_skip (c :: old') new old' rest
  simp only [List.length_cons, Nat.add_sub_cancel]
  rw [this]

/-- What `splitChars` returns, for a separator that is not empty: pieces that, put
together, give the text with every occurrence found removed (`replaceChars`), that,
joined by the separator, give the text back, and none of which holds the separator,
provided the separator does not start inside the piece in progress. -/
theorem splitChars_spec (sep : List Char) (hsep : sep ≠ []) (n : Nat) :
    ∀ (s cur : List Char), s.length ≤ n →
      ∃ first others, strings.splitChars sep s cur 0 = first :: others ∧
        first ++ others.flatMap (fun x => x) =
          cur.reverse ++ strings.replaceChars sep [] s 0 ∧
        first ++ others.flatMap (fun x => sep ++ x) = cur.reverse ++ s ∧
        ((∀ i, i < cur.length → ¬ sep <+: (cur.reverse ++ s).drop i) →
          ∀ x ∈ first :: others, strings.containsChars sep x = false) := by
  have hcontains : ∀ (x t : List Char),
      (∀ i, i < x.length → ¬ sep <+: (x ++ t).drop i) → strings.containsChars sep x = false := by
    intro x t h
    have aux : ∀ (y : List Char) (k : Nat), k + y.length = x.length → y = x.drop k →
        strings.containsChars sep y = false := by
      intro y
      induction y with
      | nil =>
        intro k _ _
        cases sep with
        | nil => exact absurd rfl hsep
        | cons a as => rfl
      | cons c cs ih =>
        intro k hk hy
        rw [strings.containsChars]
        have h1 : ¬ sep <+: c :: cs := by
          intro hp
          apply h k (by simp at hk; omega)
          rw [List.drop_append_of_le_length (by simp at hk; omega), ← hy]
          exact hp.trans (List.prefix_append _ _)
        have h2 : sep.isPrefixOf (c :: cs) = false := by
          rw [Bool.eq_false_iff]
          intro hp
          exact h1 (List.isPrefixOf_iff_prefix.mp hp)
        rw [h2, Bool.false_or]
        apply ih (k + 1)
        · simp at hk ⊢; omega
        · have := congrArg List.tail hy
          simpa [List.drop_drop, Nat.add_comm] using this
    exact aux x 0 (by simp) (by simp)
  induction n with
  | zero =>
    intro s cur hs
    have : s = [] := List.length_eq_zero.mp (Nat.le_zero.mp hs)
    subst this
    refine ⟨cur.reverse, [], rfl, by simp [strings.replaceChars], by simp, ?_⟩
    intro hinv x hx
    simp only [List.mem_singleton] at hx
    subst hx
    exact hcontains cur.reverse [] (by simpa using hinv)
  | succ n ih =>
    intro s cur hs
    cases s with
    | nil =>
      refine ⟨cur.reverse, [], rfl, by simp [strings.replaceChars], by simp, ?_⟩
      intro hinv x hx
      simp only [List.mem_singleton] at hx
      subst hx
      exact hcontains cur.reverse [] (by simpa using hinv)
    | cons c cs =>
      by_cases hp : sep <+: c :: cs
      · obtain ⟨rest, hrest⟩ := hp
        cases sep with
        | nil => exact absurd rfl hsep
        | cons a sep' =>
          have hac : a = c := by
            have := congrArg List.head? hrest
            simpa using this
          subst hac
          have hcs : cs = sep' ++ rest := by
            have := congrArg List.tail hrest
            simpa using this.symm
          subst hcs
          have hlen : rest.length ≤ n := by
            simp at hs; omega
          obtain ⟨f, o, he, h1, h2, h3⟩ := ih rest [] hlen
          refine ⟨cur.reverse, f :: o, ?_, ?_, ?_, ?_⟩
          · have := splitChars_at_sep a sep' rest cur
            simp only [List.cons_append] at this
            rw [this, he]
          · have := replaceChars_at_old a sep' [] rest
            simp only [List.cons_append, List.nil_append] at this
            rw [this]
            simp only [List.flatMap_cons]
            rw [h1]
            simp
          · simp only [List.flatMap_cons]
            rw [List.append_assoc (a :: sep'), h2]
            simp
          · intro hinv x hx
            rcases List.mem_cons.mp hx with hx | hx
            · subst hx
              exact hcontains cur.reverse _ (by simpa using hinv)
            · exact h3 (by intro i hi; simp at hi) x hx
      · have hlen : cs.length ≤ n := by
          simp at hs; omega
        obtain ⟨f, o, he, h1, h2, h3⟩ := ih cs (c :: cur) hlen
        have hb : sep.isPrefixOf (c :: cs) = false := by
          rw [Bool.eq_false_iff]
          intro h
          exact hp (List.isPrefixOf_iff_prefix.mp h)
        refine ⟨f, o, ?_, ?_, ?_, ?_⟩
        · rw [strings.splitChars, hb]
          simpa using he
        · rw [h1, strings.replaceChars, hb]
          simp
        · rw [h2]
          simp
        · intro hinv
          apply h3
          intro i hi
          simp only [List.length_cons] at hi
          by_cases hi2 : i < cur.length
          · have := hinv i hi2
            simpa using this
          · have hi3 : i = cur.length := by omega
            subst hi3
            simpa [List.drop_append_of_le_length] using hp

/-- The pieces of `strings.Split` on a separator that is not empty, put together, are
what `strings.ReplaceAll` with an empty replacement returns; joined by the separator
they give the text back; no piece holds the separator. -/
theorem strings_Split_spec (s p : String) (hp : p ≠ "") :
    strings.Join (strings.Split s p) "" = strings.ReplaceAll s p "" ∧
    strings.Join (strings.Split s p) p = s ∧
    ∀ x ∈ strings.Split s p, strings.Contains x p = false := by
  have hd : p.data ≠ [] := by
    intro h
    apply hp
    exact String.ext h
  have hne : p.data.isEmpty = false := by
    cases hpd : p.data with
    | nil => exact absurd hpd hd
    | cons a as => rfl
  obtain ⟨f, o, he, h1, h2, h3⟩ := splitChars_spec p.data hd s.data.length s.data [] (Nat.le_refl _)
  have hsplit : strings.Split s p = String.mk f :: o.map String.mk := by
    simp only [strings.Split, hne, he, Bool.false_eq_true, if_false, List.map_cons]
  refine ⟨?_, ?_, ?_⟩
  · apply String.ext
    rw [hsplit, strings_Join_data]
    have hr : strings.ReplaceAll s p "" = String.mk (strings.replaceChars p.data [] s.data 0) := by
      simp only [strings.ReplaceAll, hp, hne, if_false, Bool.false_eq_true]
    rw [hr]
    simp only [List.reverse_nil, List.nil_append] at h1
    rw [← h1]
    simp [List.flatMap_map]
  · apply String.ext
    rw [hsplit, strings_Join_data]
    simp only [List.reverse_nil, List.nil_append] at h2
    rw [← h2]
    simp [List.flatMap_map]
  · intro x hx
    rw [hsplit] at hx
    have h3' := h3 (by intro i hi; simp at hi)
    simp only [List.mem_cons, List.mem_map] at hx
    rcases hx with hx | ⟨y, hy, hx⟩
    · subst hx
      exact h3' f (List.mem_cons_self _ _)
    · subst hx
      exact h3' y (List.mem_cons_of_mem _ hy)

/-- With an empty separator the pieces of `strings.Split` are the characters, and
put together they give the text back. -/
theorem strings_Split_empty (s : String) : strings.Join (strings.Split s "") "" = s := by
  apply String.ext
  cases hs : s.data with
  | nil =>
    have : strings.Split s "" = [] := by simp [strings.Split, hs]
    rw [this]
    rfl
  | cons c cs =>
    have : strings.Split s "" = String.mk [c] :: cs.map (fun c => String.mk [c]) := by
      simp [strings.Split, hs]
    rw [this, strings_Join_data]
    simp [List.flatMap_map]

/-- The rest of a text after a leading `p`, as `List.isPrefixOf?` gives it. -/
theorem isPrefixOf?_eq (p s : List Char) :
    p.isPrefixOf? s = if p.isPrefixOf s then some (s.drop p.length) else none := by
  induction p generalizing s with
  | nil => simp [List.isPrefixOf?]
  | cons a as ih =>
    cases s with
    | nil => simp [List.isPrefixOf?, List.isPrefixOf]
    | cons b bs =>
      simp only [List.isPrefixOf?, List.isPrefixOf, List.length_cons, List.drop_succ_cons]
      by_cases hab : a = b
      · subst hab
        simp [ih]
      · have : (a == b) = false := by simpa using hab
        simp [this]

/-- The start of a text before a trailing `p`, as `List.isSuffixOf?` gives it. -/
theorem isSuffixOf?_eq (p s : List Char) :
    p.isSuffixOf? s =
      if p.reverse.isPrefixOf s.reverse then some (s.take (s.length - p.length)) else none := by
  unfold List.isSuffixOf?
  rw [isPrefixOf?_eq]
  by_cases h : p.reverse.isPrefixOf s.reverse
  · simp only [h, if_true, Option.map_some', List.length_reverse]
    congr 1
    rw [List.drop_reverse, List.reverse_reverse]
  · simp [h]

/-! ## C23 -/

/-- C23. For every file name and every setting of the prefix, suffix and pattern
options, with no regular expression (the regex option empty or the compiled
expression nil), `renameFile` returns
`stripSuffix(stripPrefix(removeAll(filename, pattern), prefix), suffix)`: every
occurrence of the pattern is removed first, then one leading prefix where the result
starts with it, then one trailing suffix where that result ends with it. An empty
option changes nothing, as `removeAll`, `stripPrefix` and `stripSuffix` with the empty
text return their argument. -/
theorem renameFile_without_regex (IsLetterOrDigit : Char → Bool) (c : RenameCommand)
    (filename : String) (regex : Option regexp.Regexp) (h : c.regex = "" ∨ regex = none) :
    c.renameFile IsLetterOrDigit filename regex =
      stripSuffix (stripPrefix (removeAll filename c.pattern) c.prefix_) c.suffix ∧
    removeAll filename "" = filename ∧ stripPrefix filename "" = filename ∧
    stripSuffix filename "" = filename := by
  have hpre : ∀ s p : String, stripPrefix s p =
      if p ≠ "" ∧ strings.HasPrefix s p then strings.TrimPrefix s p else s := by
    intro s p
    unfold stripPrefix strings.TrimPrefix strings.HasPrefix
    rw [isPrefixOf?_eq]
    by_cases hp : p.data.isPrefixOf s.data
    · simp only [hp, if_true, and_true]
      by_cases he : p = ""
      · subst he
        simp
      · simp [he]
    · simp [hp]
  have hsuf : ∀ s p : String, stripSuffix s p =
      if p ≠ "" ∧ strings.HasSuffix s p then strings.TrimSuffix s p else s := by
    intro s p
    unfold stripSuffix strings.TrimSuffix strings.HasSuffix
    rw [isSuffixOf?_eq]
    by_cases hp : p.data.reverse.isPrefixOf s.data.reverse
    · simp only [hp, if_true, and_true]
      by_cases he : p = ""
      · subst he
        apply String.ext
        show List.take (s.data.length - 0) s.data = s.data
        rw [Nat.sub_zero, List.take_length]
      · simp [he]
    · simp [hp]
  have hrem : ∀ s p : String, removeAll s p =
      if p ≠ "" then strings.ReplaceAll s p "" else s := by
    intro s p
    unfold removeAll
    by_cases he : p = ""
    · subst he
      simp [strings_Split_empty]
    · simp only [ne_eq, he, not_false_eq_true, if_true]
      exact (strings_Split_spec s p he).1
  refine ⟨?_, ?_, ?_, ?_⟩
  · have hgoal : ∀ x : String, x = filename →
        (let result := x
         let result := if c.pattern ≠ "" then strings.ReplaceAll result c.pattern "" else result
         let result :=
           if c.prefix_ ≠ "" ∧ strings.HasPrefix result c.prefix_ then
             strings.TrimPrefix result c.prefix_
           else result
         let result :=
           if c.suffix ≠ "" ∧ strings.HasSuffix result c.suffix then
             strings.TrimSuffix result c.suffix
           else result
         result) =
        stripSuffix (stripPrefix (removeAll filename c.pattern) c.prefix_) c.suffix := by
      intro x hx
      subst hx
      simp only []
      rw [hsuf, hpre, hrem]
    rcases h with h | h
    · apply hgoal
      simp [h]
    · apply hgoal
      subst h
      simp
  · rw [hrem]; simp
  · rw [hpre]; simp
  · rw [hsuf]; simp

/-- C23 at concrete inputs, those of the tests: `Lk21.De-test_file_backup.txt` with
prefix `Lk21.De-`, suffix `_backup.txt` and pattern `_file_` gives `testbackup.txt`,
and a name that matches none of the options is returned unchanged. -/
theorem renameFile_without_regex_witness :
    ({ prefix_ := "Lk21.De-", suffix := "_backup.txt", pattern := "_file_" } :
        RenameCommand).renameFile asciiLetterOrDigit "Lk21.De-test_file_backup.txt" none =
      "testbackup.txt" ∧
    ({ prefix_ := "nonexistent_", suffix := "_nonexistent", pattern := "nonexistent" } :
        RenameCommand).renameFile asciiLetterOrDigit "normal_file.txt" none =
      "normal_file.txt" :=
  ⟨(renameFile_without_regex asciiLetterOrDigit
      { prefix_ := "Lk21.De-", suffix := "_backup.txt", pattern := "_file_" }
      "Lk21.De-test_file_backup.txt" none (Or.inr rfl)).1.trans (by decide),
   (renameFile_without_regex asciiLetterOrDigit
      { prefix_ := "nonexistent_", suffix := "_nonexistent", pattern := "nonexistent" }
      "normal_file.txt" none (Or.inr rfl)).1.trans (by decide)⟩

/-! ## C30 -/

/-- C30 as stated fails: with only the pattern option set, to `ab`, the file name
`aabb` becomes `ab`, which contains the pattern: the occurrence removed stood between
an `a` and a `b`. -/
theorem renameFile_pattern_result_contains_pattern :
    ({ pattern := "ab" } : RenameCommand).renameFile asciiLetterOrDigit "aabb" none = "ab" ∧
    strings.Contains
      (({ pattern := "ab" } : RenameCommand).renameFile asciiLetterOrDigit "aabb" none)
      "ab" = true := by
  decide

/-- C30, amended. For every file name and every pattern p that is not empty, with
only the pattern option set, the file name is pieces joined by p, no piece contains
p, and `renameFile` returns the pieces put together: the occurrences of p found
reading from left to right are removed, and p is in the result only where two pieces
meet. When p is a single character the result does not contain it. -/
theorem renameFile_pattern_removes_occurrences (IsLetterOrDigit : Char → Bool)
    (filename p : String) (regex : Option regexp.Regexp) (hp : p ≠ "") :
    strings.Join (strings.Split filename p) p = filename ∧
    (∀ piece ∈ strings.Split filename p, strings.Contains piece p = false) ∧
    ({ pattern := p } : RenameCommand).renameFile IsLetterOrDigit filename regex =
      strings.Join (strings.Split filename p) "" ∧
    (p.data.length = 1 →
      strings.Contains
        (({ pattern := p } : RenameCommand).renameFile IsLetterOrDigit filename regex) p =
        false) := by
  obtain ⟨h1, h2, h3⟩ := strings_Split_spec filename p hp
  have hr : ({ pattern := p } : RenameCommand).renameFile IsLetterOrDigit filename regex =
      strings.Join (strings.Split filename p) "" := by
    rw [h1]
    simp [RenameCommand.renameFile, hp, strings.HasPrefix, strings.HasSuffix]
  refine ⟨h2, h3, hr, ?_⟩
  intro hlen
  rw [hr]
  obtain ⟨a, ha⟩ : ∃ a, p.data = [a] := List.length_eq_one.mp hlen
  have hone : ∀ x : List Char, strings.containsChars [a] x = false ↔ a ∉ x := by
    intro x
    induction x with
    | nil => simp [strings.containsChars]
    | cons c cs ih =>
      simp only [strings.containsChars, List.isPrefixOf, Bool.or_eq_false_iff, ih,
        List.mem_cons, not_or, Bool.and_true]
      constructor
      · rintro ⟨h, h'⟩
        exact ⟨by simpa using h, h'⟩
      · rintro ⟨h, h'⟩
        exact ⟨by simpa using h, h'⟩
  have hpieces : ∀ piece ∈ strings.Split filename p, a ∉ piece.data := by
    intro piece hmem
    have := h3 piece hmem
    unfold strings.Contains at this
    rw [ha] at this
    exact (hone _).mp this
  unfold strings.Contains
  rw [ha, hone]
  cases hs : strings.Split filename p with
  | nil => simp [strings.Join]
  | cons e es =>
    rw [strings_Join_data]
    rw [hs] at hpieces
    simp only [List.mem_append, List.mem_flatMap, not_or, not_exists, not_and]
    refine ⟨hpieces e (List.mem_cons_self _ _), ?_⟩
    intro x hx
    exact ⟨List.not_mem_nil a, hpieces x (List.mem_cons_of_mem _ hx)⟩

/-- C30 amended, at a concrete input: the file name `prefix_middle_suffix.txt` of the
tests with the pattern `_middle_`. -/
theorem renameFile_pattern_removes_occurrences_witness :
    strings.Split "prefix_middle_suffix.txt" "_middle_" = ["prefix", "suffix.txt"] ∧
    ({ pattern := "_middle_" } : RenameCommand).renameFile asciiLetterOrDigit
      "prefix_middle_suffix.txt" none = "prefixsuffix.txt" :=
  ⟨by decide,
   (renameFile_pattern_removes_occurrences asciiLetterOrDigit "prefix_middle_suffix.txt"
      "_middle_" none (by decide)).2.2.1.trans (by decide)⟩

/-! ## C27 -/

/-- C27. For every block, `ValidateBlock` returns nil exactly when the Filename is
not empty, the Content is not empty, the Content is at most 10*1024*1024 bytes long
and the Filename holds none of the nine characters `<`, `>`, `:`, `"`, `/`, `\`, `|`,
`?`, `*`; in every other case it returns an error. -/
theorem ValidateBlock_nil_iff (block : CodeBlock) :
    (main.ValidateBlock block = none ↔
      block.Filename ≠ "" ∧ block.Content ≠ "" ∧
      block.Content.utf8ByteSize ≤ 10 * 1024 * 1024 ∧
      ∀ c ∈ ['<', '>', ':', '"', '/', '\\', '|', '?', '*'], c ∉ block.Filename.data) ∧
    ((main.ValidateBlock block).isSome ↔
      ¬ (block.Filename ≠ "" ∧ block.Content ≠ "" ∧
        block.Content.utf8ByteSize ≤ 10 * 1024 * 1024 ∧
        ∀ c ∈ ['<', '>', ':', '"', '/', '\\', '|', '?', '*'], c ∉ block.Filename.data)) := by
  have key : main.ValidateBlock block = none ↔
      block.Filename ≠ "" ∧ block.Content ≠ "" ∧
      block.Content.utf8ByteSize ≤ 10 * 1024 * 1024 ∧
      ∀ c ∈ ['<', '>', ':', '"', '/', '\\', '|', '?', '*'], c ∉ block.Filename.data := by
    have hchars : ("<>:\"/\\|?*" : String).data =
        ['<', '>', ':', '"', '/', '\\', '|', '?', '*'] := rfl
    unfold main.ValidateBlock
    by_cases h1 : block.Filename = ""
    · simp [h1]
    by_cases h2 : block.Content = ""
    · simp [h1, h2]
    by_cases h3 : block.Content.utf8ByteSize > 10 * 1024 * 1024
    · simp only [h1, h2, h3, if_true, if_false]
      constructor
      · intro h; cases h
      · intro h; omega
    have h3' : block.Content.utf8ByteSize ≤ 10 * 1024 * 1024 := by omega
    simp only [h1, h2, h3, if_false, ne_eq, not_false_eq_true, true_and, h3']
    by_cases h4 : strings.ContainsAny block.Filename "<>:\"/\\|?*" = true
    · simp only [h4, if_true]
      constructor
      · intro h; cases h
      · intro h
        exfalso
        simp only [strings.ContainsAny, hchars, List.any_eq_true] at h4
        obtain ⟨c, hc, hc2⟩ := h4
        have hmem : c ∈ ['<', '>', ':', '"', '/', '\\', '|', '?', '*'] := by
          simpa using hc2
        exact h c hmem hc
    · simp only [h4, Bool.false_eq_true, if_false, true_iff]
      intro c hc hmem
      apply h4
      simp only [strings.ContainsAny, hchars, List.any_eq_true]
      exact ⟨c, hmem, by simpa using hc⟩
  refine ⟨key, ?_⟩
  rw [← key]
  cases main.ValidateBlock block <;> simp

/-! ## C29 -/

/-- C29, at the failing input. Plugins `a` and `b` both declare the extension `.x`;
`a` is registered first, then `b`, so the extension table sends `.x` to `b` and
`GetPluginByExtension(".x")` resolves to `b`. `Unregister("a")` deletes the entry of
every extension `a` declares, whoever owns it now: afterwards `b` is still
registered and `GetPluginByExtension(".x")` finds no plugin. -/
theorem main_Unregister_drops_other_plugin_extension :
    main.Reachable strings.lowerASCII
      ((main.NewPluginRegistry.Register strings.lowerASCII
        (examplePlugin "a" [".x"] none)).registry.Register strings.lowerASCII
        (examplePlugin "b" [".x"] none)).registry ∧
    (((main.NewPluginRegistry.Register strings.lowerASCII
        (examplePlugin "a" [".x"] none)).registry.Register strings.lowerASCII
        (examplePlugin "b" [".x"] none)).registry.GetPlugin "a").map (fun p => p.Name) =
      some "a" ∧
    (((main.NewPluginRegistry.Register strings.lowerASCII
        (examplePlugin "a" [".x"] none)).registry.Register strings.lowerASCII
        (examplePlugin "b" [".x"] none)).registry.GetPluginByExtension strings.lowerASCII
        ".x").map (fun p => p.Name) = some "b" ∧
    ((((main.NewPluginRegistry.Register strings.lowerASCII
        (examplePlugin "a" [".x"] none)).registry.Register strings.lowerASCII
        (examplePlugin "b" [".x"] none)).registry.Unregister strings.lowerASCII "a").1.GetPlugin
        "b").map (fun p => p.Name) = some "b" ∧
    ((((main.NewPluginRegistry.Register strings.lowerASCII
        (examplePlugin "a" [".x"] none)).registry.Register strings.lowerASCII
        (examplePlugin "b" [".x"] none)).registry.Unregister strings.lowerASCII
        "a").1.GetPluginByExtension strings.lowerASCII ".x").isNone = true :=
  ⟨main.Reachable.register _ _ (main.Reachable.register _ _ main.Reachable.new),
   rfl, rfl, rfl, rfl⟩

/-! ## Lemmas on the file tree -/

/-- A path that names no node is the path of no node. -/
theorem lookup_none_filter (nodes : List (String × os.Node)) (n : String)
    (h : nodes.lookup n = none) : nodes.filter (fun e => e.1 ≠ n) = nodes := by
  induction nodes with
  | nil => rfl
  | cons e es ih =>
    obtain ⟨k, v⟩ := e
    simp only [List.lookup] at h
    by_cases hk : n = k
    · subst hk
      simp at h
    · have hne : (n == k) = false := by simpa using hk
      rw [hne] at h
      have hk' : k ≠ n := fun h' => hk h'.symm
      have ih' := ih h
      rw [List.filter_cons]
      simp only [ne_eq, hk', not_false_eq_true, decide_True, if_true]
      rw [ih']

/-- A successful `os.Rename` onto a path that names no node only changes paths: the
nodes are the same, in the same order. -/
theorem Rename_absent (t t' : os.FileTree) (oldpath newpath : String)
    (habs : t.find newpath = none) (h : os.Rename t oldpath newpath = .ok t') :
    t'.nodes.map Prod.snd = t.nodes.map Prod.snd := by
  have hf : t.nodes.filter (fun e => e.1 ≠ filepath.Clean newpath) = t.nodes :=
    lookup_none_filter _ _ habs
  unfold os.Rename at h
  simp only [hf, habs] at h
  split at h
  · cases h
  · split at h
    · cases h
    · split at h
      · cases h; rfl
      · split at h
        · cases h
        · cases h
          simp [List.map_map, Function.comp_def]
        · cases h
        · split at h
          · cases h
            simp [List.map_map, Function.comp_def]
          · cases h
        · split at h
          · cases h
          · cases h
            simp [List.map_map, Function.comp_def]

/-- What one step of the loop of `processDirectory` does without `-force`: it leaves
the tree as it is, or `os.Stat` has not found the new path and `os.Rename` onto it
has returned the tree of the next step. -/
theorem renameEntry_without_force (IsLetterOrDigit : Char → Bool) (c : RenameCommand)
    (regex : Option regexp.Regexp) (hforce : c.force = false) (dir name oldPath : String)
    (s : Nat × os.FileTree) :
    (c.renameEntry IsLetterOrDigit regex dir name oldPath s).2 = s.2 ∨
    (s.2.find (filepath.Join dir (c.renameFile IsLetterOrDigit name regex)) = none ∧
      os.Rename s.2 oldPath (filepath.Join dir (c.renameFile IsLetterOrDigit name regex)) =
        .ok (c.renameEntry IsLetterOrDigit regex dir name oldPath s).2) := by
  unfold RenameCommand.renameEntry
  simp only [hforce, Bool.not_false, Bool.true_and]
  by_cases h1 : c.renameFile IsLetterOrDigit name regex = name
  · left
    simp [h1]
  · simp only [h1, if_false]
    cases hfind : s.2.find (filepath.Join dir (c.renameFile IsLetterOrDigit name regex)) with
    | some node =>
      left
      simp [os.Stat, hfind, Except.toBool]
    | none =>
      have hstat : (os.Stat s.2 (filepath.Join dir
          (c.renameFile IsLetterOrDigit name regex))).toBool = false := by
        simp [os.Stat, hfind, Except.toBool]
      simp only [hstat, Bool.false_eq_true, if_false]
      by_cases hdry : c.dryRun = true
      · left
        simp [hdry]
      · simp only [hdry, Bool.not_false, Bool.not_eq_true] at *
        cases hren : os.Rename s.2 oldPath (filepath.Join dir
            (c.renameFile IsLetterOrDigit name regex)) with
        | error e =>
          left
          simp [hdry]
        | ok t' =>
          right
          simp [hdry]

/-- One step of the loop of `processDirectory` without `-force` keeps the nodes of the
tree. -/
theorem renameEntry_keeps_nodes (IsLetterOrDigit : Char → Bool) (c : RenameCommand)
    (regex : Option regexp.Regexp) (hforce : c.force = false) (dir name oldPath : String)
    (s : Nat × os.FileTree) :
    (c.renameEntry IsLetterOrDigit regex dir name oldPath s).2.nodes.map Prod.snd =
      s.2.nodes.map Prod.snd := by
  rcases renameEntry_without_force IsLetterOrDigit c regex hforce dir name oldPath s with h | h
  · rw [h]
  · exact Rename_absent _ _ _ _ h.1 h.2

/-- A property of the state that the walk function keeps holds after the walk. -/
theorem walk_keeps {σ : Type} (tree : σ → os.FileTree) (walkFn : String → os.Node → σ → σ)
    (P : σ → Prop) (hfn : ∀ path info s, P s → P (walkFn path info s)) (fuel : Nat) :
    ∀ (path : String) (s : σ), P s → P (filepath.walk tree walkFn fuel path s).1 := by
  induction fuel with
  | zero => intro path s hs; exact hs
  | succ fuel ih =>
    intro path s hs
    rw [filepath.walk]
    split
    · exact hs
    · exact hfn _ _ _ hs
    · have aux : ∀ (entries : List os.DirEntry) (r : σ × Option String), P r.1 →
          P (entries.foldl (fun (r : σ × Option String) entry =>
            match r.2 with
            | some err => (r.1, some err)
            | none => filepath.walk tree walkFn fuel (filepath.Join path entry.Name) r.1) r).1 := by
        intro entries
        induction entries with
        | nil => intro r hr; exact hr
        | cons e es ihe =>
          intro r hr
          rw [List.foldl_cons]
          apply ihe
          split
          · exact hr
          · exact ih _ _ hr
      exact aux _ _ (hfn _ _ _ hs)

/-- Without `-force`, `processDirectory` keeps the nodes of the tree: the same nodes
in the same order, under paths that may have changed. -/
theorem processDirectory_keeps_nodes (IsLetterOrDigit : Char → Bool) (c : RenameCommand)
    (regex : Option regexp.Regexp) (t : os.FileTree) (hforce : c.force = false) :
    (c.processDirectory IsLetterOrDigit regex t).tree.nodes.map Prod.snd =
      t.nodes.map Prod.snd := by
  unfold RenameCommand.processDirectory
  by_cases hrec : c.recursive = true
  · simp only [hrec, if_true]
    have hw := walk_keeps (fun (s : Nat × os.FileTree) => s.2) (c.walkFn IsLetterOrDigit regex)
      (fun s => s.2.nodes.map Prod.snd = t.nodes.map Prod.snd)
      (by
        intro path info s hs
        unfold RenameCommand.walkFn
        cases info with
        | dir => exact hs
        | file content =>
          show (c.renameEntry IsLetterOrDigit regex _ _ path s).2.nodes.map Prod.snd = _
          rw [renameEntry_keeps_nodes IsLetterOrDigit c regex hforce]
          exact hs)
      (t.nodes.length + 1) c.directory (0, t) rfl
    unfold filepath.Walk
    generalize filepath.walk (fun (s : Nat × os.FileTree) => s.2)
      (c.walkFn IsLetterOrDigit regex) (t.nodes.length + 1) c.directory (0, t) = r at hw ⊢
    obtain ⟨s, e⟩ := r
    cases e <;> exact hw
  · simp only [hrec, Bool.false_eq_true, if_false]
    cases os.ReadDir t c.directory with
    | error e => rfl
    | ok entries =>
      show (c.processEntries IsLetterOrDigit regex entries (0, t)).2.nodes.map Prod.snd = _
      unfold RenameCommand.processEntries
      have aux : ∀ (entries : List os.DirEntry) (s : Nat × os.FileTree),
          s.2.nodes.map Prod.snd = t.nodes.map Prod.snd →
          (entries.foldl (fun s entry =>
            if entry.IsDir then s
            else c.renameEntry IsLetterOrDigit regex c.directory entry.Name
              (filepath.Join c.directory entry.Name) s) s).2.nodes.map Prod.snd =
            t.nodes.map Prod.snd := by
        intro entries
        induction entries with
        | nil => intro s hs; exact hs
        | cons e es ih =>
          intro s hs
          rw [List.foldl_cons]
          apply ih
          split
          · exact hs
          · rw [renameEntry_keeps_nodes IsLetterOrDigit c regex hforce]
            exact hs
      exact aux entries (0, t) rfl

/-! ## C28 -/

/-- C28. Without `-force`, for every file tree and every setting of the other options,
in both modes: each step of `processDirectory` that changes the tree is an `os.Rename`
onto a path that `os.Stat` had not found in the tree as it was right before (the
step is the body of the loop over the entries and of the function given to
`filepath.Walk`); so the tree afterwards holds the same nodes, under paths that may
have changed, and the number of files is what it was. -/
theorem processDirectory_never_overwrites (IsLetterOrDigit : Char → Bool)
    (c : RenameCommand) (regex : Option regexp.Regexp) (t : os.FileTree)
    (hforce : c.force = false) :
    (∀ (dir name oldPath : String) (s : Nat × os.FileTree),
      (c.renameEntry IsLetterOrDigit regex dir name oldPath s).2 ≠ s.2 →
      s.2.find (filepath.Join dir (c.renameFile IsLetterOrDigit name regex)) = none ∧
      os.Rename s.2 oldPath (filepath.Join dir (c.renameFile IsLetterOrDigit name regex)) =
        .ok (c.renameEntry IsLetterOrDigit regex dir name oldPath s).2) ∧
    (c.processDirectory IsLetterOrDigit regex t).tree.nodes.map Prod.snd =
      t.nodes.map Prod.snd ∧
    (c.processDirectory IsLetterOrDigit regex t).tree.fileCount = t.fileCount := by
  have hnodes := processDirectory_keeps_nodes IsLetterOrDigit c regex t hforce
  refine ⟨?_, hnodes, ?_⟩
  · intro dir name oldPath s hne
    rcases renameEntry_without_force IsLetterOrDigit c regex hforce dir name oldPath s with h | h
    · exact absurd h hne
    · exact h
  · have hcount : ∀ nodes : List (String × os.Node),
        (nodes.filter (fun e => e.2 ≠ os.Node.dir)).length =
          ((nodes.map Prod.snd).filter (fun v => v ≠ os.Node.dir)).length := by
      intro nodes
      rw [List.filter_map, List.length_map]
      rfl
    unfold os.FileTree.fileCount
    rw [hcount, hcount, hnodes]

/-- C28 at a concrete input: the directory `d` with the files `ax` and `xa` and the
pattern `x`, in both modes; the file `xa`, whose new name is taken by then, stays. -/
theorem processDirectory_never_overwrites_witness :
    (({ directory := "d", pattern := "x" } : RenameCommand).processDirectory
        asciiLetterOrDigit none (exampleTree "d" ["ax", "xa"])).tree.nodes.map Prod.snd =
      [os.Node.dir, os.Node.file "ax", os.Node.file "xa"] ∧
    (({ directory := "d", pattern := "x", recursive := true } :
        RenameCommand).processDirectory
        asciiLetterOrDigit none (exampleTree "d" ["ax", "xa"])).tree.fileCount = 2 :=
  ⟨(processDirectory_never_overwrites asciiLetterOrDigit { directory := "d", pattern := "x" }
      none (exampleTree "d" ["ax", "xa"]) rfl).2.1.trans (by decide),
   (processDirectory_never_overwrites asciiLetterOrDigit
      { directory := "d", pattern := "x", recursive := true }
      none (exampleTree "d" ["ax", "xa"]) rfl).2.2.trans (by decide)⟩

/-! ## C25 -/

/-- C25, at the failing input. The directory `d` holds the files `ax` and `xa` and the
pattern `x` is to be removed, so both files get the new name `a`. A dry run leaves
the directory as it is and returns 2: neither target exists while nothing is
renamed. The same call without dry-run renames `ax` to `a`, finds the target of `xa`
taken, and returns 1. -/
theorem processDirectory_dry_run_count_differs :
    ({ directory := "d", pattern := "x", dryRun := true } : RenameCommand).processDirectory
        asciiLetterOrDigit none (exampleTree "d" ["ax", "xa"]) =
      { count := 2, err := none, tree := exampleTree "d" ["ax", "xa"] } ∧
    ({ directory := "d", pattern := "x" } : RenameCommand).processDirectory
        asciiLetterOrDigit none (exampleTree "d" ["ax", "xa"]) =
      { count := 1, err := none,
        tree := { nodes := [("d", os.Node.dir), ("d/a", os.Node.file "ax"),
                            ("d/xa", os.Node.file "xa")] } } := by
  decide

/-! ## Lemmas on the loop of `processDirectory` -/

/-- The node found at a path after the node at `o` has moved to the free path `n`. -/
theorem lookup_rekey (nodes : List (String × os.Node)) (o n p : String)
    (hn : nodes.lookup n = none) :
    (nodes.map (fun e => (if e.1 = o then n else e.1, e.2))).lookup p =
      if p = n then nodes.lookup o else if p = o then none else nodes.lookup p := by
  induction nodes with
  | nil => simp
  | cons e es ih =>
    obtain ⟨k, v⟩ := e
    have hkn : k ≠ n := by
      intro h
      subst h
      simp [List.lookup] at hn
    have hn' : es.lookup n = none := by
      have : (n == k) = false := by simpa using fun h : n = k => hkn h.symm
      simpa [List.lookup, this] using hn
    have ih' := ih hn'
    by_cases hko : k = o
    · subst hko
      simp only [List.map_cons, if_true]
      by_cases hpn : p = n
      · subst hpn
        simp [List.lookup]
      · have h1 : (p == n) = false := by simpa using hpn
        rw [List.lookup, h1]
        simp only [ih', hpn, if_false]
        by_cases hpk : p = k
        · subst hpk
          simp
        · have h2 : (p == k) = false := by simpa using hpk
          simp [List.lookup, hpk, h2]
    · simp only [List.map_cons, hko, if_false]
      have hok : (o == k) = false := by simpa using fun h : o = k => hko h.symm
      by_cases hpk : p = k
      · subst hpk
        simp [List.lookup, hkn, hko]
      · have h2 : (p == k) = false := by simpa using hpk
        rw [List.lookup, h2]
        simp only [ih']
        simp [List.lookup, hok, h2]

/-- A step of the loop of `processDirectory` on a file whose name changes, whose new
path is free and lies in a directory that exists: the file moves to the new path and
is counted. -/
theorem renameEntry_renames (IsLetterOrDigit : Char → Bool) (c : RenameCommand)
    (regex : Option regexp.Regexp) (hdry : c.dryRun = false) (dir f : String) (k : Nat)
    (T : os.FileTree) (content : String)
    (hch : c.renameFile IsLetterOrDigit f regex ≠ f)
    (hold : T.nodes.lookup (filepath.Join dir f) = some (os.Node.file content))
    (hclean : filepath.Clean (filepath.Join dir f) = filepath.Join dir f)
    (hnew : T.nodes.lookup
      (filepath.Clean (filepath.Join dir (c.renameFile IsLetterOrDigit f regex))) = none)
    (hparent : T.find (filepath.Dir
      (filepath.Clean (filepath.Join dir (c.renameFile IsLetterOrDigit f regex)))) =
        some os.Node.dir) :
    c.renameEntry IsLetterOrDigit regex dir f (filepath.Join dir f) (k, T) =
      (k + 1, { nodes := T.nodes.map (fun e =>
        (if e.1 = filepath.Join dir f then
          filepath.Clean (filepath.Join dir (c.renameFile IsLetterOrDigit f regex))
         else e.1, e.2)) }) := by
  have hfind : T.find (filepath.Join dir (c.renameFile IsLetterOrDigit f regex)) = none := hnew
  have hstat : (os.Stat T (filepath.Join dir
      (c.renameFile IsLetterOrDigit f regex))).toBool = false := by
    simp [os.Stat, hfind, Except.toBool]
  have hne : filepath.Join dir f ≠
      filepath.Clean (filepath.Join dir (c.renameFile IsLetterOrDigit f regex)) := by
    intro h
    rw [← h, hold] at hnew
    cases hnew
  have hren : os.Rename T (filepath.Join dir f)
      (filepath.Join dir (c.renameFile IsLetterOrDigit f regex)) =
      .ok { nodes := T.nodes.map (fun e =>
        (if e.1 = filepath.Join dir f then
          filepath.Clean (filepath.Join dir (c.renameFile IsLetterOrDigit f regex))
         else e.1, e.2)) } := by
    have hfo : T.find (filepath.Join dir f) = some (os.Node.file content) := by
      unfold os.FileTree.find
      rw [hclean, hold]
    unfold os.Rename
    have hkept := lookup_none_filter _ _ hnew
    simp only [ne_eq] at hkept
    simp only [hfo, hparent, hfind, hclean, hkept, ne_eq,
      not_true_eq_false, if_false, hne]
  unfold RenameCommand.renameEntry
  simp only [hch, if_false, hstat, Bool.and_false, Bool.false_eq_true, hdry, Bool.not_false,
    if_true, hren]

/-- The loop of renaming steps over the names `N`, for a step that leaves a file whose
name does not change (`ch`) and moves a file whose name changes from its path `old`
to its new path `tgt` when that path is free and its directory exists. If the paths
of the files are distinct and hold files, and the new paths are free, distinct and in
directories that exist, then every file whose name changes is counted and found at
its new path, its old path is free, and every other path names what it named. -/
theorem renameSteps_spec (old tgt : String → String) (ch : String → Bool)
    (step : Nat × os.FileTree → String → Nat × os.FileTree)
    (hun : ∀ s f, ch f = false → step s f = s)
    (hch : ∀ (k : Nat) (T : os.FileTree) (f content : String), ch f = true →
      filepath.Clean (old f) = old f →
      T.nodes.lookup (old f) = some (os.Node.file content) →
      T.nodes.lookup (tgt f) = none → T.find (filepath.Dir (tgt f)) = some os.Node.dir →
      step (k, T) f = (k + 1, { nodes := T.nodes.map (fun e =>
        (if e.1 = old f then tgt f else e.1, e.2)) })) :
    ∀ (N : List String) (k : Nat) (T : os.FileTree),
      (N.map old).Nodup →
      (∀ f ∈ N, filepath.Clean (old f) = old f) →
      (∀ f ∈ N, ∃ content, T.nodes.lookup (old f) = some (os.Node.file content)) →
      (∀ f ∈ N, ch f = true → T.nodes.lookup (tgt f) = none ∧
        T.find (filepath.Dir (tgt f)) = some os.Node.dir) →
      (∀ f ∈ N, ∀ g ∈ N, ch f = true → ch g = true → tgt f = tgt g → f = g) →
      (N.foldl step (k, T)).1 = k + (N.filter (fun f => ch f)).length ∧
      (∀ f ∈ N, ch f = true →
        (N.foldl step (k, T)).2.nodes.lookup (tgt f) = T.nodes.lookup (old f)) ∧
      (∀ f ∈ N, ch f = true → (N.foldl step (k, T)).2.nodes.lookup (old f) = none) ∧
      (∀ p, (∀ f ∈ N, ch f = true → p ≠ old f ∧ p ≠ tgt f) →
        (N.foldl step (k, T)).2.nodes.lookup p = T.nodes.lookup p) := by
  intro N
  induction N with
  | nil =>
    intro k T _ _ _ _ _
    exact ⟨by simp, by simp, by simp, fun p _ => rfl⟩
  | cons f N ih =>
    intro k T hnodup hclean hold hnew hinj
    have hclean' : ∀ g ∈ N, filepath.Clean (old g) = old g :=
      fun g hg => hclean g (List.mem_cons_of_mem _ hg)
    have hfN : old f ∉ N.map old := (List.nodup_cons.mp hnodup).1
    have hnodup' : (N.map old).Nodup := (List.nodup_cons.mp hnodup).2
    have hold' : ∀ g ∈ N, ∃ content, T.nodes.lookup (old g) = some (os.Node.file content) :=
      fun g hg => hold g (List.mem_cons_of_mem _ hg)
    have hnew' : ∀ g ∈ N, ch g = true → T.nodes.lookup (tgt g) = none ∧
        T.find (filepath.Dir (tgt g)) = some os.Node.dir :=
      fun g hg => hnew g (List.mem_cons_of_mem _ hg)
    have hinj' : ∀ a ∈ N, ∀ b ∈ N, ch a = true → ch b = true → tgt a = tgt b → a = b :=
      fun a ha b hb => hinj a (List.mem_cons_of_mem _ ha) b (List.mem_cons_of_mem _ hb)
    rw [List.foldl_cons]
    cases hc : ch f with
    | false =>
      rw [hun _ _ hc]
      obtain ⟨h1, h2, h3, h4⟩ := ih k T hnodup' hclean' hold' hnew' hinj'
      refine ⟨?_, ?_, ?_, ?_⟩
      · rw [h1]
        simp [List.filter_cons, hc]
      · intro g hg hcg
        rcases List.mem_cons.mp hg with h | h
        · subst h
          rw [hc] at hcg
          cases hcg
        · exact h2 g h hcg
      · intro g hg hcg
        rcases List.mem_cons.mp hg with h | h
        · subst h
          rw [hc] at hcg
          cases hcg
        · exact h3 g h hcg
      · intro p hp
        exact h4 p (fun g hg hcg => hp g (List.mem_cons_of_mem _ hg) hcg)
    | true =>
      obtain ⟨content, hof⟩ := hold f (List.mem_cons_self _ _)
      obtain ⟨hnf, hpf⟩ := hnew f (List.mem_cons_self _ _) hc
      rw [hch k T f content hc (hclean f (List.mem_cons_self _ _)) hof hnf hpf]
      have hlook := fun p => lookup_rekey T.nodes (old f) (tgt f) p hnf
      have hold_ne_tgt : ∀ g, (∃ content, T.nodes.lookup (old g) = some (os.Node.file content)) →
          ∀ a, T.nodes.lookup (tgt a) = none → old g ≠ tgt a := by
        intro g ⟨cg, hg⟩ a ha h
        rw [h, ha] at hg
        cases hg
      have hold2 : ∀ g ∈ N, ∃ content,
          (T.nodes.map (fun e => (if e.1 = old f then tgt f else e.1, e.2))).lookup (old g) =
            some (os.Node.file content) := by
        intro g hg
        obtain ⟨cg, hcg⟩ := hold' g hg
        refine ⟨cg, ?_⟩
        rw [hlook]
        have h1 : old g ≠ tgt f := hold_ne_tgt g ⟨cg, hcg⟩ f hnf
        have h2 : old g ≠ old f := by
          intro h
          apply hfN
          rw [← h]
          exact List.mem_map_of_mem _ hg
        simp only [h1, h2, if_false]
        exact hcg
      have hfnotin : f ∉ N := by
        intro h
        exact hfN (List.mem_map_of_mem _ h)
      have hnew2 : ∀ g ∈ N, ch g = true →
          (T.nodes.map (fun e => (if e.1 = old f then tgt f else e.1, e.2))).lookup (tgt g) =
            none ∧
          os.FileTree.find
            { nodes := T.nodes.map (fun e => (if e.1 = old f then tgt f else e.1, e.2)) }
            (filepath.Dir (tgt g)) = some os.Node.dir := by
        intro g hg hcg
        obtain ⟨hng, hpg⟩ := hnew' g hg hcg
        have h1 : tgt g ≠ tgt f := by
          intro h
          have := hinj g (List.mem_cons_of_mem _ hg) f (List.mem_cons_self _ _) hcg hc h
          rw [this] at hg
          exact hfnotin hg
        have h2 : tgt g ≠ old f := fun h => hold_ne_tgt f ⟨content, hof⟩ g hng h.symm
        constructor
        · rw [hlook]
          simp only [h1, h2, if_false]
          exact hng
        · unfold os.FileTree.find at hpg ⊢
          rw [hlook]
          have h3 : filepath.Clean (filepath.Dir (tgt g)) ≠ tgt f := by
            intro h
            rw [h, hnf] at hpg
            cases hpg
          have h4 : filepath.Clean (filepath.Dir (tgt g)) ≠ old f := by
            intro h
            rw [h, hof] at hpg
            cases hpg
          simp only [h3, h4, if_false]
          exact hpg
      obtain ⟨h1, h2, h3, h4⟩ := ih (k + 1)
        { nodes := T.nodes.map (fun e => (if e.1 = old f then tgt f else e.1, e.2)) }
        hnodup' hclean' hold2 hnew2 hinj'
      have hfree : ∀ g ∈ N, ch g = true → tgt f ≠ old g ∧ tgt f ≠ tgt g ∧ old f ≠ old g ∧
          old f ≠ tgt g := by
        intro g hg hcg
        obtain ⟨hng, _⟩ := hnew' g hg hcg
        refine ⟨?_, ?_, ?_, ?_⟩
        · exact fun h => hold_ne_tgt g (hold' g hg) f hnf h.symm
        · intro h
          have := hinj f (List.mem_cons_self _ _) g (List.mem_cons_of_mem _ hg) hc hcg h
          rw [← this] at hg
          exact hfnotin hg
        · intro h
          apply hfN
          rw [h]
          exact List.mem_map_of_mem _ hg
        · exact hold_ne_tgt f ⟨content, hof⟩ g hng
      refine ⟨?_, ?_, ?_, ?_⟩
      · rw [h1]
        simp [List.filter_cons, hc]
        omega
      · intro g hg hcg
        rcases List.mem_cons.mp hg with h | h
        · subst h
          rw [h4 (tgt g) (fun a ha hca =>
            ⟨(hfree a ha hca).1, (hfree a ha hca).2.1⟩), hlook]
          simp
        · rw [h2 g h hcg, hlook]
          have := hfree g h hcg
          have e1 : old g ≠ tgt f := fun e => this.1 e.symm
          have e2 : old g ≠ old f := fun e => this.2.2.1 e.symm
          simp [e1, e2]
      · intro g hg hcg
        rcases List.mem_cons.mp hg with h | h
        · subst h
          rw [h4 (old g) (fun a ha hca =>
            ⟨(hfree a ha hca).2.2.1, (hfree a ha hca).2.2.2⟩), hlook]
          have : old g ≠ tgt g := hold_ne_tgt g ⟨content, hof⟩ g hnf
          simp [this]
        · exact h3 g h hcg
      · intro p hp
        rw [h4 p (fun a ha hca => hp a (List.mem_cons_of_mem _ ha) hca), hlook]
        have := hp f (List.mem_cons_self _ _) hc
        simp [this.1, this.2]

/-- In a list of nodes with distinct paths, each node is the one found at its path. -/
theorem lookup_of_mem_nodup (nodes : List (String × os.Node)) (k : String) (v : os.Node)
    (hnodup : (nodes.map Prod.fst).Nodup) (hmem : (k, v) ∈ nodes) :
    nodes.lookup k = some v := by
  induction nodes with
  | nil => cases hmem
  | cons e es ih =>
    obtain ⟨k', v'⟩ := e
    simp only [List.map_cons, List.nodup_cons] at hnodup
    rcases List.mem_cons.mp hmem with h | h
    · cases h
      simp [List.lookup]
    · have hne : k ≠ k' := by
        intro heq
        subst heq
        exact hnodup.1 (List.mem_map_of_mem Prod.fst h)
      have : (k == k') = false := by simpa using hne
      rw [List.lookup, this]
      exact ih hnodup.2 h

/-- The loop of `processDirectory` over the entries is the loop of the renaming steps
over the names of the entries that are not directories. -/
theorem processEntries_names (IsLetterOrDigit : Char → Bool) (c : RenameCommand)
    (regex : Option regexp.Regexp) (entries : List os.DirEntry) (s : Nat × os.FileTree) :
    c.processEntries IsLetterOrDigit regex entries s =
      ((entries.filter (fun e => !e.IsDir)).map (fun e => e.Name)).foldl
        (fun s f => c.renameEntry IsLetterOrDigit regex c.directory f
          (filepath.Join c.directory f) s) s := by
  unfold RenameCommand.processEntries
  induction entries generalizing s with
  | nil => rfl
  | cons e es ih =>
    rw [List.foldl_cons, ih]
    cases h : e.IsDir <;> simp [List.filter_cons, h]

/-- The names of the entries of a directory that are not directories are, in some
order, the names of its regular files. -/
theorem entries_names_perm (t : os.FileTree) (dir : String) :
    (((t.entries dir).filter (fun e => !e.IsDir)).map (fun e => e.Name)).Perm
      (t.fileNames dir) := by
  unfold os.FileTree.entries os.FileTree.fileNames
  refine ((List.perm_insertionSort _ _).filter _ |>.map _).trans ?_
  rw [List.filter_map, List.map_map]
  apply List.Perm.of_eq
  congr 1
  apply List.filter_congr
  intro e _
  obtain ⟨k, v⟩ := e
  cases v <;> simp

/-- In a well-formed tree the regular files of a directory have distinct cleaned
paths, each of which names the file. -/
theorem fileNames_spec (t : os.FileTree) (dir : String) (hwf : t.WellFormed) :
    ((t.fileNames dir).map (filepath.Join dir)).Nodup ∧
    ∀ f ∈ t.fileNames dir, filepath.Clean (filepath.Join dir f) = filepath.Join dir f ∧
      ∃ content, t.nodes.lookup (filepath.Join dir f) = some (os.Node.file content) := by
  have hkid : ∀ e ∈ t.children dir, e ∈ t.nodes ∧ filepath.Join dir (filepath.Base e.1) = e.1 := by
    intro e he
    unfold os.FileTree.children at he
    rw [List.mem_filter] at he
    refine ⟨he.1, ?_⟩
    have := he.2
    simp only [Bool.and_eq_true, beq_iff_eq] at this
    exact this.2
  constructor
  · unfold os.FileTree.fileNames
    rw [List.map_map]
    have hmap : ((t.children dir).filter (fun e => e.2 ≠ os.Node.dir)).map
        (filepath.Join dir ∘ fun e => filepath.Base e.1) =
        ((t.children dir).filter (fun e => e.2 ≠ os.Node.dir)).map Prod.fst := by
      apply List.map_congr_left
      intro e he
      exact (hkid e (List.mem_filter.mp he).1).2
    rw [hmap]
    apply hwf.1.sublist
    apply List.Sublist.map
    exact (List.filter_sublist _).trans (List.filter_sublist _)
  · intro f hf
    unfold os.FileTree.fileNames at hf
    rw [List.mem_map] at hf
    obtain ⟨e, he, hef⟩ := hf
    rw [List.mem_filter] at he
    obtain ⟨hmem, hjoin⟩ := hkid e he.1
    rw [← hef, hjoin]
    refine ⟨hwf.2 e hmem, ?_⟩
    obtain ⟨k, v⟩ := e
    cases v with
    | dir => simp at he
    | file content => exact ⟨content, lookup_of_mem_nodup _ _ _ hwf.1 hmem⟩

/-! ## C24 -/

/-- C24 as stated fails. In the directory `d` with the files `ax` and `xa`, with the
pattern `x` to remove and no dry run, the new name `a` of both files is not a name
in the directory, and both names change; `processDirectory` renames `ax` to `a`,
skips `xa` because `a` exists by then, and returns 1, not 2; the directory still
holds `xa`. In the directory with the one file `x` the new name is empty, which is
no name in the directory either: the target is the directory itself, nothing is
renamed and the count is 0, not 1. -/
theorem processDirectory_new_names_collide :
    (∀ f ∈ ["ax", "xa"],
      ({ directory := "d", pattern := "x" } : RenameCommand).renameFile asciiLetterOrDigit f
        none ∉ ["ax", "xa"]) ∧
    (["ax", "xa"].filter (fun f =>
      ({ directory := "d", pattern := "x" } : RenameCommand).renameFile asciiLetterOrDigit f
        none ≠ f)).length = 2 ∧
    ({ directory := "d", pattern := "x" } : RenameCommand).processDirectory
        asciiLetterOrDigit none (exampleTree "d" ["ax", "xa"]) =
      { count := 1, err := none,
        tree := { nodes := [("d", os.Node.dir), ("d/a", os.Node.file "ax"),
                            ("d/xa", os.Node.file "xa")] } } ∧
    ({ directory := "d", pattern := "x" } : RenameCommand).renameFile asciiLetterOrDigit "x"
        none = "" ∧
    ({ directory := "d", pattern := "x" } : RenameCommand).processDirectory
        asciiLetterOrDigit none (exampleTree "d" ["x"]) =
      { count := 0, err := none, tree := exampleTree "d" ["x"] } := by
  decide

/-- C24, amended. In non-recursive mode without dry-run, for every well-formed file
tree in which the directory exists and the files whose name changes get new paths
that name nothing in the tree, lie in directories that exist and are distinct from
each other, `processDirectory` returns without an error a count equal to the number
of files f with `renameFile(f) ≠ f`, and afterwards every original file f is found,
with its content, under the name `renameFile(f)`, the old name of every file whose
name has changed names nothing, and every other path names what it named. -/
theorem processDirectory_renames (IsLetterOrDigit : Char → Bool) (c : RenameCommand)
    (regex : Option regexp.Regexp) (t : os.FileTree)
    (hrec : c.recursive = false) (hdry : c.dryRun = false) (hwf : t.WellFormed)
    (hdir : t.find c.directory = some os.Node.dir)
    (hfree : ∀ f ∈ c.changed IsLetterOrDigit regex t,
      t.find (filepath.Join c.directory (c.renameFile IsLetterOrDigit f regex)) = none)
    (hparent : ∀ f ∈ c.changed IsLetterOrDigit regex t,
      t.find (filepath.Dir (c.newPath IsLetterOrDigit regex f)) = some os.Node.dir)
    (hinj : ∀ f ∈ c.changed IsLetterOrDigit regex t, ∀ g ∈ c.changed IsLetterOrDigit regex t,
      c.newPath IsLetterOrDigit regex f = c.newPath IsLetterOrDigit regex g → f = g) :
    (c.processDirectory IsLetterOrDigit regex t).count =
      (c.changed IsLetterOrDigit regex t).length ∧
    (c.processDirectory IsLetterOrDigit regex t).err = none ∧
    (∀ f ∈ t.fileNames c.directory, ∃ content,
      t.find (filepath.Join c.directory f) = some (os.Node.file content) ∧
      (c.processDirectory IsLetterOrDigit regex t).tree.find
        (filepath.Join c.directory (c.renameFile IsLetterOrDigit f regex)) =
        some (os.Node.file content)) ∧
    (∀ f ∈ c.changed IsLetterOrDigit regex t,
      (c.processDirectory IsLetterOrDigit regex t).tree.find (filepath.Join c.directory f) =
        none) ∧
    (∀ p, (∀ f ∈ c.changed IsLetterOrDigit regex t,
        filepath.Clean p ≠ filepath.Join c.directory f ∧
        filepath.Clean p ≠ c.newPath IsLetterOrDigit regex f) →
      (c.processDirectory IsLetterOrDigit regex t).tree.find p = t.find p) := by
  obtain ⟨hnd, hfiles⟩ := fileNames_spec t c.directory hwf
  have hperm := entries_names_perm t c.directory
  have hmemN : ∀ f, f ∈ ((t.entries c.directory).filter (fun e => !e.IsDir)).map
      (fun e => e.Name) ↔ f ∈ t.fileNames c.directory := fun f => hperm.mem_iff
  have hchanged : ∀ f, f ∈ c.changed IsLetterOrDigit regex t ↔
      f ∈ t.fileNames c.directory ∧ c.renameFile IsLetterOrDigit f regex ≠ f := by
    intro f
    unfold RenameCommand.changed
    rw [List.mem_filter]
    simp
  have hout : c.processDirectory IsLetterOrDigit regex t =
      { count := ((((t.entries c.directory).filter (fun e => !e.IsDir)).map
            (fun e => e.Name)).foldl (fun s f => c.renameEntry IsLetterOrDigit regex
              c.directory f (filepath.Join c.directory f) s) (0, t)).1,
        err := none,
        tree := ((((t.entries c.directory).filter (fun e => !e.IsDir)).map
            (fun e => e.Name)).foldl (fun s f => c.renameEntry IsLetterOrDigit regex
              c.directory f (filepath.Join c.directory f) s) (0, t)).2 } := by
    unfold RenameCommand.processDirectory os.ReadDir
    simp only [hrec, Bool.false_eq_true, if_false, hdir]
    rw [processEntries_names]
  have key := renameSteps_spec (filepath.Join c.directory)
    (c.newPath IsLetterOrDigit regex)
    (fun f => decide (c.renameFile IsLetterOrDigit f regex ≠ f))
    (fun s f => c.renameEntry IsLetterOrDigit regex c.directory f
      (filepath.Join c.directory f) s)
    (by
      intro s f hf
      have : c.renameFile IsLetterOrDigit f regex = f := by simpa using hf
      simp [RenameCommand.renameEntry, this])
    (by
      intro k T f content hf hcl hold hnew hpar
      have hne : c.renameFile IsLetterOrDigit f regex ≠ f := by simpa using hf
      exact renameEntry_renames IsLetterOrDigit c regex hdry c.directory f k T content hne
        hold hcl hnew hpar)
    (((t.entries c.directory).filter (fun e => !e.IsDir)).map (fun e => e.Name)) 0 t
    ((hperm.map _).nodup_iff.mpr hnd)
    (fun f hf => (hfiles f ((hmemN f).mp hf)).1)
    (fun f hf => (hfiles f ((hmemN f).mp hf)).2)
    (by
      intro f hf hcf
      have hne : c.renameFile IsLetterOrDigit f regex ≠ f := by simpa using hcf
      have hmem := (hchanged f).mpr ⟨(hmemN f).mp hf, hne⟩
      exact ⟨hfree f hmem, hparent f hmem⟩)
    (by
      intro f hf g hg hcf hcg h
      have hnf : c.renameFile IsLetterOrDigit f regex ≠ f := by simpa using hcf
      have hng : c.renameFile IsLetterOrDigit g regex ≠ g := by simpa using hcg
      exact hinj f ((hchanged f).mpr ⟨(hmemN f).mp hf, hnf⟩) g
        ((hchanged g).mpr ⟨(hmemN g).mp hg, hng⟩) h)
  obtain ⟨k1, k2, k3, k4⟩ := key
  rw [hout]
  refine ⟨?_, rfl, ?_, ?_, ?_⟩
  · show _ = (c.changed IsLetterOrDigit regex t).length
    rw [k1, Nat.zero_add]
    exact (hperm.filter _).length_eq
  · intro f hf
    obtain ⟨hcl, content, hlook⟩ := hfiles f hf
    refine ⟨content, ?_, ?_⟩
    · unfold os.FileTree.find
      rw [hcl, hlook]
    · by_cases hne : c.renameFile IsLetterOrDigit f regex = f
      · rw [hne]
        show List.lookup (filepath.Clean (filepath.Join c.directory f)) _ = _
        rw [hcl, k4, hlook]
        intro g hg hcg
        have hng : c.renameFile IsLetterOrDigit g regex ≠ g := by simpa using hcg
        have hgm := (hmemN g).mp hg
        constructor
        · intro h
          have := List.inj_on_of_nodup_map hnd hf hgm h
          rw [← this] at hng
          exact hng hne
        · intro h
          have := hfree g ((hchanged g).mpr ⟨hgm, hng⟩)
          unfold os.FileTree.find at this
          unfold RenameCommand.newPath at h
          rw [← h, hlook] at this
          cases this
      · have := k2 f ((hmemN f).mpr hf) (by simpa using hne)
        show List.lookup (c.newPath IsLetterOrDigit regex f) _ = _
        rw [this, hlook]
  · intro f hf
    obtain ⟨hfm, hne⟩ := (hchanged f).mp hf
    show List.lookup (filepath.Clean (filepath.Join c.directory f)) _ = _
    rw [(hfiles f hfm).1]
    exact k3 f ((hmemN f).mpr hfm) (by simpa using hne)
  · intro p hp
    show List.lookup (filepath.Clean p) _ = List.lookup (filepath.Clean p) _
    apply k4
    intro f hf hcf
    have hne : c.renameFile IsLetterOrDigit f regex ≠ f := by simpa using hcf
    exact hp f ((hchanged f).mpr ⟨(hmemN f).mp hf, hne⟩)

/-- C24 amended, at a concrete input: the directory `d` with the files `Lk21.De-a.txt`
and `b.txt` and the prefix `Lk21.De-` to remove, as in the tests. One file is
renamed and both are found afterwards. -/
theorem processDirectory_renames_witness :
    (({ directory := "d", prefix_ := "Lk21.De-" } : RenameCommand).processDirectory
        asciiLetterOrDigit none (exampleTree "d" ["Lk21.De-a.txt", "b.txt"])).count = 1 ∧
    (({ directory := "d", prefix_ := "Lk21.De-" } : RenameCommand).processDirectory
        asciiLetterOrDigit none (exampleTree "d" ["Lk21.De-a.txt", "b.txt"])).tree =
      { nodes := [("d", os.Node.dir), ("d/a.txt", os.Node.file "Lk21.De-a.txt"),
                  ("d/b.txt", os.Node.file "b.txt")] } :=
  ⟨(processDirectory_renames asciiLetterOrDigit { directory := "d", prefix_ := "Lk21.De-" }
      none (exampleTree "d" ["Lk21.De-a.txt", "b.txt"]) rfl rfl (by decide) (by decide)
      (by decide) (by decide) (by decide)).1.trans (by decide),
   by decide⟩

/-! ## C21 -/

/-- C21, at the failing input. The files `a.txt` and `b.txt` both resolve to the
generic extractor, one object that the registry hands to every worker. Run one after
the other they give the pairs `(a.txt, 1)` and `(b.txt, 1)`, and so does the pool
with `parallel = 4` when the first worker finishes its file before the second starts.
When the second worker calls `Initialize` before the first has finished, and the
first then finishes, its `Cleanup` sets `patterns` to nil under the second worker,
whose `Extract` panics on the nil pattern: the pool returns no result at all. -/
theorem processFilesParallel_panics_on_shared_extractor :
    (({ parallel := 4 } : ExtractCommand).processFilesSequential strings.lowerASCII noFaults
        (twoFiles "a.txt" "x" "b.txt" "y y") ["a.txt", "b.txt"] genericRegistry).map
      (fun r => r.1.map (fun x => (x.SourceFile, x.CodeBlocks.length))) =
      .ok [("a.txt", 1), ("b.txt", 1)] ∧
    (({ parallel := 4 } : ExtractCommand).processFilesParallel strings.lowerASCII noFaults 4
        builtInObjects [0, 0, 0, 0, 0, 1, 1, 1, 1, 1, 0, 1, 2, 3]
        (twoFiles "a.txt" "x" "b.txt" "y y") ["a.txt", "b.txt"] genericRegistry).map
      (fun o => o.map (fun r => r.1.map (fun x => (x.SourceFile, x.CodeBlocks.length)))) =
      .ok (some [("a.txt", 1), ("b.txt", 1)]) ∧
    (({ parallel := 4 } : ExtractCommand).processFilesParallel strings.lowerASCII noFaults 4
        builtInObjects [0, 0, 1, 1, 0, 0, 0, 1]
        (twoFiles "a.txt" "x" "b.txt" "y y") ["a.txt", "b.txt"] genericRegistry).map
      (fun o => o.map (fun r => r.1.map (fun x => (x.SourceFile, x.CodeBlocks.length)))) =
      .error Panic.nilDereference :=
  ⟨rfl, rfl, rfl⟩

/-! ## C22 -/

/-- C22, at the failing input. With the files `a.txt` and `b.txt`, which both resolve
to the generic extractor, and two workers that take their steps in turn, the second
worker calls `Initialize` and `Extract` on the extractor while the first is between
its `Initialize` and its `Cleanup` on it: nothing in `processFilesParallel` or
`processSingleFile` keeps the workers apart. In this run both files give a result. -/
theorem processFilesParallel_shares_extractor :
    ({ parallel := 4 } : ExtractCommand).poolTrace strings.lowerASCII noFaults 4
        builtInObjects [0, 1, 0, 1, 0, 1, 0, 1, 0, 1, 0, 1, 2, 3]
        (twoFiles "a.txt" "x" "b.txt" "y y") ["a.txt", "b.txt"] genericRegistry =
      .ok [⟨0, PoolOp.Initialize, "generic"⟩, ⟨1, PoolOp.Initialize, "generic"⟩,
           ⟨0, PoolOp.Extract, "generic"⟩, ⟨1, PoolOp.Extract, "generic"⟩,
           ⟨0, PoolOp.Cleanup, "generic"⟩, ⟨1, PoolOp.Cleanup, "generic"⟩] ∧
    exclusive [⟨0, PoolOp.Initialize, "generic"⟩, ⟨1, PoolOp.Initialize, "generic"⟩,
           ⟨0, PoolOp.Extract, "generic"⟩, ⟨1, PoolOp.Extract, "generic"⟩,
           ⟨0, PoolOp.Cleanup, "generic"⟩, ⟨1, PoolOp.Cleanup, "generic"⟩] [] = false ∧
    (({ parallel := 4 } : ExtractCommand).processFilesParallel strings.lowerASCII noFaults 4
        builtInObjects [0, 1, 0, 1, 0, 1, 0, 1, 0, 1, 0, 1, 2, 3]
        (twoFiles "a.txt" "x" "b.txt" "y y") ["a.txt", "b.txt"] genericRegistry).map
      (fun o => o.map (fun r => r.1.map (fun x => (x.SourceFile, x.CodeBlocks.length)))) =
      .ok (some [("a.txt", 1), ("b.txt", 1)]) :=
  ⟨rfl, rfl, rfl⟩

/-! ## C26 -/

open regexp

/-! ## Lemmas on the parser of regular expressions -/

/-- The parser on a character that `QuoteMeta` leaves as it is: a literal. -/
theorem parseLoop_plain (c : Char) (hc : special c = false) (fuel : Nat) (t : List Char)
    (flags : Flags) (cur : Frame) (stack : List Frame) (ncap : Nat) (lr : Bool) :
    parseLoop (fuel + 1) (c :: t) flags cur stack ncap lr =
      parseLoop fuel t flags (push cur (Re.lit c)) stack ncap false := by
  simp only [special, Bool.or_eq_false_iff, decide_eq_false_iff_not] at hc
  obtain ⟨⟨⟨⟨⟨⟨⟨⟨⟨⟨⟨⟨⟨h1, h2⟩, h3⟩, h4⟩, h5⟩, h6⟩, h7⟩, h8⟩, h9⟩, h10⟩, h11⟩, h12⟩, h13⟩, h14⟩ := hc
  rw [parseLoop]
  · simp [h11]
  all_goals (intros; simp_all)

/-- The parser on a character that `QuoteMeta` has escaped: a literal. -/
theorem parseLoop_escaped (c : Char) (hc : special c = true) (fuel : Nat) (t : List Char)
    (flags : Flags) (cur : Frame) (stack : List Frame) (ncap : Nat) (lr : Bool) :
    parseLoop (fuel + 1) ('\\' :: c :: t) flags cur stack ncap lr =
      parseLoop fuel t flags (push cur (Re.lit c)) stack ncap false := by
  simp only [special, Bool.or_eq_true, decide_eq_true_eq] at hc
  rcases hc with ((((((((((((h | h) | h) | h) | h) | h) | h) | h) | h) | h) | h) | h) | h) | h <;>
    subst h <;> rfl

/-- The parser on a quoted text: one literal for each character of the text. -/
theorem parseLoop_quoted (s : List Char) :
    ∀ (fuel : Nat) (t : List Char) (flags : Flags) (cur : Frame) (stack : List Frame)
      (ncap : Nat) (lr : Bool),
    parseLoop (fuel + s.length) (quoteChars s ++ t) flags cur stack ncap lr =
      parseLoop fuel t flags { cur with seq := (s.map Re.lit).reverse ++ cur.seq } stack ncap
        (lr && s.isEmpty) := by
  induction s with
  | nil =>
    intro fuel t flags cur stack ncap lr
    simp [quoteChars]
  | cons c s ih =>
    intro fuel t flags cur stack ncap lr
    have hq : quoteChars (c :: s) ++ t =
        (if special c then ['\\', c] else [c]) ++ (quoteChars s ++ t) := by
      simp [quoteChars]
    rw [hq]
    have hf : fuel + (c :: s).length = (fuel + s.length) + 1 := by simp; omega
    rw [hf]
    cases hc : special c with
    | true =>
      simp only [if_true, List.cons_append, List.nil_append]
      rw [parseLoop_escaped c hc, ih]
      simp [push]
    | false =>
      simp only [Bool.false_eq_true, if_false, List.cons_append, List.nil_append]
      rw [parseLoop_plain c hc, ih]
      simp [push]

/-- A quoted text is at least as long as the text. -/
theorem length_quoteChars (s : List Char) : ∃ m, (quoteChars s).length = s.length + m := by
  induction s with
  | nil => exact ⟨0, rfl⟩
  | cons c s ih =>
    obtain ⟨m, hm⟩ := ih
    have hq : quoteChars (c :: s) = (if special c then ['\\', c] else [c]) ++ quoteChars s := by
      simp [quoteChars]
    cases hc : special c with
    | true => exact ⟨m + 1, by simp [hq, hc, hm]; omega⟩
    | false => exact ⟨m, by simp [hq, hc, hm]; omega⟩

/-- No lazy marker follows a repetition operator that stands before a quoted text,
when none follows the text. -/
theorem lazyMark_quoted (s t : List Char) (ht : t.head? ≠ some '?') :
    lazyMark (quoteChars s ++ t) = (false, quoteChars s ++ t) := by
  cases s with
  | nil =>
    simp only [quoteChars, List.flatMap_nil, List.nil_append]
    cases t with
    | nil => rfl
    | cons a as =>
      have : a ≠ '?' := by simpa using ht
      unfold lazyMark
      split
      · rename_i h; cases h; exact absurd rfl this
      · rfl
  | cons c s =>
    have hq : quoteChars (c :: s) ++ t =
        (if special c then ['\\', c] else [c]) ++ (quoteChars s ++ t) := by
      simp [quoteChars]
    rw [hq]
    cases hc : special c with
    | true => rfl
    | false =>
      have : c ≠ '?' := by
        intro h
        subst h
        simp [special] at hc
      simp only [Bool.false_eq_true, if_false, List.cons_append, List.nil_append]
      unfold lazyMark
      split
      · rename_i h; cases h; exact absurd rfl this
      · rfl

/-- The characters of a quoted text. -/
theorem QuoteMeta_data (s : String) : (QuoteMeta s).data = quoteChars s.data := rfl

/-- The parser on `+` after an item, with no lazy marker after it. -/
theorem parseLoop_plus_op (fuel : Nat) (t : List Char) (flags : Flags) (cur : Frame)
    (stack : List Frame) (ncap : Nat) (r : Re) (rs : List Re) (hseq : cur.seq = r :: rs)
    (hlazy : lazyMark t = (false, t)) :
    parseLoop (fuel + 1) ('+' :: t) flags cur stack ncap false =
      parseLoop fuel t flags { cur with seq := Re.plus r true :: rs } stack ncap true := by
  rw [parseLoop]
  simp [applyRepeat, hseq, hlazy]

/-- The parser on `?` after an item, with no lazy marker after it. -/
theorem parseLoop_quest_op (fuel : Nat) (t : List Char) (flags : Flags) (cur : Frame)
    (stack : List Frame) (ncap : Nat) (r : Re) (rs : List Re) (hseq : cur.seq = r :: rs)
    (hlazy : lazyMark t = (false, t)) :
    parseLoop (fuel + 1) ('?' :: t) flags cur stack ncap false =
      parseLoop fuel t flags { cur with seq := Re.quest r true :: rs } stack ncap true := by
  rw [parseLoop]
  simp [applyRepeat, hseq, hlazy]

/-- The parser on `func\s+` before a text with no lazy marker at its start. -/
theorem parseLoop_func_prefix (fuel : Nat) (t : List Char) (hlazy : lazyMark t = (false, t)) :
    parseLoop (fuel + 6) ('f' :: 'u' :: 'n' :: 'c' :: '\\' :: 's' :: '+' :: t) {} {} [] 0 false =
      parseLoop fuel t {}
        { seq := [Re.plus spaceClass true, Re.lit 'c', Re.lit 'n', Re.lit 'u', Re.lit 'f'] }
        [] 0 true := by
  have h5 : parseLoop (fuel + 6) ('f' :: 'u' :: 'n' :: 'c' :: '\\' :: 's' :: '+' :: t) {} {} [] 0
      false = parseLoop (fuel + 1) ('+' :: t) {}
        { seq := [spaceClass, Re.lit 'c', Re.lit 'n', Re.lit 'u', Re.lit 'f'] } [] 0 false := rfl
  rw [h5, parseLoop_plus_op fuel t {} _ [] 0 spaceClass _ rfl hlazy]

/-- The pattern of `getLineWithPattern` in `extractFunctions` compiles for every
name: `func`, white space, then the characters of the name. -/
theorem MustCompile_funcLine (name : String) :
    MustCompile ("func\\s+" ++ QuoteMeta name) =
      .ok { re := mkCat ((name.data.map Re.lit).reverse ++
              [Re.plus spaceClass true, Re.lit 'c', Re.lit 'n', Re.lit 'u', Re.lit 'f']),
            numSubexp := 0 } := by
  have hdata : ("func\\s+" ++ QuoteMeta name).data =
      'f' :: 'u' :: 'n' :: 'c' :: '\\' :: 's' :: '+' :: (quoteChars name.data ++ []) := by
    rw [String.data_append, QuoteMeta_data, List.append_nil]
    rfl
  obtain ⟨m, hm⟩ := length_quoteChars name.data
  have hfuel : ('f' :: 'u' :: 'n' :: 'c' :: '\\' :: 's' :: '+' ::
      (quoteChars name.data ++ [])).length + 1 = ((m + 2) + name.data.length) + 6 := by
    simp [hm]
    omega
  unfold MustCompile Compile
  rw [hdata, hfuel, parseLoop_func_prefix _ _ (lazyMark_quoted _ [] (by simp)),
    parseLoop_quoted]
  rfl

/-- The parser on what follows the name in the pattern of `extractFunctionBody`. -/
theorem parseLoop_bodyTail (m : Nat) (X : List Re) (lr : Bool) :
    parseLoop (m + 22) bodyTail.data {} { seq := X } [] 0 lr =
      .ok (mkAlt { seq := itemsRev bodyTail ++ X }, 0) := rfl

/-- The pattern of `extractFunctionBody` compiles for every name: `func`, white space,
the characters of the name, and the items for the parameters and the body. -/
theorem MustCompile_functionBody (name : String) :
    MustCompile ("func\\s+" ++ QuoteMeta name ++ bodyTail) =
      .ok { re := mkCat (itemsRev bodyTail ++ ((name.data.map Re.lit).reverse ++
              [Re.plus spaceClass true, Re.lit 'c', Re.lit 'n', Re.lit 'u', Re.lit 'f'])),
            numSubexp := 0 } := by
  have hdata : ("func\\s+" ++ QuoteMeta name ++ bodyTail).data =
      'f' :: 'u' :: 'n' :: 'c' :: '\\' :: 's' :: '+' :: (quoteChars name.data ++ bodyTail.data) := by
    rw [String.data_append, String.data_append, QuoteMeta_data, List.append_assoc]
    rfl
  obtain ⟨m, hm⟩ := length_quoteChars name.data
  have hfuel : ('f' :: 'u' :: 'n' :: 'c' :: '\\' :: 's' :: '+' ::
      (quoteChars name.data ++ bodyTail.data)).length + 1 =
      (((m + 21) + 22) + name.data.length) + 6 := by
    have : bodyTail.data.length = 41 := rfl
    simp [hm, this]
    omega
  unfold MustCompile Compile
  rw [hdata, hfuel, parseLoop_func_prefix _ _ (lazyMark_quoted _ _ (by decide)),
    parseLoop_quoted, parseLoop_bodyTail]
  rfl

/-- A pattern made of `func\s+`, a quoted name and a tail compiles for every name
when the parser gets through the tail after any items. -/
theorem MustCompile_func_tail (tail : String) (K : Nat) (hK : K ≤ tail.data.length + 1)
    (hhead : tail.data.head? ≠ some '?')
    (htail : ∀ (m : Nat) (X : List Re) (lr : Bool), ∃ re n,
      parseLoop (m + K) tail.data {} { seq := X } [] 0 lr = .ok (re, n)) (name : String) :
    ∃ re, MustCompile ("func\\s+" ++ QuoteMeta name ++ tail) = .ok re := by
  have hdata : ("func\\s+" ++ QuoteMeta name ++ tail).data =
      'f' :: 'u' :: 'n' :: 'c' :: '\\' :: 's' :: '+' :: (quoteChars name.data ++ tail.data) := by
    rw [String.data_append, String.data_append, QuoteMeta_data, List.append_assoc]
    rfl
  obtain ⟨m, hm⟩ := length_quoteChars name.data
  obtain ⟨j, hj⟩ : ∃ j, tail.data.length + 1 = K + j := ⟨tail.data.length + 1 - K, by omega⟩
  have hfuel : ('f' :: 'u' :: 'n' :: 'c' :: '\\' :: 's' :: '+' ::
      (quoteChars name.data ++ tail.data)).length + 1 =
      (((m + j + 1) + K) + name.data.length) + 6 := by
    simp only [List.length_cons, List.length_append, hm]
    omega
  obtain ⟨re, n, hre⟩ := htail (m + j + 1)
    ((name.data.map Re.lit).reverse ++
      [Re.plus spaceClass true, Re.lit 'c', Re.lit 'n', Re.lit 'u', Re.lit 'f'])
    (true && name.data.isEmpty)
  refine ⟨(⟨re, n⟩ : Regexp), ?_⟩
  unfold MustCompile Compile
  rw [hdata, hfuel, parseLoop_func_prefix _ _ (lazyMark_quoted _ _ hhead), parseLoop_quoted]
  simp only [hre]

/-- The pattern of `extractHttpHandlerBody` compiles for every name. -/
theorem MustCompile_handlerBody (name : String) :
    ∃ re, MustCompile ("func\\s+" ++ QuoteMeta name ++
      "\\s*\\(\\s*w\\s+http\\.ResponseWriter,\\s*r\\s+\\*http\\.Request\\s*\\)\\s*\\\x7b[^\x7d]*\\\x7d") =
      .ok re :=
  MustCompile_func_tail
    "\\s*\\(\\s*w\\s+http\\.ResponseWriter,\\s*r\\s+\\*http\\.Request\\s*\\)\\s*\\\x7b[^\x7d]*\\\x7d"
    70 (by decide) (by decide) (fun _ _ _ => ⟨_, _, rfl⟩) name

/-- The pattern of `extractMiddlewareBody` compiles for every name. -/
theorem MustCompile_middlewareBody (name : String) :
    ∃ re, MustCompile ("func\\s+" ++ QuoteMeta name ++
      "\\s*\\(\\s*next\\s+http\\.Handler\\s*\\)\\s*http\\.Handler\\s*\\\x7b[^\x7d]*\\\x7d") =
      .ok re :=
  MustCompile_func_tail
    "\\s*\\(\\s*next\\s+http\\.Handler\\s*\\)\\s*http\\.Handler\\s*\\\x7b[^\x7d]*\\\x7d"
    60 (by decide) (by decide) (fun _ _ _ => ⟨_, _, rfl⟩) name

/-- The pattern of `extractConstructorBody`, which holds the quoted name twice,
compiles for every name. -/
theorem MustCompile_constructorBody (name : String) :
    ∃ re, MustCompile ("func\\s+New" ++ QuoteMeta name ++ "\\s*\\([^)]*\\)(?:\\s+\\*?" ++
      QuoteMeta name ++ ")?\\s*\\\x7b[^\x7d]*\\\x7d") = .ok re := by
  have hdata : ("func\\s+New" ++ QuoteMeta name ++ "\\s*\\([^)]*\\)(?:\\s+\\*?" ++
      QuoteMeta name ++ ")?\\s*\\\x7b[^\x7d]*\\\x7d").data =
      "func\\s+New".data ++ (quoteChars name.data ++ ("\\s*\\([^)]*\\)(?:\\s+\\*".data ++
        ('?' :: (quoteChars name.data ++ ")?\\s*\\\x7b[^\x7d]*\\\x7d".data)))) := by
    simp only [String.data_append, QuoteMeta_data, List.append_assoc]
    rfl
  obtain ⟨m, hm⟩ := length_quoteChars name.data
  have hfuel : ("func\\s+New".data ++ (quoteChars name.data ++
      ("\\s*\\([^)]*\\)(?:\\s+\\*".data ++
        ('?' :: (quoteChars name.data ++ ")?\\s*\\\x7b[^\x7d]*\\\x7d".data))))).length + 1 =
      (((((m + m + 17) + 9) + name.data.length) + 1 + 10) + name.data.length) + 9 := by
    have h1 : "func\\s+New".data.length = 10 := rfl
    have h2 : "\\s*\\([^)]*\\)(?:\\s+\\*".data.length = 20 := rfl
    have h3 : ")?\\s*\\\x7b[^\x7d]*\\\x7d".data.length = 14 := rfl
    simp only [List.length_cons, List.length_append, hm, h1, h2, h3]
    omega
  have stepA : ∀ (f : Nat) (X : List Char),
      parseLoop (f + 9) ("func\\s+New".data ++ X) {} {} [] 0 false =
        parseLoop f X {}
          { seq := [Re.lit 'w', Re.lit 'e', Re.lit 'N', Re.plus spaceClass true, Re.lit 'c',
                    Re.lit 'n', Re.lit 'u', Re.lit 'f'] } [] 0 false := fun _ _ => rfl
  have stepC : ∀ (f : Nat) (Y : List Char) (X : List Re) (lr : Bool),
      parseLoop (f + 10) ("\\s*\\([^)]*\\)(?:\\s+\\*".data ++ Y) {} { seq := X } [] 0 lr =
        parseLoop f Y {} { seq := [Re.lit '*', Re.plus spaceClass true] }
          [{ seq := [Re.lit ')', Re.star (Re.cls true [(41, 41)]) true, Re.lit '(',
                     Re.star spaceClass true] ++ X }] 0 false := fun _ _ _ _ => rfl
  have stepF : ∀ (f : Nat) (X Z : List Re) (lr : Bool), ∃ re n,
      parseLoop (f + 9) ")?\\s*\\\x7b[^\x7d]*\\\x7d".data {} { seq := Z } [{ seq := X }] 0 lr =
        .ok (re, n) := fun _ _ _ _ => ⟨_, _, rfl⟩
  obtain ⟨re, n, hre⟩ := stepF (m + m + 17)
    ([Re.lit ')', Re.star (Re.cls true [(41, 41)]) true, Re.lit '(', Re.star spaceClass true] ++
      ((name.data.map Re.lit).reverse ++
        [Re.lit 'w', Re.lit 'e', Re.lit 'N', Re.plus spaceClass true, Re.lit 'c',
         Re.lit 'n', Re.lit 'u', Re.lit 'f']))
    ((name.data.map Re.lit).reverse ++ [Re.quest (Re.lit '*') true, Re.plus spaceClass true])
    (true && name.data.isEmpty)
  refine ⟨(⟨re, n⟩ : Regexp), ?_⟩
  unfold MustCompile Compile
  rw [hdata, hfuel, stepA, parseLoop_quoted, stepC,
    parseLoop_quest_op _ _ _ _ _ _ (Re.lit '*') [Re.plus spaceClass true] rfl
      (lazyMark_quoted _ _ (by decide)),
    parseLoop_quoted]
  simp only [hre]

/-! ## Lemmas on the matcher of regular expressions -/

/-- A concatenation matches as the sequence of its items. -/
theorem matchRe_mkCat (l : List Re) (st : MState) (k : MState → Option MState) :
    matchRe (mkCat l) st k = matchSeq l.reverse st k := by
  have hfold : ∀ (xs : List Re) (last : Re) (st : MState) (k : MState → Option MState),
      matchRe (xs.foldr Re.cat last) st k =
        matchSeq xs st (fun st2 => matchRe last st2 k) := by
    intro xs
    induction xs with
    | nil => intro last st k; rfl
    | cons x xs ih =>
      intro last st k
      simp only [List.foldr_cons, matchRe, matchSeq, ih]
  have happ : ∀ (xs : List Re) (last : Re) (st : MState) (k : MState → Option MState),
      matchSeq (xs ++ [last]) st k = matchSeq xs st (fun st2 => matchRe last st2 k) := by
    intro xs
    induction xs with
    | nil => intro last st k; rfl
    | cons x xs ih =>
      intro last st k
      show matchRe x st (fun st2 => matchSeq (xs ++ [last]) st2 k) = _
      have : (fun st2 => matchSeq (xs ++ [last]) st2 k) =
          fun st2 => matchSeq xs st2 (fun st3 => matchRe last st3 k) := by
        funext st2
        exact ih last st2 k
      rw [this]
      rfl
  cases l with
  | nil => rfl
  | cons r rs =>
    have : mkCat (r :: rs) = rs.reverse.foldr Re.cat r := by
      show rs.foldl (fun acc x => Re.cat x acc) r = _
      rw [List.foldr_reverse]
    rw [this, hfold, List.reverse_cons, happ]

/-- A sequence of two lists of items matches as the first, then the second. -/
theorem matchSeq_append (a b : List Re) (st : MState) (k : MState → Option MState) :
    matchSeq (a ++ b) st k = matchSeq a st (fun st2 => matchSeq b st2 k) := by
  induction a generalizing st k with
  | nil => rfl
  | cons x xs ih =>
    show matchRe x st (fun st2 => matchSeq (xs ++ b) st2 k) = _
    have : (fun st2 => matchSeq (xs ++ b) st2 k) =
        fun st2 => matchSeq xs st2 (fun st3 => matchSeq b st3 k) := by
      funext st2
      exact ih st2 k
    rw [this]
    rfl

/-- Reading one character keeps the state on the text and moves it forward. -/
theorem stepChar_calls (text : List Char) (ok : Char → Bool) (st : MState)
    (k : MState → Option MState) (r : MState) (hst : st.On text)
    (h : stepChar ok st k = some r) :
    ∃ st2, st2.On text ∧ st.pos ≤ st2.pos ∧ k st2 = some r := by
  unfold stepChar at h
  cases hrest : st.rest with
  | nil => simp [hrest] at h
  | cons c cs =>
    simp only [hrest] at h
    by_cases hok : ok c = true
    · simp only [hok, if_true] at h
      refine ⟨st.advance c cs, ⟨?_, ?_⟩, ?_, h⟩
      · show cs = text.drop (st.pos + 1)
        have h1 := hst.1
        rw [hrest] at h1
        rw [← List.drop_drop, ← h1]
        rfl
      · show st.pos + 1 ≤ text.length
        have h1 := hst.1
        rw [hrest] at h1
        by_contra hlt
        have : text.drop st.pos = [] := List.drop_eq_nil_of_le (by omega)
        rw [this] at h1
        cases h1
      · show st.pos ≤ st.pos + 1
        omega
    · simp [hok] at h

/-- A successful loop of a starred expression calls its continuation on a state on the
text that is not before the state it started from. -/
theorem starLoop_calls (text : List Char)
    (step : MState → (MState → Option MState) → Option MState)
    (hstep : ∀ (st : MState) (k : MState → Option MState) (r : MState), st.On text →
      step st k = some r → ∃ st2, st2.On text ∧ st.pos ≤ st2.pos ∧ k st2 = some r)
    (greedy : Bool) (n : Nat) :
    ∀ (st : MState) (k : MState → Option MState) (r : MState), st.On text →
      starLoop step greedy n st k = some r →
      ∃ st2, st2.On text ∧ st.pos ≤ st2.pos ∧ k st2 = some r := by
  induction n with
  | zero =>
    intro st k r hst h
    exact ⟨st, hst, Nat.le_refl _, h⟩
  | succ n ih =>
    intro st k r hst h
    have hagain : step st (fun st2 => if st2.pos > st.pos then starLoop step greedy n st2 k
        else k st2) = some r → ∃ st2, st2.On text ∧ st.pos ≤ st2.pos ∧ k st2 = some r := by
      intro h1
      obtain ⟨st2, hst2, hle, hk⟩ := hstep _ _ _ hst h1
      by_cases hgt : st2.pos > st.pos
      · simp only [hgt, if_true] at hk
        obtain ⟨st3, hst3, hle3, hk3⟩ := ih _ _ _ hst2 hk
        exact ⟨st3, hst3, by omega, hk3⟩
      · simp only [hgt, if_false] at hk
        exact ⟨st2, hst2, hle, hk⟩
    unfold starLoop at h
    cases greedy with
    | true =>
      simp only [if_true] at h
      cases h1 : step st (fun st2 => if st2.pos > st.pos then starLoop step true n st2 k
          else k st2) with
      | some v =>
        rw [h1] at h
        exact hagain (h1.trans h)
      | none =>
        rw [h1] at h
        exact ⟨st, hst, Nat.le_refl _, h⟩
    | false =>
      simp only [Bool.false_eq_true, if_false] at h
      cases h1 : k st with
      | some v =>
        rw [h1] at h
        exact ⟨st, hst, Nat.le_refl _, h1.trans h⟩
      | none =>
        rw [h1] at h
        exact hagain h

/-- A successful match calls its continuation on a state on the text that is not
before the state it started from. -/
theorem matchRe_calls (text : List Char) (re : Re) :
    ∀ (st : MState) (k : MState → Option MState) (r : MState), st.On text →
      matchRe re st k = some r →
      ∃ st2, st2.On text ∧ st.pos ≤ st2.pos ∧ k st2 = some r := by
  induction re with
  | empty => intro st k r hst h; exact ⟨st, hst, Nat.le_refl _, h⟩
  | lit c => intro st k r hst h; exact stepChar_calls text _ st k r hst h
  | cls neg rs => intro st k r hst h; exact stepChar_calls text _ st k r hst h
  | anyChar => intro st k r hst h; exact stepChar_calls text _ st k r hst h
  | anyCharNotNL => intro st k r hst h; exact stepChar_calls text _ st k r hst h
  | beginText | endText | beginLine | endLine | wordBoundary | noWordBoundary =>
    intro st k r hst h
    simp only [matchRe, assert] at h
    split at h
    · exact ⟨st, hst, Nat.le_refl _, h⟩
    · cases h
  | cap i r ih =>
    intro st k res hst h
    simp only [matchRe] at h
    obtain ⟨st2, hst2, hle, hk⟩ := ih _ _ _ hst h
    exact ⟨{ st2 with caps := (i, st.pos, st2.pos) :: st2.caps }, hst2, hle, hk⟩
  | cat a b iha ihb =>
    intro st k r hst h
    simp only [matchRe] at h
    obtain ⟨st2, hst2, hle, hk⟩ := iha _ _ _ hst h
    obtain ⟨st3, hst3, hle3, hk3⟩ := ihb _ _ _ hst2 hk
    exact ⟨st3, hst3, by omega, hk3⟩
  | alt a b iha ihb =>
    intro st k r hst h
    simp only [matchRe] at h
    cases h1 : matchRe a st k with
    | some v =>
      rw [h1] at h
      exact iha _ _ _ hst (h1.trans h)
    | none =>
      rw [h1] at h
      exact ihb _ _ _ hst h
  | star r greedy ih =>
    intro st k res hst h
    simp only [matchRe] at h
    exact starLoop_calls text _ ih greedy _ st k res hst h
  | plus r greedy ih =>
    intro st k res hst h
    simp only [matchRe] at h
    obtain ⟨st2, hst2, hle, hk⟩ := ih _ _ _ hst h
    obtain ⟨st3, hst3, hle3, hk3⟩ := starLoop_calls text _ ih greedy _ st2 k res hst2 hk
    exact ⟨st3, hst3, by omega, hk3⟩
  | quest r greedy ih =>
    intro st k res hst h
    simp only [matchRe] at h
    cases greedy with
    | true =>
      simp only [if_true] at h
      cases h1 : matchRe r st k with
      | some v =>
        rw [h1] at h
        exact ih _ _ _ hst (h1.trans h)
      | none =>
        rw [h1] at h
        exact ⟨st, hst, Nat.le_refl _, h⟩
    | false =>
      simp only [Bool.false_eq_true, if_false] at h
      cases h1 : k st with
      | some v =>
        rw [h1] at h
        exact ⟨st, hst, Nat.le_refl _, h1.trans h⟩
      | none =>
        rw [h1] at h
        exact ih _ _ _ hst h

/-- A successful match of a sequence calls its continuation on a state on the text
that is not before the state it started from. -/
theorem matchSeq_calls (text : List Char) (l : List Re) :
    ∀ (st : MState) (k : MState → Option MState) (r : MState), st.On text →
      matchSeq l st k = some r →
      ∃ st2, st2.On text ∧ st.pos ≤ st2.pos ∧ k st2 = some r := by
  induction l with
  | nil => intro st k r hst h; exact ⟨st, hst, Nat.le_refl _, h⟩
  | cons x xs ih =>
    intro st k r hst h
    obtain ⟨st2, hst2, hle, hk⟩ := matchRe_calls text x st _ r hst h
    obtain ⟨st3, hst3, hle3, hk3⟩ := ih _ _ _ hst2 hk
    exact ⟨st3, hst3, by omega, hk3⟩

/-- A successful match of literals, then other items: the text from the state on
starts with the characters of the literals, and the other items match after them. -/
theorem matchSeq_lits (text : List Char) (s : List Char) (R : List Re) :
    ∀ (st : MState) (k : MState → Option MState) (r : MState), st.On text →
      matchSeq (s.map Re.lit ++ R) st k = some r →
      ∃ st2, st2.On text ∧ st2.pos = st.pos + s.length ∧
        text.drop st.pos = s ++ text.drop st2.pos ∧ matchSeq R st2 k = some r := by
  induction s with
  | nil =>
    intro st k r hst h
    exact ⟨st, hst, rfl, rfl, h⟩
  | cons c cs ih =>
    intro st k r hst h
    have h' : stepChar (fun x => x = c) st
        (fun st2 => matchSeq (cs.map Re.lit ++ R) st2 k) = some r := h
    unfold stepChar at h'
    cases hrest : st.rest with
    | nil => simp [hrest] at h'
    | cons d ds =>
      simp only [hrest] at h'
      by_cases hd : d = c
      · subst hd
        simp only [decide_True, if_true] at h'
        have hdrop : text.drop st.pos = d :: ds := by rw [← hst.1, hrest]
        have hst1 : (st.advance d ds).On text := by
          constructor
          · show ds = text.drop (st.pos + 1)
            rw [← List.drop_drop, hdrop]
            rfl
          · show st.pos + 1 ≤ text.length
            by_contra hlt
            have : text.drop st.pos = [] := List.drop_eq_nil_of_le (by omega)
            rw [this] at hdrop
            cases hdrop
        obtain ⟨st2, hst2, hpos, htext, hk⟩ := ih _ _ _ hst1 h'
        refine ⟨st2, hst2, ?_, ?_, hk⟩
        · rw [hpos]
          show st.pos + 1 + cs.length = st.pos + (cs.length + 1)
          omega
        · rw [hdrop]
          have h2 : text.drop (st.pos + 1) = cs ++ text.drop st2.pos := htext
          rw [← List.drop_drop, hdrop] at h2
          simp only [List.drop_succ_cons, List.drop_zero] at h2
          rw [h2]
          rfl
      · simp [hd] at h'

/-- The search at the end of the text. -/
theorem search_nil (re : Re) (pos : Nat) (prev : Option Char) :
    search re [] pos prev =
      match matchRe re { pos := pos, prev := prev, rest := [] } some with
      | some st => some { start := pos, stop := st.pos, caps := st.caps }
      | none => none := by
  rw [search]

/-- The search before the end of the text. -/
theorem search_cons (re : Re) (c : Char) (cs : List Char) (pos : Nat) (prev : Option Char) :
    search re (c :: cs) pos prev =
      match matchRe re { pos := pos, prev := prev, rest := c :: cs } some with
      | some st => some { start := pos, stop := st.pos, caps := st.caps }
      | none => search re cs (pos + 1) (some c) := by
  rw [search]

/-- A match found by `search` from a position on: it starts at that position or
later, at a state on the text from which the expression matches up to its end. -/
theorem search_spec (text : List Char) (re : Re) :
    ∀ (rest : List Char) (pos : Nat) (prev : Option Char) (m : Match),
      rest = text.drop pos → pos ≤ text.length → search re rest pos prev = some m →
      ∃ st0 st, st0.On text ∧ st0.pos = m.start ∧ matchRe re st0 some = some st ∧
        m.stop = st.pos := by
  intro rest
  induction rest with
  | nil =>
    intro pos prev m hrest hpos h
    rw [search_nil] at h
    cases h1 : matchRe re { pos := pos, prev := prev, rest := [] } some with
    | some st =>
      simp only [h1] at h
      cases h
      exact ⟨{ pos := pos, prev := prev, rest := [] }, st, ⟨hrest, hpos⟩, rfl, h1, rfl⟩
    | none => simp [h1] at h
  | cons c cs ih =>
    intro pos prev m hrest hpos h
    rw [search_cons] at h
    cases h1 : matchRe re { pos := pos, prev := prev, rest := c :: cs } some with
    | some st =>
      simp only [h1] at h
      cases h
      exact ⟨{ pos := pos, prev := prev, rest := c :: cs }, st, ⟨hrest, hpos⟩, rfl, h1, rfl⟩
    | none =>
      simp only [h1] at h
      have hcs : cs = text.drop (pos + 1) := by
        rw [← List.drop_drop, ← hrest]
        rfl
      have hpos' : pos + 1 ≤ text.length := by
        by_contra hlt
        have : text.drop pos = [] := List.drop_eq_nil_of_le (by omega)
        rw [this] at hrest
        cases hrest
      exact ih (pos + 1) (some c) m hcs hpos' h

/-- A text that holds `p` between two texts contains `p`. -/
theorem containsChars_infix (p a b : List Char) : strings.containsChars p (a ++ p ++ b) = true := by
  induction a with
  | nil =>
    cases hp : p ++ b with
    | nil =>
      have h1 : p = [] := (List.append_eq_nil.mp hp).1
      have h2 : b = [] := (List.append_eq_nil.mp hp).2
      subst h1 h2
      rfl
    | cons c cs =>
      simp only [List.nil_append, hp, strings.containsChars, Bool.or_eq_true]
      left
      rw [← hp, List.isPrefixOf_iff_prefix]
      exact List.prefix_append _ _
  | cons x xs ih =>
    simp only [List.cons_append, strings.containsChars, Bool.or_eq_true]
    right
    simpa using ih

/-- The text `FindString` returns for an expression that starts with the literals of
`func`, white space and the literals of a name, then other items: nothing, or a text
that starts with `func` and contains the name. -/
theorem FindString_func_name (re : Regexp) (name : List Char) (tailRev : List Re)
    (hre : re.re = mkCat (tailRev ++ ((name.map Re.lit).reverse ++
      [Re.plus spaceClass true, Re.lit 'c', Re.lit 'n', Re.lit 'u', Re.lit 'f'])))
    (content : String) :
    re.FindString content = "" ∨
    ((∃ rest, (re.FindString content).data = 'f' :: 'u' :: 'n' :: 'c' :: rest) ∧
      strings.containsChars name (re.FindString content).data = true) := by
  unfold Regexp.FindString
  cases hs : search re.re content.data 0 none with
  | none => left; rfl
  | some m =>
    right
    obtain ⟨st0, st, hst0, hstart, hmatch, hstop⟩ :=
      search_spec content.data re.re content.data 0 none m rfl (Nat.zero_le _) hs
    have hrev : (tailRev ++ ((name.map Re.lit).reverse ++
        [Re.plus spaceClass true, Re.lit 'c', Re.lit 'n', Re.lit 'u', Re.lit 'f'])).reverse =
        ['f', 'u', 'n', 'c'].map Re.lit ++
          (Re.plus spaceClass true :: (name.map Re.lit ++ tailRev.reverse)) := by
      simp [List.reverse_append]
    rw [hre, matchRe_mkCat, hrev] at hmatch
    obtain ⟨st2, hst2, hpos2, htext2, hm2⟩ :=
      matchSeq_lits content.data ['f', 'u', 'n', 'c'] _ st0 some st hst0 hmatch
    obtain ⟨st3, hst3, hle3, hm3⟩ :=
      matchRe_calls content.data (Re.plus spaceClass true) st2 _ st hst2 hm2
    obtain ⟨st4, hst4, hpos4, htext4, hm4⟩ :=
      matchSeq_lits content.data name _ st3 some st hst3 hm3
    obtain ⟨st5, hst5, hle5, hm5⟩ := matchSeq_calls content.data _ st4 some st hst4 hm4
    have hst : st5 = st := by cases hm5; rfl
    subst hst
    show (∃ rest, ((content.data.drop m.start).take (m.stop - m.start)) =
        'f' :: 'u' :: 'n' :: 'c' :: rest) ∧
      strings.containsChars name ((content.data.drop m.start).take (m.stop - m.start)) = true
    rw [← hstart, hstop]
    have hlen : st2.pos = st0.pos + 4 := hpos2
    obtain ⟨A, hA, hlenA⟩ : ∃ A : List Char,
        content.data.drop st2.pos = A ++ content.data.drop st3.pos ∧
          A.length = st3.pos - st2.pos := by
      refine ⟨(content.data.drop st2.pos).take (st3.pos - st2.pos), ?_, ?_⟩
      · have h := (List.take_append_drop (st3.pos - st2.pos) (content.data.drop st2.pos)).symm
        rw [List.drop_drop] at h
        have : st2.pos + (st3.pos - st2.pos) = st3.pos := by omega
        rw [this] at h
        exact h
      · rw [List.length_take, List.length_drop]
        have := hst3.2
        omega
    obtain ⟨B, hB⟩ : ∃ B : List Char,
        (content.data.drop st0.pos).take (st5.pos - st0.pos) =
          'f' :: 'u' :: 'n' :: 'c' :: (A ++ (name ++ B)) := by
      refine ⟨(content.data.drop st4.pos).take (st5.pos - st4.pos), ?_⟩
      have hwhole : content.data.drop st0.pos =
          ('f' :: 'u' :: 'n' :: 'c' :: (A ++ name)) ++ content.data.drop st4.pos := by
        rw [htext2, hA, htext4]
        simp
      have hl : ('f' :: 'u' :: 'n' :: 'c' :: (A ++ name)).length ≤ st5.pos - st0.pos := by
        simp only [List.length_append, List.length_cons, hlenA]
        omega
      have hl2 : st5.pos - st0.pos - ('f' :: 'u' :: 'n' :: 'c' :: (A ++ name)).length =
          st5.pos - st4.pos := by
        simp only [List.length_append, List.length_cons, hlenA]
        omega
      rw [hwhole, List.take_append_eq_append_take, List.take_of_length_le hl, hl2]
      simp
    rw [hB]
    constructor
    · exact ⟨_, rfl⟩
    · have h := containsChars_infix name ('f' :: 'u' :: 'n' :: 'c' :: A) B
      simpa using h

set_option maxRecDepth 1000000

/-- `Contains` holds exactly when the index search finds an occurrence. -/
theorem containsChars_indexChars (p s : List Char) :
    strings.containsChars p s = (strings.indexChars p s).isSome := by
  induction s with
  | nil =>
    simp only [strings.containsChars, strings.indexChars]
    split <;> simp_all
  | cons c cs ih =>
    simp only [strings.containsChars, strings.indexChars, ih]
    by_cases h : p.isPrefixOf (c :: cs) = true
    · simp [h]
    · simp only [h, Bool.false_or, if_false]
      cases strings.indexChars p cs <;> rfl

/-- `Index` is not below the index of `func` in a text that starts with `func`, once
the substring occurs. -/
theorem Index_not_before_func (s sub : String) (rest : List Char)
    (hs : s.data = 'f' :: 'u' :: 'n' :: 'c' :: rest)
    (hc : strings.Contains s sub = true) :
    ¬ strings.Index s sub < strings.Index s "func" := by
  have hfunc : strings.Index s "func" = 0 := by
    have hi : strings.indexChars "func".data s.data = some 0 := by
      rw [hs]
      show strings.indexChars ['f', 'u', 'n', 'c'] ('f' :: 'u' :: 'n' :: 'c' :: rest) = some 0
      simp [strings.indexChars, List.isPrefixOf]
    unfold strings.Index
    rw [hi]
    rfl
  rw [hfunc]
  unfold strings.Contains at hc
  rw [containsChars_indexChars] at hc
  unfold strings.Index
  cases h : strings.indexChars sub.data s.data with
  | none => rw [h] at hc; cases hc
  | some i =>
    show ¬ (((String.mk (s.data.take i)).utf8ByteSize : Nat) : Int) < 0
    omega

/-- The line `getLineWithPattern` finds for `func`, white space and a name is empty or
starts with `func`. -/
theorem getLineWithPattern_func (content name : String) :
    ∃ line, plugins.GoExtractor.getLineWithPattern content ("func\\s+" ++ QuoteMeta name) = .ok line ∧
      (line = "" ∨ ∃ rest, line.data = 'f' :: 'u' :: 'n' :: 'c' :: rest) := by
  unfold plugins.GoExtractor.getLineWithPattern
  rw [MustCompile_funcLine]
  have h := FindString_func_name
    (⟨mkCat ((name.data.map Re.lit).reverse ++
      [Re.plus spaceClass true, Re.lit 'c', Re.lit 'n', Re.lit 'u', Re.lit 'f']), 0⟩ : Regexp)
    name.data [] rfl content
  by_cases he : (⟨mkCat ((name.data.map Re.lit).reverse ++
      [Re.plus spaceClass true, Re.lit 'c', Re.lit 'n', Re.lit 'u', Re.lit 'f']), 0⟩ :
        Regexp).FindString content = ""
  · refine ⟨"", ?_, Or.inl rfl⟩
    simp [he, bind, Except.bind, pure, Except.pure]
  · refine ⟨(⟨mkCat ((name.data.map Re.lit).reverse ++
      [Re.plus spaceClass true, Re.lit 'c', Re.lit 'n', Re.lit 'u', Re.lit 'f']), 0⟩ :
        Regexp).FindString content, ?_, ?_⟩
    · simp only [bind, Except.bind, pure, Except.pure, ne_eq, he, not_false_eq_true, if_true]
    · rcases h with h | h
      · exact absurd h he
      · exact Or.inr h.1

/-- The test of `extractFunctions` for a method never holds on such a line. -/
theorem method_test_false (line : String)
    (h : line = "" ∨ ∃ rest, line.data = 'f' :: 'u' :: 'n' :: 'c' :: rest) :
    (strings.Contains line "(" && strings.Contains line ")" &&
        strings.Contains line "func" &&
        decide (strings.Index line "(" < strings.Index line "func")) = false := by
  rcases h with h | ⟨rest, h⟩
  · subst h
    rfl
  · cases hc : strings.Contains line "("
    · rfl
    · have := Index_not_before_func line "(" rest h hc
      simp [this]

/-- The text `extractFunctionBody` returns is never empty and holds the name. -/
theorem extractFunctionBody_spec (content name : String) :
    ∃ body, plugins.GoExtractor.extractFunctionBody content name = .ok body ∧ body ≠ "" ∧
      strings.Contains body name = true := by
  unfold plugins.GoExtractor.extractFunctionBody
  have hc : MustCompile ("func\\s+" ++ QuoteMeta name ++
      "\\s*\\([^)]*\\)(?:\\s+\\([^)]*\\))?\\s*\\\x7b[^\x7d]*\\\x7d") =
      .ok (⟨mkCat (itemsRev bodyTail ++ ((name.data.map Re.lit).reverse ++
        [Re.plus spaceClass true, Re.lit 'c', Re.lit 'n', Re.lit 'u', Re.lit 'f'])), 0⟩ :
          Regexp) := MustCompile_functionBody name
  rw [hc]
  have h := FindString_func_name
    (⟨mkCat (itemsRev bodyTail ++ ((name.data.map Re.lit).reverse ++
      [Re.plus spaceClass true, Re.lit 'c', Re.lit 'n', Re.lit 'u', Re.lit 'f'])), 0⟩ : Regexp)
    name.data (itemsRev bodyTail) rfl content
  by_cases he : (⟨mkCat (itemsRev bodyTail ++ ((name.data.map Re.lit).reverse ++
      [Re.plus spaceClass true, Re.lit 'c', Re.lit 'n', Re.lit 'u', Re.lit 'f'])), 0⟩ :
        Regexp).FindString content = ""
  · refine ⟨"func " ++ name ++ "() \x7b\n\t// function body\n\x7d", ?_, ?_, ?_⟩
    · simp [he, bind, Except.bind, pure, Except.pure]
    · intro h0
      have := congrArg String.data h0
      simp only [String.data_append] at this
      cases this
    · show strings.containsChars name.data
        (("func " ++ name ++ "() \x7b\n\t// function body\n\x7d").data) = true
      simp only [String.data_append]
      exact containsChars_infix name.data _ _
  · refine ⟨(⟨mkCat (itemsRev bodyTail ++ ((name.data.map Re.lit).reverse ++
      [Re.plus spaceClass true, Re.lit 'c', Re.lit 'n', Re.lit 'u', Re.lit 'f'])), 0⟩ :
        Regexp).FindString content, ?_, he, ?_⟩
    · simp only [bind, Except.bind, pure, Except.pure, ne_eq, he, not_false_eq_true, if_true]
    · rcases h with h | h
      · exact absurd h he
      · exact h.2

/-- The compiled `function` pattern of the Go extractor of `pkg/plugins` has one
group. -/
theorem initialized_function_numSubexp :
    ((plugins.GoExtractor.initialized.patterns.lookup "function").map (fun re => re.numSubexp)) =
      some 1 := by decide!

/-- The other patterns `extractFunctions` looks up are in the table. -/
theorem initialized_patterns_present :
    (plugins.GoExtractor.initialized.patterns.lookup "error_return").isSome = true ∧
    (plugins.GoExtractor.initialized.patterns.lookup "constructor").isSome = true ∧
    (plugins.GoExtractor.initialized.patterns.lookup "http_handler").isSome = true ∧
    (plugins.GoExtractor.initialized.patterns.lookup "middleware").isSome = true := by decide!

/-- A pattern in the table is what `patternOf` returns. -/
theorem patternOf_of_isSome (ps : List (String × Regexp)) (name : String)
    (h : (ps.lookup name).isSome = true) : ∃ re, patternOf ps name = .ok re := by
  unfold patternOf
  cases hl : ps.lookup name with
  | none => rw [hl] at h; cases h
  | some re => exact ⟨re, rfl⟩

/-- A loop whose body gives one block per match gives the blocks of the matches, in
order. -/
theorem collectBlocks_one (body : List String → Except Panic (List CodeBlock))
    (R : List String → CodeBlock → Prop) (ms : List (List String))
    (h : ∀ m ∈ ms, ∃ b, body m = .ok [b] ∧ R m b) :
    ∃ bs, collectBlocks body ms = .ok bs ∧ List.Forall₂ R ms bs := by
  induction ms with
  | nil => exact ⟨[], rfl, List.Forall₂.nil⟩
  | cons m rest ih =>
    obtain ⟨b, hb, hR⟩ := h m (List.mem_cons_self _ _)
    obtain ⟨bs, hbs, hF⟩ := ih (fun m' hm' => h m' (List.mem_cons_of_mem _ hm'))
    refine ⟨b :: bs, ?_, List.Forall₂.cons hR hF⟩
    simp only [collectBlocks, hb, hbs, bind, Except.bind, pure, Except.pure]
    rfl

/-- A loop whose body never panics returns, and its blocks are blocks of the body. -/
theorem collectBlocks_all (body : List String → Except Panic (List CodeBlock))
    (P : CodeBlock → Prop) (ms : List (List String))
    (h : ∀ m, ∃ bs, body m = .ok bs ∧ ∀ b ∈ bs, P b) :
    ∃ bs, collectBlocks body ms = .ok bs ∧ ∀ b ∈ bs, P b := by
  induction ms with
  | nil => exact ⟨[], rfl, fun _ hb => absurd hb (List.not_mem_nil _)⟩
  | cons m rest ih =>
    obtain ⟨b1, hb1, hP1⟩ := h m
    obtain ⟨bs, hbs, hP⟩ := ih
    refine ⟨b1 ++ bs, ?_, ?_⟩
    · simp only [collectBlocks, hb1, hbs, bind, Except.bind, pure, Except.pure]
    · intro b hb
      rcases List.mem_append.mp hb with hb | hb
      · exact hP1 b hb
      · exact hP b hb

/-- Every match of a pattern with `n` groups is a list of `n + 1` texts. -/
theorem FindAllStringSubmatch_length (re : Regexp) (s : String) (m : List String)
    (hm : m ∈ re.FindAllStringSubmatch s) : m.length = re.numSubexp + 1 := by
  unfold Regexp.FindAllStringSubmatch at hm
  obtain ⟨x, _, hx⟩ := List.mem_map.mp hm
  rw [← hx]
  simp [submatches]

section GoFunctionBlocks

variable (ToLower : String → String)

/-- The first loop body of `extractFunctions` on a match with one group: one block of
type `function`, whose content is not empty and holds the name. -/
theorem functionBlockOf_spec (errorRe : Regexp)
    (e : plugins.GoExtractor) (he : patternOf e.patterns "error_return" = .ok errorRe)
    (content packageName : String) (imports : List String) (whole name : String) :
    ∃ b, e.functionBlockOf ToLower content packageName imports [whole, name] = .ok [b] ∧
      b.BlockType = "function" ∧ b.Content ≠ "" ∧ strings.Contains b.Content name = true := by
  obtain ⟨line, hline, hl⟩ := getLineWithPattern_func content name
  obtain ⟨body, hbody, hne, hcon⟩ := extractFunctionBody_spec content name
  have htest := method_test_false line hl
  refine ⟨{ Content := body, BlockType := "function", Package := packageName,
            Filename := plugins.GoExtractor.functionToFilename ToLower name, Language := "go",
            Imports := imports,
            Modifiers := if errorRe.MatchString body then ["error"] else [] }, ?_, ?_⟩
  · simp only [plugins.GoExtractor.functionBlockOf, hline, hbody, he, htest, bind, Except.bind, pure,
      Except.pure, Bool.false_eq_true, if_false]
  · exact ⟨rfl, hne, hcon⟩

/-- The loop body for constructors returns, and never a block of type `function`. -/
theorem constructorBlockOf_spec (content packageName : String) (imports : List String)
    (m : List String) :
    ∃ bs, plugins.GoExtractor.constructorBlockOf ToLower content packageName imports m = .ok bs ∧
      ∀ b ∈ bs, b.BlockType ≠ "function" := by
  unfold plugins.GoExtractor.constructorBlockOf
  split
  · rename_i typeName _
    obtain ⟨body, hbody⟩ : ∃ body, plugins.GoExtractor.extractConstructorBody content typeName = .ok body := by
      obtain ⟨re, hre⟩ := MustCompile_constructorBody typeName
      simp only [plugins.GoExtractor.extractConstructorBody, hre, bind, Except.bind, pure, Except.pure]
      split <;> exact ⟨_, rfl⟩
    simp only [hbody, bind, Except.bind, pure, Except.pure]
    refine ⟨_, rfl, ?_⟩
    intro b hb
    rw [List.mem_singleton] at hb
    subst hb
    show ¬ "constructor" = "function"
    decide
  · exact ⟨[], rfl, fun _ hb => absurd hb (List.not_mem_nil _)⟩

/-- The loop body for handlers returns, and never a block of type `function`. -/
theorem handlerBlockOf_spec (content packageName : String) (imports : List String)
    (m : List String) :
    ∃ bs, plugins.GoExtractor.handlerBlockOf ToLower content packageName imports m = .ok bs ∧
      ∀ b ∈ bs, b.BlockType ≠ "function" := by
  unfold plugins.GoExtractor.handlerBlockOf
  split
  · rename_i handlerName _
    obtain ⟨body, hbody⟩ : ∃ body, plugins.GoExtractor.extractHttpHandlerBody content handlerName = .ok body := by
      obtain ⟨re, hre⟩ := MustCompile_handlerBody handlerName
      simp only [plugins.GoExtractor.extractHttpHandlerBody, hre, bind, Except.bind, pure, Except.pure]
      split <;> exact ⟨_, rfl⟩
    simp only [hbody, bind, Except.bind, pure, Except.pure]
    refine ⟨_, rfl, ?_⟩
    intro b hb
    rw [List.mem_singleton] at hb
    subst hb
    show ¬ "http_handler" = "function"
    decide
  · exact ⟨[], rfl, fun _ hb => absurd hb (List.not_mem_nil _)⟩

/-- The loop body for middleware returns, and never a block of type `function`. -/
theorem middlewareBlockOf_spec (content packageName : String) (imports : List String)
    (m : List String) :
    ∃ bs, plugins.GoExtractor.middlewareBlockOf ToLower content packageName imports m = .ok bs ∧
      ∀ b ∈ bs, b.BlockType ≠ "function" := by
  unfold plugins.GoExtractor.middlewareBlockOf
  split
  · rename_i middlewareName _
    obtain ⟨body, hbody⟩ : ∃ body, plugins.GoExtractor.extractMiddlewareBody content middlewareName = .ok body := by
      obtain ⟨re, hre⟩ := MustCompile_middlewareBody middlewareName
      simp only [plugins.GoExtractor.extractMiddlewareBody, hre, bind, Except.bind, pure, Except.pure]
      split <;> exact ⟨_, rfl⟩
    simp only [hbody, bind, Except.bind, pure, Except.pure]
    refine ⟨_, rfl, ?_⟩
    intro b hb
    rw [List.mem_singleton] at hb
    subst hb
    show ¬ "middleware" = "function"
    decide
  · exact ⟨[], rfl, fun _ hb => absurd hb (List.not_mem_nil _)⟩

end GoFunctionBlocks

/-- A pairing of two lists in which every right element has a property: the property
holds on all of the right list, and the pairing holds without it. -/
theorem Forall₂_split_right {α β : Type} (R : α → β → Prop) (Q : β → Prop) (l1 : List α)
    (l2 : List β) (h : List.Forall₂ (fun a b => Q b ∧ R a b) l1 l2) :
    (∀ b ∈ l2, Q b) ∧ List.Forall₂ R l1 l2 := by
  induction h with
  | nil => exact ⟨fun _ hb => absurd hb (List.not_mem_nil _), List.Forall₂.nil⟩
  | cons hab _ ih =>
    refine ⟨?_, List.Forall₂.cons hab.2 ih.2⟩
    intro b hb
    rcases List.mem_cons.mp hb with hb | hb
    · rw [hb]; exact hab.1
    · exact ih.1 b hb

/-- Filtering by a property that no element has leaves nothing. -/
theorem filter_none {β : Type} (p : β → Bool) (l : List β) (h : ∀ b ∈ l, p b = false) :
    l.filter p = [] := by
  induction l with
  | nil => rfl
  | cons x xs ih =>
    rw [List.filter_cons, h x (List.mem_cons_self _ _)]
    exact ih (fun b hb => h b (List.mem_cons_of_mem _ hb))

/-- Filtering by a property that every element has leaves the list. -/
theorem filter_all {β : Type} (p : β → Bool) (l : List β) (h : ∀ b ∈ l, p b = true) :
    l.filter p = l := by
  induction l with
  | nil => rfl
  | cons x xs ih =>
    rw [List.filter_cons, h x (List.mem_cons_self _ _), if_pos rfl,
      ih (fun b hb => h b (List.mem_cons_of_mem _ hb))]

/-- C26: in the Go extractor of `pkg/plugins`, for every content `extractFunctions`
returns, and its blocks of type `function` are, in order, one per match of the
`function` pattern: each match is the whole text and the function name, and the block
of the match has a non-empty content that contains this name. No match is skipped as
a method. -/
theorem extractFunctions_one_function_block_per_match (ToLower : String → String)
    (content packageName : String) (imports : List String) :
    ∃ functionRe blocks,
      patternOf plugins.GoExtractor.initialized.patterns "function" = .ok functionRe ∧
      plugins.GoExtractor.initialized.extractFunctions ToLower content packageName imports =
        .ok blocks ∧
      List.Forall₂
        (fun m b => ∃ whole name, m = [whole, name] ∧ b.Content ≠ "" ∧
          strings.Contains b.Content name = true)
        (functionRe.FindAllStringSubmatch content)
        (blocks.filter (fun b => b.BlockType = "function")) := by
  have hn := initialized_function_numSubexp
  obtain ⟨h1, h2, h3, h4⟩ := initialized_patterns_present
  obtain ⟨errorRe, herr⟩ := patternOf_of_isSome _ _ h1
  obtain ⟨constructorRe, hcons⟩ := patternOf_of_isSome _ _ h2
  obtain ⟨handlerRe, hhand⟩ := patternOf_of_isSome _ _ h3
  obtain ⟨middlewareRe, hmid⟩ := patternOf_of_isSome _ _ h4
  obtain ⟨functionRe, hfun, hsub⟩ : ∃ re,
      patternOf plugins.GoExtractor.initialized.patterns "function" = .ok re ∧
        re.numSubexp = 1 := by
    unfold patternOf
    cases hl : plugins.GoExtractor.initialized.patterns.lookup "function" with
    | none => rw [hl] at hn; cases hn
    | some re =>
      rw [hl] at hn
      exact ⟨re, rfl, Option.some.inj hn⟩
  obtain ⟨b1, hb1, hF⟩ := collectBlocks_one
    (plugins.GoExtractor.initialized.functionBlockOf ToLower content packageName imports)
    (fun m b => b.BlockType = "function" ∧ ∃ whole name, m = [whole, name] ∧ b.Content ≠ "" ∧
      strings.Contains b.Content name = true)
    (functionRe.FindAllStringSubmatch content)
    (by
      intro m hm
      have hlen := FindAllStringSubmatch_length functionRe content m hm
      rw [hsub] at hlen
      obtain ⟨whole, name, hmeq⟩ : ∃ whole name, m = [whole, name] := by
        match m, hlen with
        | [a, b], _ => exact ⟨a, b, rfl⟩
      subst hmeq
      obtain ⟨b, hb, ht, hne, hc⟩ := functionBlockOf_spec ToLower errorRe
        plugins.GoExtractor.initialized herr content packageName imports whole name
      exact ⟨b, hb, ht, whole, name, rfl, hne, hc⟩)
  obtain ⟨b2, hb2, hP2⟩ := collectBlocks_all
    (plugins.GoExtractor.constructorBlockOf ToLower content packageName imports)
    (fun b => b.BlockType ≠ "function") (constructorRe.FindAllStringSubmatch content)
    (constructorBlockOf_spec ToLower content packageName imports)
  obtain ⟨b3, hb3, hP3⟩ := collectBlocks_all
    (plugins.GoExtractor.handlerBlockOf ToLower content packageName imports)
    (fun b => b.BlockType ≠ "function") (handlerRe.FindAllStringSubmatch content)
    (handlerBlockOf_spec ToLower content packageName imports)
  obtain ⟨b4, hb4, hP4⟩ := collectBlocks_all
    (plugins.GoExtractor.middlewareBlockOf ToLower content packageName imports)
    (fun b => b.BlockType ≠ "function") (middlewareRe.FindAllStringSubmatch content)
    (middlewareBlockOf_spec ToLower content packageName imports)
  refine ⟨functionRe, b1 ++ b2 ++ b3 ++ b4, hfun, ?_, ?_⟩
  · simp only [plugins.GoExtractor.extractFunctions, hfun, hb1, hcons, hb2, hhand, hb3, hmid,
      hb4, bind, Except.bind, pure, Except.pure]
  · obtain ⟨hQ, hR⟩ := Forall₂_split_right _ _ _ _ hF
    have hf1 : b1.filter (fun b => b.BlockType = "function") = b1 :=
      filter_all _ _ (fun b hb => decide_eq_true (hQ b hb))
    have hf2 : b2.filter (fun b => b.BlockType = "function") = [] :=
      filter_none _ _ (fun b hb => decide_eq_false (hP2 b hb))
    have hf3 : b3.filter (fun b => b.BlockType = "function") = [] :=
      filter_none _ _ (fun b hb => decide_eq_false (hP3 b hb))
    have hf4 : b4.filter (fun b => b.BlockType = "function") = [] :=
      filter_none _ _ (fun b hb => decide_eq_false (hP4 b hb))
    rw [List.filter_append, List.filter_append, List.filter_append, hf1, hf2, hf3, hf4,
      List.append_nil, List.append_nil, List.append_nil]
    exact hR

end Coto
